import Mathlib

/-!
# Verification of the Emergency Response Manager algorithmic core

A shallow embedding of the Python sources of the Emergency-Response-Manager
repository (`emergency_graph.py`, `emergency_routes.py`, `emergency_mst.py`,
`incident_scheduling.py`, `test/test.py`), together with proofs of the
behavioural properties stated in the project specification.

Modelling conventions:
* Python `dict`s are embedded as insertion-ordered association lists
  (`AList` operations `alookup` / `aset` below); assignment to a missing key
  appends, matching CPython insertion-order semantics.
* Numeric edge weights and durations are embedded as `Int`;
  `float('infinity')` becomes `⊤` in `WithTop Int`.
* `heapq` priority queues are embedded as lists whose pop operation removes
  the least element in the order CPython tuple comparison induces
  (lexicographic); for the fallible comparisons of `heap_sort_incidents`
  the CPython sift routines are embedded step by step in `Except`.
* Loops whose termination is not structural take an explicit fuel argument;
  each use is accompanied by a proof that the supplied fuel suffices.
-/

namespace ERM

/-! ## Association lists with Python dict semantics -/

variable {κ : Type} {β : Type} [DecidableEq κ]

/-- `d[k]`, returning `none` on a missing key (a `KeyError` in Python). -/
def alookup : List (κ × β) → κ → Option β
  | [], _ => none
  | (k', v') :: rest, k => if k' = k then some v' else alookup rest k

/-- `d[k] = v`: overwrite in place, or append when the key is missing. -/
def aset : List (κ × β) → κ → β → List (κ × β)
  | [], k, v => [(k, v)]
  | (k', v') :: rest, k, v =>
      if k' = k then (k', v) :: rest else (k', v') :: aset rest k v

/-- `d[k]` with a default value, used where the surrounding invariant
guarantees the key is present. -/
def alookupD (d : List (κ × β)) (k : κ) (dflt : β) : β :=
  (alookup d k).getD dflt

/-- The keys of an association list, in order. -/
def akeys (d : List (κ × β)) : List κ := d.map Prod.fst

theorem alookup_aset_self (d : List (κ × β)) (k : κ) (v : β) :
    alookup (aset d k v) k = some v := by
  induction d with
  | nil => simp [aset, alookup]
  | cons p rest ih =>
    obtain ⟨k', v'⟩ := p
    by_cases h : k' = k
    · simp [aset, h, alookup]
    · simp [aset, h, alookup, ih]

theorem alookup_aset_ne (d : List (κ × β)) (k k₀ : κ) (v : β) (h : k ≠ k₀) :
    alookup (aset d k v) k₀ = alookup d k₀ := by
  induction d with
  | nil => simp [aset, alookup, h]
  | cons p rest ih =>
    obtain ⟨k', v'⟩ := p
    by_cases h' : k' = k
    · subst h'
      simp [aset, alookup, h]
    · simp [aset, h', alookup, ih]

theorem alookupD_aset_self (d : List (κ × β)) (k : κ) (v dflt : β) :
    alookupD (aset d k v) k dflt = v := by
  simp [alookupD, alookup_aset_self]

theorem alookupD_aset_ne (d : List (κ × β)) (k k₀ : κ) (v dflt : β) (h : k ≠ k₀) :
    alookupD (aset d k v) k₀ dflt = alookupD d k₀ dflt := by
  simp [alookupD, alookup_aset_ne _ _ _ _ h]

theorem alookup_isSome_mem_keys (d : List (κ × β)) (k : κ) :
    (alookup d k).isSome ↔ k ∈ akeys d := by
  induction d with
  | nil => simp [alookup, akeys]
  | cons p rest ih =>
    obtain ⟨k', v'⟩ := p
    by_cases h : k' = k
    · subst h; simp [alookup, akeys]
    · simp [alookup, h, akeys, ih, Ne.symm h]

theorem alookup_eq_none_of_not_mem (d : List (κ × β)) (k : κ)
    (h : k ∉ akeys d) : alookup d k = none := by
  have := (alookup_isSome_mem_keys d k).not.mpr h
  exact Option.not_isSome_iff_eq_none.mp this

theorem akeys_aset (d : List (κ × β)) (k : κ) (v : β) :
    akeys (aset d k v) = if k ∈ akeys d then akeys d else akeys d ++ [k] := by
  induction d with
  | nil => simp [aset, akeys]
  | cons p rest ih =>
    obtain ⟨k', v'⟩ := p
    by_cases h : k' = k
    · subst h; simp [aset, akeys]
    · simp only [aset, h, if_false, akeys, List.map_cons]
      rw [akeys] at ih
      rw [ih]
      by_cases hm : k ∈ List.map Prod.fst rest
      · simp [akeys, hm, Ne.symm h]
      · simp [akeys, hm, Ne.symm h]

theorem mem_akeys_aset (d : List (κ × β)) (k k₀ : κ) (v : β) :
    k₀ ∈ akeys (aset d k v) ↔ k₀ ∈ akeys d ∨ k₀ = k := by
  rw [akeys_aset]
  by_cases h : k ∈ akeys d
  · simp only [h, if_true]
    constructor
    · exact Or.inl
    · rintro (hk | rfl)
      · exact hk
      · exact h
  · simp [h]

/-! ## The city graph (`emergency_graph.py`)

`EmergencyGraph` keeps an insertion-ordered vertex list and an adjacency
dictionary mapping each vertex to its neighbor-to-weight dictionary. -/

structure EmergencyGraph where
  vertices : List String
  edges : List (String × List (String × Int))

/-- `EmergencyGraph()` -/
def emptyGraph : EmergencyGraph := ⟨[], []⟩

/-- `EmergencyGraph.add_vertex` -/
def addVertex (g : EmergencyGraph) (v : String) : EmergencyGraph :=
  if v ∈ g.vertices then g
  else ⟨g.vertices ++ [v], g.edges ++ [(v, [])]⟩

/-- `EmergencyGraph.add_edge`: auto-inserts missing endpoints, then sets the
weight symmetrically. -/
def addEdge (g : EmergencyGraph) (s d : String) (w : Int) : EmergencyGraph :=
  let g1 := if s ∈ g.vertices then g else addVertex g s
  let g2 := if d ∈ g1.vertices then g1 else addVertex g1 d
  let e1 := aset g2.edges s (aset (alookupD g2.edges s []) d w)
  let e2 := aset e1 d (aset (alookupD e1 d []) s w)
  ⟨g2.vertices, e2⟩

/-- `EmergencyGraph.get_neighbors`: degrades to an empty dict on an unknown
vertex. -/
def getNeighbors (g : EmergencyGraph) (v : String) : List (String × Int) :=
  match alookup g.edges v with
  | some nbrs => nbrs
  | none => []

/-- `create_sample_city` from `emergency_graph.py`. -/
def createSampleCity : EmergencyGraph :=
  let c0 := emptyGraph
  let c1 := addVertex c0 "HQ"
  let c2 := addVertex c1 "A"
  let c3 := addVertex c2 "B"
  let c4 := addVertex c3 "C"
  let c5 := addVertex c4 "D"
  let c6 := addEdge c5 "HQ" "A" 5
  let c7 := addEdge c6 "HQ" "B" 10
  let c8 := addEdge c7 "A" "B" 3
  let c9 := addEdge c8 "A" "C" 8
  let c10 := addEdge c9 "B" "C" 6
  let c11 := addEdge c10 "B" "D" 7
  addEdge c11 "C" "D" 4

/-- Structural well-formedness maintained by the `EmergencyGraph` builders:
distinct vertices, adjacency keys matching the vertex list, and neighbor
targets that are themselves vertices. -/
structure WellFormed (g : EmergencyGraph) : Prop where
  nodup_vertices : g.vertices.Nodup
  nodup_keys : (akeys g.edges).Nodup
  keys_eq : ∀ v, v ∈ akeys g.edges ↔ v ∈ g.vertices
  nbrs_closed : ∀ u nbrs, alookup g.edges u = some nbrs →
    (∀ p ∈ nbrs, p.1 ∈ g.vertices) ∧ (nbrs.map Prod.fst).Nodup

/-- All weights of the graph are non-negative. -/
def NonnegWeights (g : EmergencyGraph) : Prop :=
  ∀ u nbrs, alookup g.edges u = some nbrs → ∀ p ∈ nbrs, 0 ≤ p.2

/-! ## `heapq` as an abstract priority queue

CPython's `heapq` is a binary min-heap: `heappop` removes the least element
in the order induced by CPython comparison of the stored values (for the
distinct tuples pushed by Dijkstra's and Prim's loops, lexicographic order).
The queue is embedded as the list of its elements; `popMin` removes the
least element under the given order. -/

section PopMin

variable {α : Type} (le : α → α → Prop) [DecidableRel le]

/-- Remove the least element of the list under `le` (the first, among
equal-least elements: for the queues embedded here those are identical). -/
def popMin : List α → Option (α × List α)
  | [] => none
  | e :: rest =>
    match popMin rest with
    | none => some (e, [])
    | some (m, r') => if le e m then some (e, rest) else some (m, e :: r')

theorem popMin_eq_none_iff (l : List α) : popMin le l = none ↔ l = [] := by
  cases l with
  | nil => simp [popMin]
  | cons e rest =>
    simp only [popMin]
    cases h : popMin le rest with
    | none => simp
    | some p =>
      obtain ⟨m, r'⟩ := p
      by_cases hle : le e m <;> simp [hle]

theorem popMin_perm (l : List α) :
    ∀ m r, popMin le l = some (m, r) → l.Perm (m :: r) := by
  induction l with
  | nil => intro m r h; simp [popMin] at h
  | cons e rest ih =>
    intro m r h
    simp only [popMin] at h
    cases hrest : popMin le rest with
    | none =>
      rw [hrest] at h
      have hnil : rest = [] := (popMin_eq_none_iff le rest).mp hrest
      subst hnil
      simp only [Option.some.injEq, Prod.mk.injEq] at h
      obtain ⟨rfl, rfl⟩ := h
      exact List.Perm.refl _
    | some p =>
      obtain ⟨m', r'⟩ := p
      rw [hrest] at h
      by_cases hle : le e m'
      · simp only [hle, if_true, Option.some.injEq, Prod.mk.injEq] at h
        obtain ⟨rfl, rfl⟩ := h
        exact List.Perm.refl _
      · simp only [hle, if_false, Option.some.injEq, Prod.mk.injEq] at h
        obtain ⟨rfl, rfl⟩ := h
        have hp := ih m' r' hrest
        exact (hp.cons e).trans (List.Perm.swap m' e r')

theorem popMin_le
    (htot : ∀ a b, le a b ∨ le b a) (htrans : ∀ a b c, le a b → le b c → le a c)
    (l : List α) : ∀ m r, popMin le l = some (m, r) → ∀ x ∈ l, le m x := by
  induction l with
  | nil => intro m r h; simp [popMin] at h
  | cons e rest ih =>
    intro m r h x hx
    simp only [popMin] at h
    cases hrest : popMin le rest with
    | none =>
      rw [hrest] at h
      have hnil : rest = [] := (popMin_eq_none_iff le rest).mp hrest
      subst hnil
      simp only [Option.some.injEq, Prod.mk.injEq] at h
      obtain ⟨rfl, rfl⟩ := h
      simp only [List.mem_singleton] at hx
      subst hx
      exact (htot x x).elim id id
    | some p =>
      obtain ⟨m', r'⟩ := p
      rw [hrest] at h
      by_cases hle : le e m'
      · simp only [hle, if_true] at h
        have h2 := Option.some.inj h
        have he : e = m := congrArg Prod.fst h2
        have hr : rest = r := congrArg Prod.snd h2
        rcases List.mem_cons.mp hx with heq | hx2
        · rw [heq, ← he]
          exact (htot e e).elim id id
        · rw [← he]
          exact htrans e m' x hle (ih m' r' hrest x hx2)
      · simp only [hle, if_false] at h
        have h2 := Option.some.inj h
        have hm : m' = m := congrArg Prod.fst h2
        rcases List.mem_cons.mp hx with heq | hx2
        · rw [heq, ← hm]
          exact (htot e m').resolve_left hle
        · rw [← hm]
          exact ih m' r' hrest x hx2

theorem popMin_mem (l : List α) (m : α) (r : List α)
    (h : popMin le l = some (m, r)) : m ∈ l :=
  (popMin_perm le l m r h).mem_iff.mpr (List.mem_cons_self m r)

theorem popMin_length (l : List α) (m : α) (r : List α)
    (h : popMin le l = some (m, r)) : l.length = r.length + 1 := by
  have := (popMin_perm le l m r h).length_eq
  simpa using this

end PopMin

/-! ## Dijkstra's algorithm (`emergency_routes.py`) -/

/-- CPython comparison of the `(distance, vertex)` tuples in the queue. -/
def pqLe (a b : Int × String) : Prop :=
  a.1 < b.1 ∨ (a.1 = b.1 ∧ a.2 ≤ b.2)

instance : DecidableRel pqLe := fun a b =>
  have hle : Decidable (a.2 ≤ b.2) :=
    decidable_of_iff (a.2.toList ≤ b.2.toList) String.le_iff_toList_le.symm
  decidable_of_iff (a.1 < b.1 ∨ (a.1 = b.1 ∧ a.2 ≤ b.2)) (by rw [pqLe])

theorem pqLe_total (a b : Int × String) : pqLe a b ∨ pqLe b a := by
  rcases lt_trichotomy a.1 b.1 with h | h | h
  · exact Or.inl (Or.inl h)
  · rcases le_total a.2 b.2 with h2 | h2
    · exact Or.inl (Or.inr ⟨h, h2⟩)
    · exact Or.inr (Or.inr ⟨h.symm, h2⟩)
  · exact Or.inr (Or.inl h)

theorem pqLe_trans (a b c : Int × String) (h₁ : pqLe a b) (h₂ : pqLe b c) :
    pqLe a c := by
  rcases h₁ with h₁ | ⟨h₁e, h₁s⟩
  · rcases h₂ with h₂ | ⟨h₂e, _⟩
    · exact Or.inl (h₁.trans h₂)
    · exact Or.inl (h₂e ▸ h₁)
  · rcases h₂ with h₂ | ⟨h₂e, h₂s⟩
    · exact Or.inl (h₁e ▸ h₂)
    · exact Or.inr ⟨h₁e.trans h₂e, h₁s.trans h₂s⟩

/-- The `distances` dict: vertex to distance, `⊤` playing `float('infinity')`. -/
abbrev DistMap := List (String × WithTop Int)

/-- The `predecessors` dict: vertex to optional predecessor. -/
abbrev PredMap := List (String × Option String)

/-- `distances[v]`; inside the main loop every queried key is present, and
the default `⊤` is never produced on the well-formed runs the theorems are
about. -/
def dget (dist : DistMap) (v : String) : WithTop Int :=
  alookupD dist v ⊤

/-- The loop state of `dijkstra`. -/
structure DState where
  dist : DistMap
  pred : PredMap
  queue : List (Int × String)
  visited : List String

/-- The `for neighbor, weight in graph.get_neighbors(current_vertex).items()`
relaxation loop of `dijkstra`. -/
def relaxNbrs (u : String) (d : Int) : List (String × Int) → DState → DState
  | [], st => st
  | (x, w) :: rest, st =>
    let nd := d + w
    let st' :=
      if (nd : WithTop Int) < dget st.dist x then
        { st with dist := aset st.dist x (nd : WithTop Int),
                  pred := aset st.pred x (some u),
                  queue := st.queue ++ [(nd, x)] }
      else st
    relaxNbrs u d rest st'

/-- One iteration of the `while priority_queue:` loop of `dijkstra`. -/
def dstep (g : EmergencyGraph) (st : DState) : DState :=
  match popMin pqLe st.queue with
  | none => st
  | some ((d, u), q') =>
    if u ∈ st.visited then { st with queue := q' }
    else
      let st1 : DState := { st with queue := q', visited := st.visited ++ [u] }
      if dget st1.dist u < (d : WithTop Int) then st1
      else relaxNbrs u d (getNeighbors g u) st1

/-- Total adjacency-list length: an upper bound on the pushes one run of
`dijkstra` can perform, since each vertex's neighbors are scanned at most
once. -/
def totalDeg (g : EmergencyGraph) : Nat :=
  g.edges.foldl (fun a p => a + p.2.length) 0

/-- Fuel that provably outlasts the main loop. -/
def dfuel (g : EmergencyGraph) : Nat := 1 + totalDeg g

/-- The fueled `while priority_queue:` loop. -/
def dloop (g : EmergencyGraph) : Nat → DState → DState
  | 0, st => st
  | fuel + 1, st => if st.queue = [] then st else dloop g fuel (dstep g st)

/-- `dijkstra(graph, start_vertex)` run to its final state. -/
def dijkstraRun (g : EmergencyGraph) (start : String) : DState :=
  let dist0 : DistMap := g.vertices.map fun v => (v, ⊤)
  let pred0 : PredMap := g.vertices.map fun v => (v, none)
  let dist1 := aset dist0 start 0
  dloop g (dfuel g) ⟨dist1, pred0, [(0, start)], []⟩

/-- `dijkstra(graph, start_vertex)`: the `(distances, predecessors)` pair. -/
def dijkstra (g : EmergencyGraph) (start : String) : DistMap × PredMap :=
  let st := dijkstraRun g start
  (st.dist, st.pred)

/-- The `while current is not None:` predecessor walk of
`get_shortest_path`, collecting vertices end-first.  `none` models a
`KeyError` (or a diverging walk, which the fuel of the single call site
rules out for the graphs the theorems quantify over). -/
def walkPreds (pred : PredMap) : Nat → String → Option (List String)
  | 0, _ => none
  | fuel + 1, current =>
    match alookup pred current with
    | none => none
    | some none => some [current]
    | some (some nxt) => (walkPreds pred fuel nxt).map fun rest => current :: rest

/-- `get_shortest_path(graph, start_vertex, end_vertex)`; `none` models an
uncaught `KeyError`. -/
def getShortestPath (g : EmergencyGraph) (s e : String) :
    Option (List String × WithTop Int) :=
  let dp := dijkstra g s
  match alookup dp.1 e with
  | none => none
  | some de =>
    if de = ⊤ then some ([], ⊤)
    else
      match walkPreds dp.2 (dp.2.length + 1) e with
      | none => none
      | some p => some (p.reverse, de)

example :
    getShortestPath createSampleCity "HQ" "D" = some (["HQ", "A", "B", "D"], ((15 : Int) : WithTop Int)) := by
  decide

/-! ## The incident data model (`incident_scheduling.py`)

Timestamps (`datetime`) are embedded as integer minutes; `timedelta(minutes=d)`
is then integer addition, and `datetime` comparisons are integer comparisons. -/

inductive IncidentType
  | fire | medical | traffic | crime | hazmat | natural
deriving DecidableEq, Repr

inductive Priority
  | critical | high | medium | low | info
deriving DecidableEq, Repr

/-- `Priority.value` (the enum's numeric payload). -/
def Priority.value : Priority → Int
  | .critical => 5
  | .high => 4
  | .medium => 3
  | .low => 2
  | .info => 1

/-- The `Resource` dataclass payload. -/
structure Resource where
  type : String
  quantity : Int
deriving DecidableEq, Repr

/-- `Resource(...)`: `__post_init__` rejects a negative quantity. -/
def mkResource (t : String) (q : Int) : Except String Resource :=
  if q < 0 then .error "Resource quantity cannot be negative"
  else .ok ⟨t, q⟩

/-- The `Incident` dataclass payload. -/
structure Incident where
  id : String
  location : String
  time : Int
  type : IncidentType
  priority : Priority
  requiredResources : List Resource
  description : String
  estimatedDuration : Int
  assignedResources : Option (List (String × List String)) := none
  status : String := "PENDING"
  completionTime : Option Int := none
deriving DecidableEq, Repr

/-- `Incident(...)`: the dataclass generates a plain `__init__` and there is
no `__post_init__`, so construction never raises; in particular
`estimated_duration` is not validated. -/
def mkIncident (id location : String) (time : Int) (ty : IncidentType)
    (pr : Priority) (req : List Resource) (descr : String) (dur : Int)
    (assigned : Option (List (String × List String)) := none)
    (status : String := "PENDING") (ct : Option Int := none) :
    Except String Incident :=
  .ok ⟨id, location, time, ty, pr, req, descr, dur, assigned, status, ct⟩

/-! ## Sorting strategies (`IncidentScheduler.merge/quick/heap_sort_incidents`) -/

section Sorts

variable {α : Type} [LinearOrder α]

/-- `IncidentScheduler._merge`. -/
def mergeTwo (key : Incident → α) : List Incident → List Incident → List Incident
  | [], r => r
  | a :: l, [] => a :: l
  | a :: l, b :: r =>
    if key a ≤ key b then a :: mergeTwo key l (b :: r)
    else b :: mergeTwo key (a :: l) r

/-- `IncidentScheduler.merge_sort_incidents`. -/
def mergeSortIncidents (key : Incident → α) (l : List Incident) : List Incident :=
  if h : l.length ≤ 1 then l
  else
    let mid := l.length / 2
    mergeTwo key (mergeSortIncidents key (l.take mid)) (mergeSortIncidents key (l.drop mid))
termination_by l.length
decreasing_by
  · simpa using Nat.lt_of_lt_of_le (Nat.div_lt_self (by omega) (by omega)) (le_refl _)
  · simp only [List.length_drop]
    omega

/-- A strict-filter output is strictly shorter as soon as one element of the
list fails the predicate. -/
theorem length_filter_lt {γ : Type} (p : γ → Bool) (l : List γ) (x : γ)
    (hx : x ∈ l) (hpx : p x = false) : (l.filter p).length < l.length := by
  induction l with
  | nil => cases hx
  | cons a t ih =>
    rcases List.mem_cons.mp hx with rfl | hx'
    · simp only [List.filter_cons, hpx, List.length_cons]
      exact Nat.lt_succ_of_le (t.length_filter_le p)
    · by_cases hpa : p a
      · simp only [List.filter_cons, hpa, if_true, List.length_cons]
        exact Nat.succ_lt_succ (ih hx')
      · simp only [List.filter_cons, hpa, if_false, List.length_cons]
        exact Nat.lt_succ_of_lt (ih hx')

/-- The middle element `l[len(l)//2]` of a nonempty list is a member. -/
theorem getD_mid_mem {γ : Type} (a : γ) (tl : List γ) (n : Nat)
    (hn : n < tl.length + 1) : ((a :: tl)[n]?.getD a) ∈ a :: tl := by
  rw [List.getElem?_eq_getElem (by simpa using hn)]
  simp only [Option.getD_some]
  exact List.getElem_mem _

/-- `IncidentScheduler.quick_sort_incidents`. -/
def quickSortIncidents (key : Incident → α) : List Incident → List Incident
  | [] => []
  | a :: tl =>
    let l := a :: tl
    if l.length ≤ 1 then l
    else
      let pivot := (l.get? (l.length / 2)).getD a
      let pivotValue := key pivot
      let left := l.filter fun x => key x < pivotValue
      let middle := l.filter fun x => key x = pivotValue
      let right := l.filter fun x => pivotValue < key x
      quickSortIncidents key left ++ middle ++ quickSortIncidents key right
termination_by l => l.length
decreasing_by
  · have hmem := getD_mid_mem a tl ((tl.length + 1) / 2)
      (Nat.div_lt_self (Nat.succ_pos _) one_lt_two)
    have hlt := length_filter_lt
      (fun x => decide (key x < key ((a :: tl)[(tl.length + 1) / 2]?.getD a)))
      (a :: tl) _ hmem (by simp)
    simpa using hlt
  · have hmem := getD_mid_mem a tl ((tl.length + 1) / 2)
      (Nat.div_lt_self (Nat.succ_pos _) one_lt_two)
    have hlt := length_filter_lt
      (fun x => decide (key ((a :: tl)[(tl.length + 1) / 2]?.getD a) < key x))
      (a :: tl) _ hmem (by simp)
    simpa using hlt

end Sorts

/-! ## `heap_sort_incidents` and CPython `heapq` with fallible comparison

`heap_sort_incidents` heapifies `(-key(incident), incident)` pairs.  When two
first components are equal, CPython tuple comparison falls through to
comparing the `Incident` payloads, which define no ordering — a `TypeError`.
The CPython `heapq` routines (`_siftup`, `_siftdown`, `heapify`, `heappop`)
are embedded step for step in `Except`. -/

inductive PyExn
  | typeError
  | indexError
deriving DecidableEq, Repr

/-- CPython `<` on the `(-key, incident)` tuples: compare first components
when they differ, otherwise fall through to the `Incident` payloads, where
anything short of equality raises. -/
def tupLt (a b : Int × Incident) : Except PyExn Bool :=
  if a.1 = b.1 then
    if a.2 = b.2 then .ok false
    else .error .typeError
  else .ok (a.1 < b.1)

/-- `heap[i]` (an `IndexError` when out of range; in-range on every reachable
call below). -/
def listGet {γ : Type} (l : List γ) (i : Nat) : Except PyExn γ :=
  match l.get? i with
  | some x => .ok x
  | none => .error .indexError

/-- CPython `heapq._siftdown`'s `while pos > startpos:` loop, with `newitem`
already in hand. -/
def siftdownAux (newitem : Int × Incident) (startpos : Nat) :
    List (Int × Incident) → Nat → Except PyExn (List (Int × Incident))
  | heap, pos =>
    if _h : startpos < pos then
      let parentpos := (pos - 1) / 2
      match listGet heap parentpos with
      | .error e => .error e
      | .ok parent =>
        match tupLt newitem parent with
        | .error e => .error e
        | .ok b =>
          if b then siftdownAux newitem startpos (heap.set pos parent) parentpos
          else .ok (heap.set pos newitem)
    else .ok (heap.set pos newitem)
termination_by heap pos => pos
decreasing_by
  calc (pos - 1) / 2 ≤ pos - 1 := Nat.div_le_self _ _
  _ < pos := by omega

/-- CPython `heapq._siftup`'s `while childpos < endpos:` loop. -/
def siftupAux (newitem : Int × Incident) (startpos : Nat) :
    List (Int × Incident) → Nat → Except PyExn (List (Int × Incident))
  | heap, pos =>
    if h : 2 * pos + 1 < heap.length then
      let childpos := 2 * pos + 1
      let rightpos := childpos + 1
      if hr : rightpos < heap.length then
        match listGet heap childpos, listGet heap rightpos with
        | .ok c, .ok r =>
          (match tupLt c r with
          | .error e => .error e
          | .ok b =>
            let cp := if b then childpos else rightpos
            match listGet heap cp with
            | .ok child => siftupAux newitem startpos (heap.set pos child) cp
            | .error e => .error e)
        | .error e, _ => .error e
        | _, .error e => .error e
      else
        match listGet heap childpos with
        | .ok child => siftupAux newitem startpos (heap.set pos child) childpos
        | .error e => .error e
    else siftdownAux newitem startpos (heap.set pos newitem) pos
termination_by heap pos => heap.length - pos
decreasing_by
  · simp only [List.length_set]
    split <;> omega
  · simp only [List.length_set]
    omega

/-- CPython `heapq._siftup`. -/
def siftup (heap : List (Int × Incident)) (pos : Nat) :
    Except PyExn (List (Int × Incident)) :=
  match listGet heap pos with
  | .error e => .error e
  | .ok newitem => siftupAux newitem pos heap pos

/-- CPython `heapq.heapify`: `for i in reversed(range(n//2)): _siftup(x, i)`. -/
def pyHeapify (heap : List (Int × Incident)) :
    Except PyExn (List (Int × Incident)) :=
  (List.range (heap.length / 2)).reverse.foldlM (fun h i => siftup h i) heap

/-- CPython `heapq.heappop`. -/
def heappop (heap : List (Int × Incident)) :
    Except PyExn ((Int × Incident) × List (Int × Incident)) :=
  match heap.getLast? with
  | none => .error .indexError
  | some lastelt =>
    match heap.dropLast with
    | [] => .ok (lastelt, [])
    | r0 :: rtail => do
      let heap2 := (r0 :: rtail).set 0 lastelt
      let heap3 ← siftup heap2 0
      .ok (r0, heap3)

/-- The `while heap:` pop loop of `heap_sort_incidents`; the fuel of the one
call site covers every pop. -/
def heapSortPops : Nat → List (Int × Incident) → Except PyExn (List Incident)
  | _, [] => .ok []
  | 0, _ :: _ => .error .indexError
  | fuel + 1, hp => do
    let er ← heappop hp
    let rest ← heapSortPops fuel er.2
    .ok (er.1.2 :: rest)

/-- `IncidentScheduler.heap_sort_incidents`. -/
def heapSortIncidents (key : Incident → Int) (incidents : List Incident) :
    Except PyExn (List Incident) :=
  match incidents with
  | [] => .ok []
  | _ :: _ => do
    let heap := incidents.map fun inc => (-key inc, inc)
    let h ← pyHeapify heap
    heapSortPops h.length h

/-! ## `sorted` and `activity_selection_greedy` -/

section PySorted

variable {α : Type} [LinearOrder α]

/-- One insertion step of a stable insertion sort. -/
def insertSorted (key : Incident → α) (x : Incident) :
    List Incident → List Incident
  | [] => [x]
  | y :: rest =>
    if key y < key x then y :: insertSorted key x rest else x :: y :: rest

/-- Python `sorted(..., key=k)` is Timsort, i.e. the stable sort by `k`;
embedded as stable insertion sort, which computes the same list. -/
def pySorted (key : Incident → α) (l : List Incident) : List Incident :=
  l.foldr (insertSorted key) []

end PySorted

/-- `incident.time + timedelta(minutes=incident.estimated_duration)`. -/
def endTime (inc : Incident) : Int := inc.time + inc.estimatedDuration

/-- The selection loop of `activity_selection_greedy` (`last_end_time`
starts as `None`). -/
def selectLoop : Option Int → List Incident → List Incident
  | _, [] => []
  | lastEnd, inc :: rest =>
    let startT := inc.time
    let endT := startT + inc.estimatedDuration
    match lastEnd with
    | none => inc :: selectLoop (some endT) rest
    | some le0 =>
      if le0 ≤ startT then inc :: selectLoop (some endT) rest
      else selectLoop (some le0) rest

/-- `IncidentScheduler.activity_selection_greedy`. -/
def activitySelectionGreedy (incidents : List Incident) : List Incident :=
  match incidents with
  | [] => []
  | _ :: _ => selectLoop none (pySorted endTime incidents)

/-! ## `knapsack_incident_assignment` -/

/-- The DP table `dp[i][w]` (row `i` uses the first `i` incidents, `w` runs
over `0..time_limit`; `dp[i][0] = 0` is the row initialisation the
`range(1, ...)` loop never touches).  Durations enter as `toNat` inside the
`duration <= w` branch, exact for the positive durations of the claim. -/
def dpK (incidents : List Incident) : Nat → Nat → Int
  | 0, _ => 0
  | i + 1, w =>
    match incidents.get? i with
    | none => dpK incidents i w
    | some inc =>
      if w = 0 then 0
      else
        let duration := inc.estimatedDuration
        let value := inc.priority.value
        if duration ≤ (w : Int) then
          max (value + dpK incidents i (w - duration.toNat)) (dpK incidents i w)
        else dpK incidents i w

/-- The backtracking loop of `knapsack_incident_assignment`, producing the
selected incidents in the decreasing-index order Python appends them. -/
def knapBack (incidents : List Incident) : Nat → Nat → List Incident
  | 0, _ => []
  | i + 1, w =>
    match incidents.get? i with
    | none => knapBack incidents i w
    | some inc =>
      if dpK incidents (i + 1) w ≠ dpK incidents i w then
        inc :: knapBack incidents i (w - inc.estimatedDuration.toNat)
      else knapBack incidents i w

/-- `IncidentScheduler.knapsack_incident_assignment`. -/
def knapsackIncidentAssignment (incidents : List Incident) (timeLimit : Int) :
    List Incident :=
  if incidents = [] ∨ timeLimit ≤ 0 then []
  else (knapBack incidents incidents.length timeLimit.toNat).reverse

/-! ## Resource allocation (`allocate_resources`, `test/test.py`)

There `shortest_path` delegates to `networkx.single_source_dijkstra`, an
external library call, abstracted as the distance oracle `sp` (the grids the
program builds are connected, so the library never raises `NetworkXNoPath`).
The inventory `G.nodes[n][rtype]` is carried as a total function; incidents
arrive as `(id, node, needs)` triples. -/

structure InvGraph where
  nodes : List String
  inv : String → String → Int

/-- One assignment record: `(rtype, best_node, best_dist)`, or
`(rtype, None, None)` when no unit was found. -/
abbrev Assn := String × Option (String × WithTop Int)

/-- The body of the `for candidate in G.nodes:` scan, carrying
`(best_node, best_dist)`. -/
def findBestScan (sp : String → String → WithTop Int) (G : InvGraph)
    (rtype target : String) :
    List String → Option String × WithTop Int → Option String × WithTop Int
  | [], best => best
  | cand :: rest, best =>
    let best' :=
      if 0 < G.inv cand rtype then
        let d := sp cand target
        if d < best.2 then (some cand, d) else best
      else best
    findBestScan sp G rtype target rest best'

/-- The `for candidate in G.nodes:` scan for the nearest available unit. -/
def findBest (sp : String → String → WithTop Int) (G : InvGraph)
    (rtype target : String) : Option String × WithTop Int :=
  findBestScan sp G rtype target G.nodes (none, ⊤)

/-- One unit of one resource type: scan, commit (decrement) or record an
absent assignment. -/
def allocUnit (sp : String → String → WithTop Int) (G : InvGraph)
    (rtype target : String) : InvGraph × Assn :=
  match findBest sp G rtype target with
  | (none, _) => (G, (rtype, none))
  | (some b, d) =>
      ({ G with
          inv := fun n r => if n = b ∧ r = rtype then G.inv n r - 1 else G.inv n r },
        (rtype, some (b, d)))

/-- `for _ in range(count):`. -/
def allocCount (sp : String → String → WithTop Int) (G : InvGraph)
    (rtype target : String) : Nat → InvGraph × List Assn
  | 0 => (G, [])
  | c + 1 =>
    let p1 := allocUnit sp G rtype target
    let p2 := allocCount sp p1.1 rtype target c
    (p2.1, p1.2 :: p2.2)

/-- `for rtype, count in needs.items():`. -/
def allocNeeds (sp : String → String → WithTop Int) (G : InvGraph)
    (target : String) : List (String × Nat) → InvGraph × List Assn
  | [] => (G, [])
  | (rtype, count) :: rest =>
    let p1 := allocCount sp G rtype target count
    let p2 := allocNeeds sp p1.1 target rest
    (p2.1, p1.2 ++ p2.2)

/-- `allocate_resources(G, incidents)`: the mutated inventory together with
the per-incident assignment lists. -/
def allocateResources (sp : String → String → WithTop Int) (G : InvGraph) :
    List (String × String × List (String × Nat)) →
    InvGraph × List (String × List Assn)
  | [] => (G, [])
  | (incId, node, needs) :: rest =>
    let p1 := allocNeeds sp G node needs
    let p2 := allocateResources sp p1.1 rest
    (p2.1, (incId, p1.2) :: p2.2)

/-! ## Concrete sample data for witnesses and counterexamples -/

/-- A field-distinct incident with duration (= sorting key) `1`. -/
def sampleInc1 : Incident :=
  ⟨"INC-1", "A", 0, .fire, .high, [], "first", 1, none, "PENDING", none⟩

/-- A field-distinct incident with duration (= sorting key) `2`. -/
def sampleInc2 : Incident :=
  ⟨"INC-2", "B", 0, .medical, .low, [], "second", 2, none, "PENDING", none⟩

/-- Shares its duration (= sorting key) with `sampleInc2`, differs in id. -/
def sampleInc3 : Incident :=
  ⟨"INC-3", "C", 0, .traffic, .low, [], "third", 2, none, "PENDING", none⟩

/-- The key-extraction function the sorting examples use. -/
def durKey (inc : Incident) : Int := inc.estimatedDuration

/-- A two-node inventory for the allocation witness. -/
def sampleInvGraph : InvGraph :=
  ⟨["HQ", "A"], fun n r => if n = "HQ" ∧ r = "fire_trucks" then 2 else 0⟩

/-- A unit-distance oracle standing for the shortest-path call. -/
def sampleSp : String → String → WithTop Int := fun _ _ => (1 : Int)

/-- One incident needing one fire truck, as the allocator receives it. -/
def sampleAllocIncs : List (String × String × List (String × Nat)) :=
  [("I1", "A", [("fire_trucks", 1)])]

/-- The `[start, start + duration)` intervals of two incidents intersect:
`max` of the starts lies strictly below `min` of the ends. -/
def OverlapI (i j : Incident) : Prop :=
  max i.time j.time < min (endTime i) (endTime j)

/-- An incident with negative duration: its interval `[5, 3)` is empty. -/
def durNegInc : Incident :=
  ⟨"NEG", "A", 5, .fire, .low, [], "negative duration", -2, none, "PENDING", none⟩

/-- An incident with interval `[0, 4)`. -/
def durPosInc : Incident :=
  ⟨"POS", "B", 0, .fire, .high, [], "positive duration", 4, none, "PENDING", none⟩

/-! ## Theorems: the incident/resource value objects (spec §7) -/

/-- **C9, counterexample.**  Constructing an `Incident` with
`estimated_duration = 0` succeeds silently: the dataclass generates a plain
`__init__` and there is no `__post_init__`, so no error is raised,
contradicting the claim that a non-positive duration is rejected at
construction of the value object. -/
theorem incident_zero_duration_accepted_cx :
    mkIncident "INC-0" "HQ" 0 .fire .critical [] "no validation" 0 =
      .ok ⟨"INC-0", "HQ", 0, .fire, .critical, [], "no validation", 0,
        none, "PENDING", none⟩ := rfl

/-- **C9, amended.**  A `Resource` with negative quantity is rejected at
construction (`ValueError` from `__post_init__`); an `Incident` is not
validated at all — a non-positive `estimated_duration` is accepted
silently. -/
theorem resource_validated_incident_not (t : String) (q : Int) (hq : q < 0)
    (idn loc : String) (time : Int) (ty : IncidentType) (pr : Priority)
    (req : List Resource) (descr : String) (dur : Int) (_hdur : dur ≤ 0) :
    mkResource t q = .error "Resource quantity cannot be negative" ∧
    mkIncident idn loc time ty pr req descr dur =
      .ok ⟨idn, loc, time, ty, pr, req, descr, dur, none, "PENDING", none⟩ := by
  refine ⟨?_, rfl⟩
  simp [mkResource, hq]

/-- Witness for `resource_validated_incident_not` at quantity `-1` and
duration `0`. -/
theorem resource_validated_incident_not_witness :
    mkResource "Fire Truck" (-1) = .error "Resource quantity cannot be negative" ∧
    mkIncident "INC-0" "HQ" 0 .fire .critical [] "d" 0 =
      .ok ⟨"INC-0", "HQ", 0, .fire, .critical, [], "d", 0,
        none, "PENDING", none⟩ :=
  resource_validated_incident_not "Fire Truck" (-1) (by decide)
    "INC-0" "HQ" 0 .fire .critical [] "d" 0 (by decide)

/-! ## Theorems: `heap_sort_incidents` on tied keys (claim C10) -/

/-- **C10.**  On a two-element list of distinct incidents whose keys compare
equal, `heap_sort_incidents` raises `TypeError`: the heap stores
`(-key, incident)` pairs, the tie in the first component makes CPython tuple
comparison fall through to the `Incident` payloads, and the dataclass defines
no ordering. -/
theorem heap_sort_equal_keys_type_error (key : Incident → Int) (i1 i2 : Incident)
    (hk : key i1 = key i2) (hne : i1 ≠ i2) :
    heapSortIncidents key [i1, i2] = .error .typeError := by
  have hneg : -key i1 = -key i2 := by rw [hk]
  have hsd : siftdownAux (-key i1, i1) 0 [(-key i2, i2), (-key i1, i1)] 1 =
      .error .typeError := by
    unfold siftdownAux
    simp [listGet, tupLt, hneg, hne]
  have hsu : siftupAux (-key i1, i1) 0 [(-key i1, i1), (-key i2, i2)] 0 =
      .error .typeError := by
    unfold siftupAux
    norm_num [List.get?]
    unfold siftupAux
    norm_num [List.set]
    exact hsd
  have hheap : pyHeapify [(-key i1, i1), (-key i2, i2)] = .error .typeError := by
    simp [pyHeapify, List.range_succ, List.foldlM_cons, List.foldlM_nil,
      siftup, listGet, hsu]
  have hrun : heapSortIncidents key [i1, i2] =
      (do
        let h ← pyHeapify [(-key i1, i1), (-key i2, i2)]
        heapSortPops h.length h) := rfl
  rw [hrun, hheap]
  rfl

/-- Witness for `heap_sort_equal_keys_type_error`: two field-distinct sample
incidents with equal duration keys. -/
theorem heap_sort_equal_keys_type_error_witness :
    heapSortIncidents durKey [sampleInc2, sampleInc3] = .error .typeError :=
  heap_sort_equal_keys_type_error durKey sampleInc2 sampleInc3
    (by decide) (by decide)

/-! ## Theorems: allocation inventory invariants (claim C5) -/

theorem findBestScan_some_pos (sp : String → String → WithTop Int)
    (G : InvGraph) (rtype target : String) (nodes : List String)
    (init : Option String × WithTop Int)
    (hinit : ∀ b, init.1 = some b → 0 < G.inv b rtype) :
    ∀ b, (findBestScan sp G rtype target nodes init).1 = some b →
      0 < G.inv b rtype := by
  induction nodes generalizing init with
  | nil => exact hinit
  | cons cand rest ih =>
    have hbest' : ∀ b,
        (if 0 < G.inv cand rtype then
          (if sp cand target < init.2 then (some cand, sp cand target) else init)
        else init).1 = some b → 0 < G.inv b rtype := by
      intro b hb
      by_cases hc : 0 < G.inv cand rtype
      · rw [if_pos hc] at hb
        by_cases hd : sp cand target < init.2
        · rw [if_pos hd] at hb
          simp only [Option.some.injEq] at hb
          subst hb
          exact hc
        · rw [if_neg hd] at hb
          exact hinit b hb
      · rw [if_neg hc] at hb
        exact hinit b hb
    exact fun b hb => ih _ hbest' b hb

/-- `allocate_resources` selects a source node only after checking
`G.nodes[candidate][rtype] > 0`. -/
theorem findBest_some_pos (sp : String → String → WithTop Int) (G : InvGraph)
    (rtype target : String) (b : String)
    (h : (findBest sp G rtype target).1 = some b) : 0 < G.inv b rtype :=
  findBestScan_some_pos sp G rtype target G.nodes (none, ⊤)
    (by intro b' hb'; simp at hb') b h

theorem allocUnit_le (sp : String → String → WithTop Int) (G : InvGraph)
    (rtype target n r : String) :
    (allocUnit sp G rtype target).1.inv n r ≤ G.inv n r := by
  unfold allocUnit
  cases hfb : findBest sp G rtype target with
  | mk ob d =>
    cases ob with
    | none => exact le_refl _
    | some b =>
      by_cases h : n = b ∧ r = rtype
      · simp only [h, and_self, if_true]
        omega
      · simp [h]

theorem allocUnit_nonneg (sp : String → String → WithTop Int) (G : InvGraph)
    (rtype target n r : String) (h0 : 0 ≤ G.inv n r) :
    0 ≤ (allocUnit sp G rtype target).1.inv n r := by
  unfold allocUnit
  cases hfb : findBest sp G rtype target with
  | mk ob d =>
    cases ob with
    | none => exact h0
    | some b =>
      by_cases h : n = b ∧ r = rtype
      · have hpos : 0 < G.inv b rtype :=
          findBest_some_pos sp G rtype target b (by rw [hfb])
        simp only [h, and_self, if_true]
        obtain ⟨rfl, rfl⟩ := h
        omega
      · simp [h, h0]

/-- Each committed unit either records an absent assignment and leaves the
inventory alone, or decrements exactly the chosen `(node, rtype)` count by
one, having checked it strictly positive. -/
theorem allocUnit_commit (sp : String → String → WithTop Int) (G : InvGraph)
    (rtype target : String) :
    ((allocUnit sp G rtype target).1 = G ∧
      (allocUnit sp G rtype target).2 = (rtype, none)) ∨
    ∃ b d, (allocUnit sp G rtype target).2 = (rtype, some (b, d)) ∧
      0 < G.inv b rtype ∧
      (allocUnit sp G rtype target).1.inv b rtype = G.inv b rtype - 1 ∧
      ∀ n r, ¬(n = b ∧ r = rtype) →
        (allocUnit sp G rtype target).1.inv n r = G.inv n r := by
  unfold allocUnit
  cases hfb : findBest sp G rtype target with
  | mk ob d =>
    cases ob with
    | none => exact Or.inl ⟨rfl, rfl⟩
    | some b =>
      refine Or.inr ⟨b, d, rfl,
        findBest_some_pos sp G rtype target b (by rw [hfb]), ?_, ?_⟩
      · simp
      · intro n r h
        simp [h]

theorem allocCount_le (sp : String → String → WithTop Int) (G : InvGraph)
    (rtype target : String) (c : Nat) (n r : String) :
    (allocCount sp G rtype target c).1.inv n r ≤ G.inv n r := by
  induction c generalizing G with
  | zero => exact le_refl _
  | succ c ih =>
    calc (allocCount sp (allocUnit sp G rtype target).1 rtype target c).1.inv n r
        ≤ (allocUnit sp G rtype target).1.inv n r := ih _
      _ ≤ G.inv n r := allocUnit_le sp G rtype target n r

theorem allocCount_nonneg (sp : String → String → WithTop Int) (G : InvGraph)
    (rtype target : String) (c : Nat) (n r : String) (h0 : 0 ≤ G.inv n r) :
    0 ≤ (allocCount sp G rtype target c).1.inv n r := by
  induction c generalizing G with
  | zero => exact h0
  | succ c ih => exact ih _ (allocUnit_nonneg sp G rtype target n r h0)

theorem allocNeeds_le (sp : String → String → WithTop Int) (G : InvGraph)
    (target : String) (needs : List (String × Nat)) (n r : String) :
    (allocNeeds sp G target needs).1.inv n r ≤ G.inv n r := by
  induction needs generalizing G with
  | nil => exact le_refl _
  | cons p rest ih =>
    obtain ⟨rtype, c⟩ := p
    calc (allocNeeds sp (allocCount sp G rtype target c).1 target rest).1.inv n r
        ≤ (allocCount sp G rtype target c).1.inv n r := ih _
      _ ≤ G.inv n r := allocCount_le sp G rtype target c n r

theorem allocNeeds_nonneg (sp : String → String → WithTop Int) (G : InvGraph)
    (target : String) (needs : List (String × Nat)) (n r : String)
    (h0 : 0 ≤ G.inv n r) : 0 ≤ (allocNeeds sp G target needs).1.inv n r := by
  induction needs generalizing G with
  | nil => exact h0
  | cons p rest ih =>
    obtain ⟨rtype, c⟩ := p
    exact ih _ (allocCount_nonneg sp G rtype target c n r h0)

theorem allocateResources_le (sp : String → String → WithTop Int) (G : InvGraph)
    (incidents : List (String × String × List (String × Nat))) (n r : String) :
    (allocateResources sp G incidents).1.inv n r ≤ G.inv n r := by
  induction incidents generalizing G with
  | nil => exact le_refl _
  | cons p rest ih =>
    obtain ⟨incId, node, needs⟩ := p
    calc (allocateResources sp (allocNeeds sp G node needs).1 rest).1.inv n r
        ≤ (allocNeeds sp G node needs).1.inv n r := ih _
      _ ≤ G.inv n r := allocNeeds_le sp G node needs n r

theorem allocateResources_nonneg (sp : String → String → WithTop Int)
    (G : InvGraph) (incidents : List (String × String × List (String × Nat)))
    (n r : String) (h0 : 0 ≤ G.inv n r) :
    0 ≤ (allocateResources sp G incidents).1.inv n r := by
  induction incidents generalizing G with
  | nil => exact h0
  | cons p rest ih =>
    obtain ⟨incId, node, needs⟩ := p
    exact ih _ (allocNeeds_nonneg sp G node needs n r h0)

/-- **C5.**  Over one `allocate_resources` pass the inventory is pointwise
non-increasing and, from a non-negative start, never becomes negative; and
each unit allocation either leaves the inventory untouched (absent
assignment) or decrements exactly the chosen count by one after checking it
strictly positive — so the same two facts hold at every intermediate state
of the pass, which is a composition of such unit steps. -/
theorem allocate_resources_inventory_safe (sp : String → String → WithTop Int)
    (G : InvGraph) (incidents : List (String × String × List (String × Nat))) :
    (∀ n r, (allocateResources sp G incidents).1.inv n r ≤ G.inv n r) ∧
    (∀ n r, 0 ≤ G.inv n r → 0 ≤ (allocateResources sp G incidents).1.inv n r) ∧
    (∀ (G₀ : InvGraph) (rtype target : String),
      ((allocUnit sp G₀ rtype target).1 = G₀ ∧
        (allocUnit sp G₀ rtype target).2 = (rtype, none)) ∨
      ∃ b d, (allocUnit sp G₀ rtype target).2 = (rtype, some (b, d)) ∧
        0 < G₀.inv b rtype ∧
        (allocUnit sp G₀ rtype target).1.inv b rtype = G₀.inv b rtype - 1 ∧
        ∀ n r, ¬(n = b ∧ r = rtype) →
          (allocUnit sp G₀ rtype target).1.inv n r = G₀.inv n r) :=
  ⟨fun n r => allocateResources_le sp G incidents n r,
   fun n r h0 => allocateResources_nonneg sp G incidents n r h0,
   fun G₀ rtype target => allocUnit_commit sp G₀ rtype target⟩

/-- Witness for `allocate_resources_inventory_safe` on a concrete two-node
inventory serving one incident. -/
theorem allocate_resources_inventory_safe_witness :
    (allocateResources sampleSp sampleInvGraph sampleAllocIncs).1.inv
        "HQ" "fire_trucks" ≤ sampleInvGraph.inv "HQ" "fire_trucks" ∧
    0 ≤ (allocateResources sampleSp sampleInvGraph sampleAllocIncs).1.inv
        "HQ" "fire_trucks" :=
  ⟨(allocate_resources_inventory_safe sampleSp sampleInvGraph
      sampleAllocIncs).1 "HQ" "fire_trucks",
   (allocate_resources_inventory_safe sampleSp sampleInvGraph
      sampleAllocIncs).2.1 "HQ" "fire_trucks" (by decide)⟩

/-! ## Theorems: sorting strategies (claim C6)

Merge sort and three-way-partition quick sort are both stable: each output
is sorted by the key and preserves, for every key value, the sublist of
input elements carrying that value.  A sorted list is determined by those
sublists, so the two agree on every input.  Heap sort instead pops the
negated keys in ascending order, i.e. sorts descending — the counterexample
exhibits the clash on a concrete two-element list. -/

section SortTheory

variable {α : Type} [LinearOrder α]

/-- Weakly increasing in the extracted key. -/
abbrev SortedByKey (key : Incident → α) (l : List Incident) : Prop :=
  List.Pairwise (fun a b => key a ≤ key b) l

/-- The input elements carrying key value `v`, in input order. -/
def keyFilter (key : Incident → α) (v : α) (l : List Incident) : List Incident :=
  l.filter fun x => key x = v

theorem keyFilter_nil (key : Incident → α) (v : α) : keyFilter key v [] = [] := rfl

theorem keyFilter_cons (key : Incident → α) (v : α) (a : Incident)
    (l : List Incident) :
    keyFilter key v (a :: l) =
      if key a = v then a :: keyFilter key v l else keyFilter key v l := by
  by_cases h : key a = v
  · simp [keyFilter, List.filter_cons, h]
  · simp [keyFilter, List.filter_cons, h]

theorem keyFilter_append (key : Incident → α) (v : α) (l r : List Incident) :
    keyFilter key v (l ++ r) = keyFilter key v l ++ keyFilter key v r := by
  simp [keyFilter, List.filter_append]

theorem mem_keyFilter (key : Incident → α) (v : α) (l : List Incident)
    (x : Incident) : x ∈ keyFilter key v l ↔ x ∈ l ∧ key x = v := by
  simp [keyFilter, List.mem_filter]

theorem keyFilter_eq_nil (key : Incident → α) (v : α) (l : List Incident)
    (h : ∀ x ∈ l, key x ≠ v) : keyFilter key v l = [] := by
  induction l with
  | nil => rfl
  | cons a t ih =>
    rw [keyFilter_cons, if_neg (h a (List.mem_cons_self a t))]
    exact ih fun x hx => h x (List.mem_cons_of_mem a hx)

theorem mergeTwo_perm (key : Incident → α) :
    ∀ l r : List Incident, (mergeTwo key l r).Perm (l ++ r) := by
  intro l
  induction l with
  | nil => intro r; simp [mergeTwo]
  | cons a l' ihl =>
    intro r
    induction r with
    | nil => simp [mergeTwo]
    | cons b r' ihr =>
      by_cases h : key a ≤ key b
      · simp only [mergeTwo, h, if_true]
        exact (ihl (b :: r')).cons a
      · simp only [mergeTwo, h, if_false]
        exact (ihr.cons b).trans List.perm_middle.symm

theorem mergeTwo_mem (key : Incident → α) (l r : List Incident) (x : Incident) :
    x ∈ mergeTwo key l r ↔ x ∈ l ∨ x ∈ r := by
  rw [(mergeTwo_perm key l r).mem_iff, List.mem_append]

theorem mergeTwo_sorted (key : Incident → α) :
    ∀ l r : List Incident, SortedByKey key l → SortedByKey key r →
      SortedByKey key (mergeTwo key l r) := by
  intro l
  induction l with
  | nil => intro r _ hr; simpa [mergeTwo] using hr
  | cons a l' ihl =>
    intro r
    induction r with
    | nil => intro hl _; simpa [mergeTwo] using hl
    | cons b r' ihr =>
      intro hl hr
      rcases List.pairwise_cons.mp hl with ⟨ha, hl'⟩
      rcases List.pairwise_cons.mp hr with ⟨hb, hr'⟩
      by_cases h : key a ≤ key b
      · simp only [mergeTwo, h, if_true]
        refine List.pairwise_cons.mpr ⟨?_, ihl (b :: r') hl' hr⟩
        intro x hx
        rcases (mergeTwo_mem key l' (b :: r') x).mp hx with hx | hx
        · exact ha x hx
        · rcases List.mem_cons.mp hx with rfl | hx
          · exact h
          · exact h.trans (hb x hx)
      · simp only [mergeTwo, h, if_false]
        have hba : key b ≤ key a := le_of_not_le h
        refine List.pairwise_cons.mpr ⟨?_, ihr hl hr'⟩
        intro x hx
        rcases (mergeTwo_mem key (a :: l') r' x).mp hx with hx | hx
        · rcases List.mem_cons.mp hx with rfl | hx
          · exact hba
          · exact hba.trans (ha x hx)
        · exact hb x hx

theorem mergeTwo_keyFilter (key : Incident → α) :
    ∀ l r : List Incident, SortedByKey key l → SortedByKey key r →
      ∀ v, keyFilter key v (mergeTwo key l r) =
        keyFilter key v l ++ keyFilter key v r := by
  intro l
  induction l with
  | nil => intro r _ _ v; simp [mergeTwo, keyFilter]
  | cons a l' ihl =>
    intro r
    induction r with
    | nil => intro _ _ v; simp [mergeTwo, keyFilter]
    | cons b r' ihr =>
      intro hl hr v
      rcases List.pairwise_cons.mp hl with ⟨ha, hl'⟩
      rcases List.pairwise_cons.mp hr with ⟨hb, hr'⟩
      by_cases h : key a ≤ key b
      · simp only [mergeTwo, h, if_true]
        rw [keyFilter_cons]
        by_cases hav : key a = v
        · rw [if_pos hav, ihl (b :: r') hl' hr v, keyFilter_cons key v a l',
            if_pos hav, List.cons_append]
        · rw [if_neg hav, ihl (b :: r') hl' hr v, keyFilter_cons key v a l',
            if_neg hav]
      · simp only [mergeTwo, h, if_false]
        have hba : key b < key a := lt_of_not_le h
        rw [keyFilter_cons]
        by_cases hbv : key b = v
        · have hnil : keyFilter key v (a :: l') = [] := by
            refine keyFilter_eq_nil key v _ ?_
            intro x hx hxv
            have hax : key a ≤ key x := by
              rcases List.mem_cons.mp hx with rfl | hx'
              · exact le_refl _
              · exact ha x hx'
            rw [hxv, ← hbv] at hax
            exact absurd (hba.trans_le hax) (lt_irrefl _)
          rw [if_pos hbv, ihr hl hr' v, hnil, keyFilter_cons key v b r',
            if_pos hbv]
          simp
        · rw [if_neg hbv, ihr hl hr' v, keyFilter_cons key v b r', if_neg hbv]

theorem mergeSortIncidents_short (key : Incident → α) (l : List Incident)
    (h : l.length ≤ 1) : mergeSortIncidents key l = l := by
  conv_lhs => rw [mergeSortIncidents]
  rw [dif_pos h]

theorem mergeSortIncidents_rec (key : Incident → α) (l : List Incident)
    (h : ¬ l.length ≤ 1) :
    mergeSortIncidents key l =
      mergeTwo key (mergeSortIncidents key (l.take (l.length / 2)))
        (mergeSortIncidents key (l.drop (l.length / 2))) := by
  conv_lhs => rw [mergeSortIncidents]
  rw [dif_neg h]

theorem mergeSort_sorted_filter (key : Incident → α) :
    ∀ (n : Nat) (l : List Incident), l.length ≤ n →
      SortedByKey key (mergeSortIncidents key l) ∧
      ∀ v, keyFilter key v (mergeSortIncidents key l) = keyFilter key v l := by
  intro n
  induction n with
  | zero =>
    intro l hl
    have hnil : l = [] := List.eq_nil_of_length_eq_zero (Nat.le_zero.mp hl)
    subst hnil
    rw [mergeSortIncidents_short key [] (by simp)]
    exact ⟨List.Pairwise.nil, fun v => rfl⟩
  | succ n ih =>
    intro l hl
    by_cases hlen : l.length ≤ 1
    · rw [mergeSortIncidents_short key l hlen]
      refine ⟨?_, fun v => rfl⟩
      rcases l with _ | ⟨a, _ | ⟨b, t⟩⟩
      · exact List.Pairwise.nil
      · exact List.pairwise_singleton _ a
      · simp at hlen
    · rw [mergeSortIncidents_rec key l hlen]
      have h1 : (l.take (l.length / 2)).length ≤ n := by
        simp only [List.length_take]
        omega
      have h2 : (l.drop (l.length / 2)).length ≤ n := by
        simp only [List.length_drop]
        omega
      obtain ⟨hs1, hf1⟩ := ih _ h1
      obtain ⟨hs2, hf2⟩ := ih _ h2
      refine ⟨mergeTwo_sorted key _ _ hs1 hs2, fun v => ?_⟩
      rw [mergeTwo_keyFilter key _ _ hs1 hs2 v, hf1, hf2, ← keyFilter_append,
        List.take_append_drop]

theorem mergeSortIncidents_sorted (key : Incident → α) (l : List Incident) :
    SortedByKey key (mergeSortIncidents key l) :=
  (mergeSort_sorted_filter key l.length l le_rfl).1

theorem mergeSortIncidents_keyFilter (key : Incident → α) (l : List Incident)
    (v : α) : keyFilter key v (mergeSortIncidents key l) = keyFilter key v l :=
  (mergeSort_sorted_filter key l.length l le_rfl).2 v

theorem quickSortIncidents_nil (key : Incident → α) :
    quickSortIncidents key [] = [] := by
  rw [quickSortIncidents]

theorem quickSortIncidents_short (key : Incident → α) (a : Incident)
    (tl : List Incident) (h : (a :: tl).length ≤ 1) :
    quickSortIncidents key (a :: tl) = a :: tl := by
  conv_lhs => rw [quickSortIncidents]
  rw [if_pos h]

theorem quickSortIncidents_rec (key : Incident → α) (a : Incident)
    (tl : List Incident) (h : ¬ (a :: tl).length ≤ 1) (pv : α)
    (hpv : pv = key (((a :: tl).get? ((a :: tl).length / 2)).getD a)) :
    quickSortIncidents key (a :: tl) =
      quickSortIncidents key ((a :: tl).filter fun x => key x < pv) ++
        ((a :: tl).filter fun x => key x = pv) ++
        quickSortIncidents key ((a :: tl).filter fun x => pv < key x) := by
  subst hpv
  conv_lhs => rw [quickSortIncidents]
  rw [if_neg h]

theorem quickSort_mem (key : Incident → α) :
    ∀ (n : Nat) (l : List Incident), l.length ≤ n →
      ∀ x ∈ quickSortIncidents key l, x ∈ l := by
  intro n
  induction n with
  | zero =>
    intro l hl x hx
    have hnil : l = [] := List.eq_nil_of_length_eq_zero (Nat.le_zero.mp hl)
    subst hnil
    rw [quickSortIncidents_nil] at hx
    cases hx
  | succ n ih =>
    intro l hl x hx
    rcases l with _ | ⟨a, tl⟩
    · rw [quickSortIncidents_nil] at hx
      cases hx
    by_cases hlen : (a :: tl).length ≤ 1
    · rwa [quickSortIncidents_short key a tl hlen] at hx
    rw [quickSortIncidents_rec key a tl hlen _ rfl] at hx
    have hpm := getD_mid_mem a tl ((a :: tl).length / 2)
      (by simpa using Nat.div_lt_self (Nat.succ_pos _) one_lt_two)
    have hL : ((a :: tl).filter fun x =>
        key x < key (((a :: tl).get? ((a :: tl).length / 2)).getD a)).length ≤ n := by
      have := length_filter_lt
        (fun x => decide (key x < key (((a :: tl).get? ((a :: tl).length / 2)).getD a)))
        (a :: tl) _ hpm (by simp)
      simp only [List.length_cons] at this hl ⊢
      omega
    have hR : ((a :: tl).filter fun x =>
        key (((a :: tl).get? ((a :: tl).length / 2)).getD a) < key x).length ≤ n := by
      have := length_filter_lt
        (fun x => decide (key (((a :: tl).get? ((a :: tl).length / 2)).getD a) < key x))
        (a :: tl) _ hpm (by simp)
      simp only [List.length_cons] at this hl ⊢
      omega
    rcases List.mem_append.mp hx with hx | hx
    · rcases List.mem_append.mp hx with hx | hx
      · exact (List.mem_filter.mp (ih _ hL x hx)).1
      · exact (List.mem_filter.mp hx).1
    · exact (List.mem_filter.mp (ih _ hR x hx)).1

theorem quickSort_sorted_filter (key : Incident → α) :
    ∀ (n : Nat) (l : List Incident), l.length ≤ n →
      SortedByKey key (quickSortIncidents key l) ∧
      ∀ v, keyFilter key v (quickSortIncidents key l) = keyFilter key v l := by
  intro n
  induction n with
  | zero =>
    intro l hl
    have hnil : l = [] := List.eq_nil_of_length_eq_zero (Nat.le_zero.mp hl)
    subst hnil
    rw [quickSortIncidents_nil]
    exact ⟨List.Pairwise.nil, fun v => rfl⟩
  | succ n ih =>
    intro l hl
    rcases l with _ | ⟨a, tl⟩
    · rw [quickSortIncidents_nil]
      exact ⟨List.Pairwise.nil, fun v => rfl⟩
    by_cases hlen : (a :: tl).length ≤ 1
    · rw [quickSortIncidents_short key a tl hlen]
      refine ⟨?_, fun v => rfl⟩
      rcases tl with _ | ⟨b, t⟩
      · exact List.pairwise_singleton _ a
      · simp at hlen
    rw [quickSortIncidents_rec key a tl hlen _ rfl]
    have hpm := getD_mid_mem a tl ((a :: tl).length / 2)
      (by simpa using Nat.div_lt_self (Nat.succ_pos _) one_lt_two)
    set pv := key (((a :: tl).get? ((a :: tl).length / 2)).getD a) with hpv
    have hL : ((a :: tl).filter fun x => key x < pv).length ≤ n := by
      have := length_filter_lt (fun x => decide (key x < pv)) (a :: tl) _ hpm
        (by simp [hpv])
      simp only [List.length_cons] at this hl ⊢
      omega
    have hR : ((a :: tl).filter fun x => pv < key x).length ≤ n := by
      have := length_filter_lt (fun x => decide (pv < key x)) (a :: tl) _ hpm
        (by simp [hpv])
      simp only [List.length_cons] at this hl ⊢
      omega
    obtain ⟨hsL, hfL⟩ := ih _ hL
    obtain ⟨hsR, hfR⟩ := ih _ hR
    constructor
    · rw [List.append_assoc]
      refine List.pairwise_append.mpr ⟨hsL, ?_, ?_⟩
      · refine List.pairwise_append.mpr ⟨?_, hsR, ?_⟩
        · refine List.pairwise_of_forall_mem_list ?_
          intro x hx y hy
          have hx' : key x = pv := by simpa using (List.mem_filter.mp hx).2
          have hy' : key y = pv := by simpa using (List.mem_filter.mp hy).2
          rw [hx', hy']
        · intro x hx y hy
          have hx' : key x = pv := by simpa using (List.mem_filter.mp hx).2
          have hy0 := quickSort_mem key n _ hR y hy
          have hy' : pv < key y := by simpa using (List.mem_filter.mp hy0).2
          rw [hx']
          exact hy'.le
      · intro x hx y hy
        have hx0 := quickSort_mem key n _ hL x hx
        have hx' : key x < pv := by simpa using (List.mem_filter.mp hx0).2
        rcases List.mem_append.mp hy with hy | hy
        · have hy' : key y = pv := by simpa using (List.mem_filter.mp hy).2
          rw [hy']
          exact hx'.le
        · have hy0 := quickSort_mem key n _ hR y hy
          have hy' : pv < key y := by simpa using (List.mem_filter.mp hy0).2
          exact (hx'.trans hy').le
    · intro v
      rw [keyFilter_append, keyFilter_append, hfL v, hfR v]
      rcases lt_trichotomy v pv with hv | hv | hv
      · have h1 : keyFilter key v ((a :: tl).filter fun x => key x < pv) =
            keyFilter key v (a :: tl) := by
          rw [keyFilter, List.filter_filter, keyFilter]
          refine List.filter_congr ?_
          intro x _
          by_cases hxv : key x = v
          · simp [hxv, hv]
          · simp [hxv]
        have h2 : keyFilter key v ((a :: tl).filter fun x => key x = pv) = [] := by
          rw [keyFilter, List.filter_filter]
          refine List.filter_eq_nil_iff.mpr ?_
          intro x _
          simp only [Bool.and_eq_true, decide_eq_true_eq, not_and]
          intro hxv hxpv
          exact absurd (hxv ▸ hxpv) hv.ne
        have h3 : keyFilter key v ((a :: tl).filter fun x => pv < key x) = [] := by
          rw [keyFilter, List.filter_filter]
          refine List.filter_eq_nil_iff.mpr ?_
          intro x _
          simp only [Bool.and_eq_true, decide_eq_true_eq, not_and]
          intro hxv hxpv
          rw [hxv] at hxpv
          exact absurd (hv.trans hxpv) (lt_irrefl _)
        rw [h1, h2, h3, List.append_nil, List.append_nil]
      · have h1 : keyFilter key v ((a :: tl).filter fun x => key x < pv) = [] := by
          rw [keyFilter, List.filter_filter]
          refine List.filter_eq_nil_iff.mpr ?_
          intro x _
          simp only [Bool.and_eq_true, decide_eq_true_eq, not_and]
          intro hxv hxpv
          rw [hxv, hv] at hxpv
          exact absurd hxpv (lt_irrefl _)
        have h2 : keyFilter key v ((a :: tl).filter fun x => key x = pv) =
            keyFilter key v (a :: tl) := by
          rw [keyFilter, List.filter_filter, keyFilter]
          refine List.filter_congr ?_
          intro x _
          by_cases hxv : key x = v
          · simp [hxv, hv]
          · simp [hxv]
        have h3 : keyFilter key v ((a :: tl).filter fun x => pv < key x) = [] := by
          rw [keyFilter, List.filter_filter]
          refine List.filter_eq_nil_iff.mpr ?_
          intro x _
          simp only [Bool.and_eq_true, decide_eq_true_eq, not_and]
          intro hxv hxpv
          rw [hxv, hv] at hxpv
          exact absurd hxpv (lt_irrefl _)
        rw [h1, h2, h3, List.nil_append, List.append_nil]
      · have h1 : keyFilter key v ((a :: tl).filter fun x => key x < pv) = [] := by
          rw [keyFilter, List.filter_filter]
          refine List.filter_eq_nil_iff.mpr ?_
          intro x _
          simp only [Bool.and_eq_true, decide_eq_true_eq, not_and]
          intro hxv hxpv
          rw [hxv] at hxpv
          exact absurd (hxpv.trans hv) (lt_irrefl _)
        have h2 : keyFilter key v ((a :: tl).filter fun x => key x = pv) = [] := by
          rw [keyFilter, List.filter_filter]
          refine List.filter_eq_nil_iff.mpr ?_
          intro x _
          simp only [Bool.and_eq_true, decide_eq_true_eq, not_and]
          intro hxv hxpv
          exact absurd (hxv ▸ hxpv) hv.ne'
        have h3 : keyFilter key v ((a :: tl).filter fun x => pv < key x) =
            keyFilter key v (a :: tl) := by
          rw [keyFilter, List.filter_filter, keyFilter]
          refine List.filter_congr ?_
          intro x _
          by_cases hxv : key x = v
          · simp [hxv, hv]
          · simp [hxv]
        rw [h1, h2, h3, List.nil_append, List.nil_append]

theorem quickSortIncidents_sorted (key : Incident → α) (l : List Incident) :
    SortedByKey key (quickSortIncidents key l) :=
  (quickSort_sorted_filter key l.length l le_rfl).1

theorem quickSortIncidents_keyFilter (key : Incident → α) (l : List Incident)
    (v : α) : keyFilter key v (quickSortIncidents key l) = keyFilter key v l :=
  (quickSort_sorted_filter key l.length l le_rfl).2 v

/-- A list sorted by key is determined by its per-key-value sublists: the
uniqueness of stable sorting. -/
theorem sorted_keyFilter_unique (key : Incident → α) :
    ∀ out1 out2 : List Incident, SortedByKey key out1 → SortedByKey key out2 →
      (∀ v, keyFilter key v out1 = keyFilter key v out2) → out1 = out2 := by
  intro out1
  induction out1 with
  | nil =>
    intro out2 _ _ hf
    rcases out2 with _ | ⟨b, t2⟩
    · rfl
    · have hcontra := hf (key b)
      rw [keyFilter_nil, keyFilter_cons, if_pos rfl] at hcontra
      cases hcontra
  | cons a t1 ih =>
    intro out2 h1 h2 hf
    rcases out2 with _ | ⟨b, t2⟩
    · have hcontra := hf (key a)
      rw [keyFilter_cons, if_pos rfl, keyFilter_nil] at hcontra
      cases hcontra
    rcases List.pairwise_cons.mp h1 with ⟨ha1, ht1⟩
    rcases List.pairwise_cons.mp h2 with ⟨hb2, ht2⟩
    have hba : key b ≤ key a := by
      have hfa := hf (key a)
      rw [keyFilter_cons, if_pos rfl] at hfa
      have hmem : a ∈ keyFilter key (key a) (b :: t2) := by
        rw [← hfa]
        exact List.mem_cons_self _ _
      rcases (mem_keyFilter key _ _ _).mp hmem with ⟨hmem2, _⟩
      rcases List.mem_cons.mp hmem2 with rfl | hmem3
      · exact le_refl _
      · exact hb2 a hmem3
    have hab : key a ≤ key b := by
      have hfb := hf (key b)
      have hmem : b ∈ keyFilter key (key b) (a :: t1) := by
        rw [hfb, keyFilter_cons, if_pos rfl]
        exact List.mem_cons_self _ _
      rcases (mem_keyFilter key _ _ _).mp hmem with ⟨hmem2, _⟩
      rcases List.mem_cons.mp hmem2 with rfl | hmem3
      · exact le_refl _
      · exact ha1 b hmem3
    have hk : key a = key b := le_antisymm hab hba
    have hfa := hf (key a)
    rw [keyFilter_cons, if_pos rfl, keyFilter_cons, if_pos hk.symm] at hfa
    injection hfa with hhead htail
    subst hhead
    refine congrArg (List.cons a) (ih t2 ht1 ht2 ?_)
    intro v
    by_cases hv : v = key a
    · subst hv
      exact htail
    · have hrest := hf v
      rw [keyFilter_cons, if_neg (fun he => hv he.symm),
        keyFilter_cons, if_neg (fun he => hv he.symm)] at hrest
      exact hrest

/-- **C6, amended.**  For every list of incidents and every key-extraction
function, `merge_sort_incidents` and `quick_sort_incidents` produce the same
output ordering: both are stable sorts by the key, and a stable sort is
unique. -/
theorem merge_sort_eq_quick_sort (key : Incident → α) (l : List Incident) :
    mergeSortIncidents key l = quickSortIncidents key l :=
  sorted_keyFilter_unique key _ _ (mergeSortIncidents_sorted key l)
    (quickSortIncidents_sorted key l)
    (fun v => by
      rw [mergeSortIncidents_keyFilter, quickSortIncidents_keyFilter])

theorem mergeSortIncidents_pair (key : Incident → α) (a b : Incident) :
    mergeSortIncidents key [a, b] = if key a ≤ key b then [a, b] else [b, a] := by
  rw [mergeSortIncidents_rec key [a, b] (by norm_num)]
  have ht : List.take ([a, b].length / 2) [a, b] = [a] := by norm_num
  have hd : List.drop ([a, b].length / 2) [a, b] = [b] := by norm_num
  rw [ht, hd, mergeSortIncidents_short key [a] (by norm_num),
    mergeSortIncidents_short key [b] (by norm_num)]
  by_cases h : key a ≤ key b
  · simp [mergeTwo, h]
  · simp [mergeTwo, h]

theorem quickSortIncidents_pair (key : Incident → α) (a b : Incident) :
    quickSortIncidents key [a, b] = if key a ≤ key b then [a, b] else [b, a] := by
  rw [quickSortIncidents_rec key a [b] (by norm_num) (key b) (by norm_num [List.get?])]
  rcases lt_trichotomy (key a) (key b) with h | h | h
  · rw [if_pos h.le]
    have e1 : [a, b].filter (fun x => key x < key b) = [a] := by
      simp [List.filter_cons, h]
    have e2 : [a, b].filter (fun x => key x = key b) = [b] := by
      simp [List.filter_cons, h.ne]
    have e3 : [a, b].filter (fun x => key b < key x) = [] := by
      simp [List.filter_cons, asymm h]
    rw [e1, e2, e3, quickSortIncidents_short key a [] (by norm_num),
      quickSortIncidents_nil]
    rfl
  · rw [if_pos h.le]
    have e1 : [a, b].filter (fun x => key x < key b) = [] := by
      simp [List.filter_cons, h]
    have e2 : [a, b].filter (fun x => key x = key b) = [a, b] := by
      simp [List.filter_cons, h]
    have e3 : [a, b].filter (fun x => key b < key x) = [] := by
      simp [List.filter_cons, h]
    rw [e1, e2, e3, quickSortIncidents_nil]
    rfl
  · rw [if_neg (not_le.mpr h)]
    have e1 : [a, b].filter (fun x => key x < key b) = [] := by
      simp [List.filter_cons, asymm h]
    have e2 : [a, b].filter (fun x => key x = key b) = [b] := by
      simp [List.filter_cons, h.ne']
    have e3 : [a, b].filter (fun x => key b < key x) = [a] := by
      simp [List.filter_cons, h]
    rw [e1, e2, e3, quickSortIncidents_nil,
      quickSortIncidents_short key a [] (by norm_num)]
    rfl

end SortTheory

/-- **C6, counterexample.**  On the two-element list `[sampleInc1, sampleInc2]`
with distinct duration keys `1 < 2`, merge sort and quick sort return the
ascending order while heap sort returns the descending order: applied with
the same key, the three sorts do not produce the same output ordering. -/
theorem heap_sort_not_same_ordering_cx :
    mergeSortIncidents durKey [sampleInc1, sampleInc2] = [sampleInc1, sampleInc2] ∧
    quickSortIncidents durKey [sampleInc1, sampleInc2] = [sampleInc1, sampleInc2] ∧
    heapSortIncidents durKey [sampleInc1, sampleInc2] = .ok [sampleInc2, sampleInc1] := by
  refine ⟨?_, ?_, ?_⟩
  · rw [mergeSortIncidents_pair]
    norm_num [durKey, sampleInc1, sampleInc2]
  · rw [quickSortIncidents_pair]
    norm_num [durKey, sampleInc1, sampleInc2]
  · have h1 : siftdownAux (-1, sampleInc1) 0 [(-2, sampleInc2), (-1, sampleInc1)] 1 =
        .ok [(-2, sampleInc2), (-1, sampleInc1)] := by
      unfold siftdownAux
      norm_num [listGet, tupLt]
    have h2 : siftupAux (-1, sampleInc1) 0 [(-1, sampleInc1), (-2, sampleInc2)] 0 =
        .ok [(-2, sampleInc2), (-1, sampleInc1)] := by
      unfold siftupAux
      norm_num [List.get?]
      unfold siftupAux
      norm_num [List.set]
      exact h1
    have h3 : pyHeapify [(-1, sampleInc1), (-2, sampleInc2)] =
        .ok [(-2, sampleInc2), (-1, sampleInc1)] := by
      simp [pyHeapify, List.range_succ, List.foldlM_cons, List.foldlM_nil, siftup,
        listGet, h2]
    have h4 : siftupAux (-1, sampleInc1) 0 [(-1, sampleInc1)] 0 =
        .ok [(-1, sampleInc1)] := by
      unfold siftupAux
      norm_num
      unfold siftdownAux
      norm_num [List.set]
    have h5 : heappop [(-2, sampleInc2), (-1, sampleInc1)] =
        .ok ((-2, sampleInc2), [(-1, sampleInc1)]) := by
      simp [heappop, siftup, listGet, h4, Except.bind]
      rfl
    have h6 : heappop [(-1, sampleInc1)] = .ok ((-1, sampleInc1), []) := by
      simp [heappop]
    show (do
        let h ← pyHeapify [(-1, sampleInc1), (-2, sampleInc2)]
        heapSortPops h.length h) = Except.ok [sampleInc2, sampleInc1]
    rw [h3]
    show heapSortPops 2 [(-2, sampleInc2), (-1, sampleInc1)] =
      .ok [sampleInc2, sampleInc1]
    have hp2 : heapSortPops 2 [(-2, sampleInc2), (-1, sampleInc1)] = (do
        let er ← heappop [(-2, sampleInc2), (-1, sampleInc1)]
        let rest ← heapSortPops 1 er.2
        Except.ok (er.1.2 :: rest)) := rfl
    rw [hp2, h5]
    show (do
        let rest ← heapSortPops 1 [(-1, sampleInc1)]
        Except.ok (sampleInc2 :: rest)) = Except.ok [sampleInc2, sampleInc1]
    have hp1 : heapSortPops 1 [(-1, sampleInc1)] = (do
        let er ← heappop [(-1, sampleInc1)]
        let rest ← heapSortPops 0 er.2
        Except.ok (er.1.2 :: rest)) := rfl
    rw [hp1, h6]
    rfl

/-! ## Theorems: activity selection (claim C4) -/

section ActivitySelection

variable {α : Type} [LinearOrder α]

theorem insertSorted_mem (key : Incident → α) (a x : Incident) :
    ∀ l : List Incident, x ∈ insertSorted key a l ↔ x = a ∨ x ∈ l := by
  intro l
  induction l with
  | nil => simp [insertSorted]
  | cons y rest ih =>
    by_cases h : key y < key a
    · simp only [insertSorted, h, if_true, List.mem_cons, ih]
      tauto
    · simp only [insertSorted, h, if_false, List.mem_cons]

theorem insertSorted_perm (key : Incident → α) (a : Incident) :
    ∀ l : List Incident, (insertSorted key a l).Perm (a :: l) := by
  intro l
  induction l with
  | nil => simp [insertSorted]
  | cons y rest ih =>
    by_cases h : key y < key a
    · simp only [insertSorted, h, if_true]
      exact (ih.cons y).trans (List.Perm.swap a y rest)
    · simp [insertSorted, h]

theorem insertSorted_sorted (key : Incident → α) (a : Incident) :
    ∀ l : List Incident, SortedByKey key l →
      SortedByKey key (insertSorted key a l) := by
  intro l
  induction l with
  | nil => intro _; simp [insertSorted]
  | cons y rest ih =>
    intro hl
    rcases List.pairwise_cons.mp hl with ⟨hy, hrest⟩
    by_cases h : key y < key a
    · simp only [insertSorted, h, if_true]
      refine List.pairwise_cons.mpr ⟨?_, ih hrest⟩
      intro x hx
      rcases (insertSorted_mem key a x rest).mp hx with rfl | hx
      · exact h.le
      · exact hy x hx
    · simp only [insertSorted, h, if_false]
      refine List.pairwise_cons.mpr ⟨?_, hl⟩
      intro x hx
      rcases List.mem_cons.mp hx with rfl | hx
      · exact le_of_not_lt h
      · exact (le_of_not_lt h).trans (hy x hx)

theorem insertSorted_keyFilter (key : Incident → α) (a : Incident) (v : α) :
    ∀ l : List Incident,
      keyFilter key v (insertSorted key a l) = keyFilter key v (a :: l) := by
  intro l
  induction l with
  | nil => rfl
  | cons y rest ih =>
    by_cases h : key y < key a
    · simp only [insertSorted, h, if_true]
      rw [keyFilter_cons, keyFilter_cons key v a (y :: rest),
        keyFilter_cons key v y rest]
      by_cases hav : key a = v
      · have hyv : ¬ key y = v := by
          intro hyv
          rw [hyv, hav] at h
          exact lt_irrefl v h
        rw [if_neg hyv, if_pos hav, if_neg hyv, ih, keyFilter_cons, if_pos hav]
      · rw [if_neg hav]
        by_cases hyv : key y = v
        · rw [if_pos hyv, if_pos hyv, ih, keyFilter_cons, if_neg hav]
        · rw [if_neg hyv, if_neg hyv, ih, keyFilter_cons, if_neg hav]
    · simp [insertSorted, h]

theorem pySorted_sorted (key : Incident → α) (l : List Incident) :
    SortedByKey key (pySorted key l) := by
  induction l with
  | nil => exact List.Pairwise.nil
  | cons a rest ih => exact insertSorted_sorted key a _ ih

theorem pySorted_perm (key : Incident → α) (l : List Incident) :
    (pySorted key l).Perm l := by
  induction l with
  | nil => exact List.Perm.refl _
  | cons a rest ih =>
    exact (insertSorted_perm key a (pySorted key rest)).trans (ih.cons a)

theorem selectLoop_sublist :
    ∀ (l : List Incident) (e : Option Int), (selectLoop e l).Sublist l := by
  intro l
  induction l with
  | nil => intro e; exact List.Sublist.refl []
  | cons inc rest ih =>
    intro e
    cases e with
    | none => exact (ih _).cons₂ inc
    | some v =>
      by_cases h : v ≤ inc.time
      · simp only [selectLoop, h, if_true]
        exact (ih _).cons₂ inc
      · simp only [selectLoop, h, if_false]
        exact (ih _).cons inc

/-- On an end-time-sorted list the selection is a chain: every selected
incident starts no earlier than each earlier selected one ends. -/
theorem selectLoop_chain :
    ∀ (l : List Incident) (e : Option Int),
      SortedByKey endTime l →
      (∀ v, e = some v → ∀ x ∈ l, v ≤ endTime x) →
      List.Pairwise (fun i j => endTime i ≤ j.time) (selectLoop e l) ∧
      (∀ v, e = some v → ∀ x ∈ selectLoop e l, v ≤ x.time) := by
  intro l
  induction l with
  | nil =>
    intro e _ _
    refine ⟨List.Pairwise.nil, ?_⟩
    intro v _ x hx
    cases hx
  | cons inc rest ih =>
    intro e hsort hbound
    rcases List.pairwise_cons.mp hsort with ⟨hinc, hrest⟩
    have hrecbound : ∀ v', some (endTime inc) = some v' → ∀ x ∈ rest, v' ≤ endTime x := by
      intro v' hv' x hx
      injection hv' with hv'
      exact hv' ▸ hinc x hx
    cases e with
    | none =>
      obtain ⟨hpair, hge⟩ := ih (some (endTime inc)) hrest hrecbound
      refine ⟨List.pairwise_cons.mpr ⟨?_, hpair⟩, fun v hv => by cases hv⟩
      intro x hx
      exact hge (endTime inc) rfl x hx
    | some v =>
      by_cases h : v ≤ inc.time
      · simp only [selectLoop, h, if_true]
        obtain ⟨hpair, hge⟩ := ih (some (endTime inc)) hrest hrecbound
        refine ⟨List.pairwise_cons.mpr ⟨?_, hpair⟩, ?_⟩
        · intro x hx
          exact hge (endTime inc) rfl x hx
        · intro v' hv' x hx
          injection hv' with hv'
          subst hv'
          rcases List.mem_cons.mp hx with rfl | hx
          · exact h
          · have hv2 : v ≤ endTime inc := hbound v rfl inc (List.mem_cons_self _ _)
            exact hv2.trans (hge (endTime inc) rfl x hx)
      · simp only [selectLoop, h, if_false]
        refine ih (some v) hrest ?_
        intro v' hv' x hx
        exact hbound v' hv' x (List.mem_cons_of_mem _ hx)

/-- Greedy stays ahead: no chain inside the end-time-sorted list is longer
than the selection. -/
theorem selectLoop_max :
    ∀ (l : List Incident) (e : Option Int) (c : List Incident),
      SortedByKey endTime l →
      c.Sublist l →
      List.Pairwise (fun i j => endTime i ≤ j.time) c →
      (∀ x ∈ c, ∀ v, e = some v → v ≤ x.time) →
      c.length ≤ (selectLoop e l).length := by
  intro l
  induction l with
  | nil =>
    intro e c _ hsub _ _
    rw [List.sublist_nil.mp hsub]
    exact le_refl _
  | cons inc rest ih =>
    intro e c hsort hsub hchain hstart
    rcases List.pairwise_cons.mp hsort with ⟨hinc, hrest⟩
    have hselect : ∀ (sel : List Incident),
        sel = inc :: selectLoop (some (endTime inc)) rest →
        c.length ≤ sel.length := by
      intro sel hsel
      subst hsel
      rcases c with _ | ⟨c0, c'⟩
      · simp
      rcases List.pairwise_cons.mp hchain with ⟨hc0, hc'⟩
      have hc'sub : c'.Sublist rest := by
        cases hsub with
        | cons _ h => exact (List.sublist_cons_self c0 c').trans h
        | cons₂ _ h => exact h
      have hc0mem : c0 ∈ inc :: rest := hsub.subset (List.mem_cons_self _ _)
      have hendc0 : endTime inc ≤ endTime c0 := by
        rcases List.mem_cons.mp hc0mem with rfl | hmem
        · exact le_refl _
        · exact hinc c0 hmem
      have hstart' : ∀ x ∈ c', ∀ v, some (endTime inc) = some v → v ≤ x.time := by
        intro x hx v hv
        injection hv with hv
        subst hv
        exact hendc0.trans (hc0 x hx)
      have := ih (some (endTime inc)) c' hrest hc'sub hc' hstart'
      simpa using Nat.succ_le_succ this
    cases e with
    | none => exact hselect _ rfl
    | some v =>
      by_cases h : v ≤ inc.time
      · simp only [selectLoop, h, if_true]
        exact hselect _ rfl
      · simp only [selectLoop, h, if_false]
        have hcsub : c.Sublist rest := by
          cases hsub with
          | cons _ hs => exact hs
          | cons₂ _ hs =>
            exfalso
            exact h (hstart inc (List.mem_cons_self _ _) v rfl)
        exact ih (some v) c hrest hcsub hchain
          (fun x hx v' hv' => hstart x hx v' hv')

/-- A chain has pairwise empty interval intersections. -/
theorem chain_no_overlap (sel : List Incident)
    (h : List.Pairwise (fun i j => endTime i ≤ j.time) sel) :
    List.Pairwise (fun i j => ¬ OverlapI i j) sel := by
  refine h.imp ?_
  intro i j hij hov
  rw [OverlapI] at hov
  have h1 : j.time ≤ max i.time j.time := le_max_right _ _
  have h2 : min (endTime i) (endTime j) ≤ endTime i := min_le_left _ _
  exact absurd ((h1.trans_lt hov).trans_le h2) (not_lt.mpr hij)

/-- With positive durations, an end-time-sorted pairwise-non-overlapping
list is a chain. -/
theorem no_overlap_chain :
    ∀ c : List Incident, SortedByKey endTime c →
      List.Pairwise (fun i j => ¬ OverlapI i j) c →
      (∀ x ∈ c, 0 < x.estimatedDuration) →
      List.Pairwise (fun i j => endTime i ≤ j.time) c := by
  intro c
  induction c with
  | nil => intro _ _ _; exact List.Pairwise.nil
  | cons a t ih =>
    intro hsort hno hpos
    rcases List.pairwise_cons.mp hsort with ⟨hsa, hsort'⟩
    rcases List.pairwise_cons.mp hno with ⟨hna, hno'⟩
    refine List.pairwise_cons.mpr ⟨?_, ?_⟩
    · intro x hx
      by_contra hlt
      push_neg at hlt
      refine hna x hx ?_
      rw [OverlapI]
      have hpa : a.time < endTime a := by
        have := hpos a (List.mem_cons_self _ _)
        rw [endTime]
        omega
      have hpx : x.time < endTime x := by
        have := hpos x (List.mem_cons_of_mem _ hx)
        rw [endTime]
        omega
      have hax : endTime a ≤ endTime x := hsa x hx
      rw [lt_min_iff, max_lt_iff, max_lt_iff]
      exact ⟨⟨hpa, hlt⟩, ⟨hpa.trans_le hax, hpx⟩⟩
    · exact ih hsort' hno' fun x hx => hpos x (List.mem_cons_of_mem _ hx)

end ActivitySelection

/-- **C4, amended.**  For every list of incidents,
`activity_selection_greedy` — which sorts by end time and selects each
incident whose start is at or after the end of the last selected one —
returns a sub-collection of its input in which no two selected incidents
have overlapping `[start, start + duration)` intervals; and when every
incident has positive `estimated_duration`, the number selected is maximal
among all pairwise-non-overlapping sub-collections of the input. -/
theorem activity_selection_correct (incidents : List Incident) :
    (activitySelectionGreedy incidents).Subperm incidents ∧
    List.Pairwise (fun i j => ¬ OverlapI i j) (activitySelectionGreedy incidents) ∧
    ((∀ x ∈ incidents, 0 < x.estimatedDuration) →
      ∀ s : List Incident, s.Subperm incidents →
        List.Pairwise (fun i j => ¬ OverlapI i j) s →
        s.length ≤ (activitySelectionGreedy incidents).length) := by
  rcases hinc : incidents with _ | ⟨i0, irest⟩
  · refine ⟨List.nil_subperm, List.Pairwise.nil, ?_⟩
    intro _ s hs _
    rw [List.subperm_nil.mp hs]
    exact le_refl _
  have hgreedy : activitySelectionGreedy (i0 :: irest) =
      selectLoop none (pySorted endTime (i0 :: irest)) := rfl
  have hsorted := pySorted_sorted endTime (i0 :: irest)
  have hperm := pySorted_perm endTime (i0 :: irest)
  obtain ⟨hchain, _⟩ := selectLoop_chain (pySorted endTime (i0 :: irest)) none
    hsorted (fun v hv => by cases hv)
  refine ⟨?_, ?_, ?_⟩
  · rw [hgreedy]
    exact ((selectLoop_sublist _ none).subperm).trans hperm.subperm
  · rw [hgreedy]
    exact chain_no_overlap _ hchain
  · intro hpos s hs hsno
    have hs' : s.Subperm (pySorted endTime (i0 :: irest)) :=
      hs.trans hperm.symm.subperm
    obtain ⟨c, hcperm, hcsub⟩ := hs'
    have hcsort : SortedByKey endTime c := List.Pairwise.sublist hcsub hsorted
    have hsymm : ∀ {i j : Incident}, ¬ OverlapI i j → ¬ OverlapI j i := by
      intro i j hij hov
      refine hij ?_
      rw [OverlapI] at hov ⊢
      rw [max_comm, min_comm]
      exact hov
    have hcno : List.Pairwise (fun i j => ¬ OverlapI i j) c :=
      (hcperm.pairwise_iff fun hij => hsymm hij).mpr hsno
    have hcpos : ∀ x ∈ c, 0 < x.estimatedDuration := by
      intro x hx
      refine hpos x ?_
      have : x ∈ pySorted endTime (i0 :: irest) := hcsub.subset hx
      exact hperm.subset this
    have hcchain := no_overlap_chain c hcsort hcno hcpos
    have hmax := selectLoop_max (pySorted endTime (i0 :: irest)) none c
      hsorted hcsub hcchain (fun x _ v hv => by cases hv)
    rw [hgreedy, ← hcperm.length_eq]
    exact hmax

/-- Witness for `activity_selection_correct`: on `[sampleInc1, sampleInc2]`
(positive durations, overlapping intervals `[0,1)` and `[0,2)`) the selection
is a sub-collection of the input and beats the one-element non-overlapping
sub-collection `[sampleInc1]`. -/
theorem activity_selection_correct_witness :
    (activitySelectionGreedy [sampleInc1, sampleInc2]).Subperm
      [sampleInc1, sampleInc2] ∧
    ([sampleInc1] : List Incident).length ≤
      (activitySelectionGreedy [sampleInc1, sampleInc2]).length :=
  ⟨(activity_selection_correct [sampleInc1, sampleInc2]).1,
   (activity_selection_correct [sampleInc1, sampleInc2]).2.2 (by decide)
     [sampleInc1] (((List.nil_sublist [sampleInc2]).cons₂ sampleInc1).subperm)
     (List.pairwise_singleton _ _)⟩

/-- **C4, counterexample.**  With an incident of negative duration (an empty
interval) in the input, the greedy count is not maximal: on
`[durNegInc, durPosInc]` (intervals `[5, 3)` and `[0, 4)`) the greedy
selects one incident, while the whole two-element input is already pairwise
non-overlapping. -/
theorem activity_selection_not_maximal_cx :
    (activitySelectionGreedy [durNegInc, durPosInc]).length = 1 ∧
    List.Pairwise (fun i j => ¬ OverlapI i j) [durNegInc, durPosInc] ∧
    [durNegInc, durPosInc].Subperm [durNegInc, durPosInc] ∧
    ([durNegInc, durPosInc] : List Incident).length = 2 := by
  refine ⟨by decide, ?_, List.Subperm.refl _, by decide⟩
  refine List.pairwise_cons.mpr ⟨?_, List.pairwise_singleton _ _⟩
  intro x hx
  rcases List.mem_cons.mp hx with rfl | hx
  · intro hov
    rw [OverlapI] at hov
    revert hov
    decide
  · cases hx

/-! ## Theorems: knapsack selection (claim C3) -/

/-- Summed `estimated_duration` of a selection. -/
def sumDur (l : List Incident) : Int := (l.map fun i => i.estimatedDuration).sum

/-- Summed `priority.value` of a selection. -/
def sumVal (l : List Incident) : Int := (l.map fun i => i.priority.value).sum

theorem sumDur_append (l r : List Incident) :
    sumDur (l ++ r) = sumDur l + sumDur r := by
  simp [sumDur]

theorem sumVal_append (l r : List Incident) :
    sumVal (l ++ r) = sumVal l + sumVal r := by
  simp [sumVal]

theorem sumDur_nonneg (l : List Incident)
    (h : ∀ x ∈ l, 0 < x.estimatedDuration) : 0 ≤ sumDur l := by
  induction l with
  | nil => simp [sumDur]
  | cons a t ih =>
    have ha := h a (List.mem_cons_self _ _)
    have ht := ih fun x hx => h x (List.mem_cons_of_mem _ hx)
    simp only [sumDur, List.map_cons, List.sum_cons] at ht ⊢
    omega

theorem take_succ_of_get {γ : Type} (l : List γ) (n : Nat) (x : γ)
    (h : l[n]? = some x) : l.take (n + 1) = l.take n ++ [x] := by
  rw [List.take_succ, h]
  rfl

theorem dpK_zero (incs : List Incident) : ∀ i, dpK incs i 0 = 0 := by
  intro i
  induction i with
  | zero => rfl
  | succ i ih =>
    cases hget : incs[i]? with
    | none => simp only [dpK, List.get?_eq_getElem?, hget, ih]
    | some inc => simp [dpK, hget]

theorem dpK_mono (incs : List Incident) (i w : Nat) :
    dpK incs i w ≤ dpK incs (i + 1) w := by
  cases hget : incs[i]? with
  | none => simp [dpK, hget]
  | some inc =>
    by_cases hw : w = 0
    · subst hw
      rw [dpK_zero]
      have : dpK incs (i + 1) 0 = 0 := dpK_zero incs (i + 1)
      rw [this]
    · by_cases hd : inc.estimatedDuration ≤ (w : Int)
      · have hdp : dpK incs (i + 1) w =
            max (inc.priority.value + dpK incs i (w - inc.estimatedDuration.toNat))
              (dpK incs i w) := by
          simp only [dpK, List.get?_eq_getElem?, hget, hw, if_false]
          rw [if_pos hd]
        rw [hdp]
        exact le_max_right _ _
      · simp [dpK, hget, hw, hd]

/-- The DP table dominates every admissible selection from its prefix. -/
theorem dpK_le (incs : List Incident)
    (hpos : ∀ inc ∈ incs, 0 < inc.estimatedDuration) :
    ∀ (i w : Nat) (s : List Incident), s.Sublist (incs.take i) →
      sumDur s ≤ (w : Int) → sumVal s ≤ dpK incs i w := by
  intro i
  induction i with
  | zero =>
    intro w s hs _
    rw [List.take_zero] at hs
    rw [List.sublist_nil.mp hs]
    simp [sumVal, dpK]
  | succ i ih =>
    intro w s hs hd
    cases hget : incs[i]? with
    | none =>
      have hlen : incs.length ≤ i := List.getElem?_eq_none_iff.mp hget
      rw [List.take_of_length_le (hlen.trans (Nat.le_succ i)),
        ← List.take_of_length_le hlen] at hs
      have hdp : dpK incs (i + 1) w = dpK incs i w := by
        simp only [dpK, List.get?_eq_getElem?, hget]
      rw [hdp]
      exact ih w s hs hd
    | some inc =>
      have hmem : inc ∈ incs := List.getElem?_mem hget
      have hdpos : 0 < inc.estimatedDuration := hpos inc hmem
      rw [take_succ_of_get incs i inc hget] at hs
      rw [List.sublist_append_iff] at hs
      obtain ⟨s₁, s₂, rfl, hs₁, hs₂⟩ := hs
      have hs₁pos : ∀ x ∈ s₁, 0 < x.estimatedDuration := fun x hx =>
        hpos x (List.take_subset i incs (hs₁.subset hx))
      rcases List.sublist_singleton.mp hs₂ with rfl | rfl
      · rw [List.append_nil] at hd ⊢
        exact (ih w s₁ hs₁ hd).trans (dpK_mono incs i w)
      · rw [sumDur_append] at hd
        have hsd : sumDur [inc] = inc.estimatedDuration := by simp [sumDur]
        rw [hsd] at hd
        have h0 : 0 ≤ sumDur s₁ := sumDur_nonneg _ hs₁pos
        have hwne : w ≠ 0 := by omega
        have hdle : inc.estimatedDuration ≤ (w : Int) := by omega
        have hdp : dpK incs (i + 1) w =
            max (inc.priority.value + dpK incs i (w - inc.estimatedDuration.toNat))
              (dpK incs i w) := by
          simp only [dpK, List.get?_eq_getElem?, hget, hwne, if_false]
          rw [if_pos hdle]
        have hih := ih (w - inc.estimatedDuration.toNat) s₁ hs₁ (by omega)
        rw [sumVal_append, hdp]
        have hsv : sumVal [inc] = inc.priority.value := by simp [sumVal]
        rw [hsv]
        have : sumVal s₁ + inc.priority.value ≤
            inc.priority.value + dpK incs i (w - inc.estimatedDuration.toNat) := by
          omega
        exact this.trans (le_max_left _ _)

/-- The backtracking phase recovers an in-order selection of the exact DP
value within budget. -/
theorem knapBack_spec (incs : List Incident)
    (hpos : ∀ inc ∈ incs, 0 < inc.estimatedDuration) :
    ∀ (i w : Nat), (knapBack incs i w).reverse.Sublist (incs.take i) ∧
      sumDur (knapBack incs i w).reverse ≤ (w : Int) ∧
      sumVal (knapBack incs i w).reverse = dpK incs i w := by
  intro i
  induction i with
  | zero =>
    intro w
    refine ⟨List.nil_sublist _, ?_, by simp [knapBack, sumVal, dpK]⟩
    simp only [knapBack, List.reverse_nil]
    have h0 : sumDur [] = 0 := rfl
    rw [h0]
    exact Int.natCast_nonneg w
  | succ i ih =>
    intro w
    cases hget : incs[i]? with
    | none =>
      have hlen : incs.length ≤ i := List.getElem?_eq_none_iff.mp hget
      have heq : knapBack incs (i + 1) w = knapBack incs i w := by
        simp only [knapBack, List.get?_eq_getElem?, hget]
      have htake : incs.take (i + 1) = incs.take i := by
        rw [List.take_of_length_le hlen,
          List.take_of_length_le (hlen.trans (Nat.le_succ i))]
      have hdp : dpK incs (i + 1) w = dpK incs i w := by
        simp only [dpK, List.get?_eq_getElem?, hget]
      rw [heq, htake, hdp]
      exact ih w
    | some inc =>
      have hmem : inc ∈ incs := List.getElem?_mem hget
      have hdpos : 0 < inc.estimatedDuration := hpos inc hmem
      have htake := take_succ_of_get incs i inc hget
      by_cases hne : dpK incs (i + 1) w = dpK incs i w
      · have heq : knapBack incs (i + 1) w = knapBack incs i w := by
          simp only [knapBack, List.get?_eq_getElem?, hget]
          rw [if_neg (by simpa using hne)]
        rw [heq, htake, hne]
        obtain ⟨h1, h2, h3⟩ := ih w
        exact ⟨h1.trans (List.sublist_append_left _ _), h2, h3⟩
      · have heq : knapBack incs (i + 1) w =
            inc :: knapBack incs i (w - inc.estimatedDuration.toNat) := by
          simp only [knapBack, List.get?_eq_getElem?, hget]
          rw [if_pos (by simpa using hne)]
        have hwne : w ≠ 0 := by
          intro h0
          subst h0
          exact hne (by rw [dpK_zero, dpK_zero])
        have hdle : inc.estimatedDuration ≤ (w : Int) := by
          by_contra hgt
          refine hne ?_
          simp only [dpK, List.get?_eq_getElem?, hget, hwne, if_false]
          rw [if_neg hgt]
        have hmax : dpK incs (i + 1) w =
            max (inc.priority.value + dpK incs i (w - inc.estimatedDuration.toNat))
              (dpK incs i w) := by
          simp only [dpK, List.get?_eq_getElem?, hget, hwne, if_false]
          rw [if_pos hdle]
        have hdp : dpK incs (i + 1) w =
            inc.priority.value + dpK incs i (w - inc.estimatedDuration.toNat) := by
          rcases max_cases
            (inc.priority.value + dpK incs i (w - inc.estimatedDuration.toNat))
            (dpK incs i w) with ⟨hm, _⟩ | ⟨hm, _⟩
          · rw [hmax, hm]
          · exact absurd (hmax.trans hm) hne
        obtain ⟨h1, h2, h3⟩ := ih (w - inc.estimatedDuration.toNat)
        rw [heq]
        simp only [List.reverse_cons]
        refine ⟨?_, ?_, ?_⟩
        · rw [htake]
          exact h1.append (List.Sublist.refl [inc])
        · rw [sumDur_append]
          have hsd : sumDur [inc] = inc.estimatedDuration := by simp [sumDur]
          rw [hsd]
          have hcast : ((w - inc.estimatedDuration.toNat : Nat) : Int) =
              (w : Int) - inc.estimatedDuration := by omega
          omega
        · rw [sumVal_append, hdp]
          have hsv : sumVal [inc] = inc.priority.value := by simp [sumVal]
          rw [hsv, h3]
          ring

/-- **C3.**  For positive durations, `knapsack_incident_assignment` returns
a sub-list of the input in original order whose summed duration respects the
budget and whose summed priority value is maximal among all sub-lists
within budget; a non-positive budget or an empty input yields `[]`. -/
theorem knapsack_correct (incidents : List Incident) (timeLimit : Int)
    (hpos : ∀ inc ∈ incidents, 0 < inc.estimatedDuration) :
    (incidents = [] ∨ timeLimit ≤ 0 →
      knapsackIncidentAssignment incidents timeLimit = []) ∧
    (0 < timeLimit →
      (knapsackIncidentAssignment incidents timeLimit).Sublist incidents ∧
      sumDur (knapsackIncidentAssignment incidents timeLimit) ≤ timeLimit ∧
      ∀ s : List Incident, s.Sublist incidents → sumDur s ≤ timeLimit →
        sumVal s ≤ sumVal (knapsackIncidentAssignment incidents timeLimit)) := by
  constructor
  · intro h
    rw [knapsackIncidentAssignment, if_pos h]
  · intro hT
    by_cases hinc : incidents = []
    · subst hinc
      have : knapsackIncidentAssignment [] timeLimit = [] := by
        simp [knapsackIncidentAssignment]
      rw [this]
      refine ⟨List.Sublist.refl _, by simp [sumDur]; omega, ?_⟩
      intro s hs _
      rw [List.sublist_nil.mp hs]
    · have hbranch : knapsackIncidentAssignment incidents timeLimit =
          (knapBack incidents incidents.length timeLimit.toNat).reverse := by
        rw [knapsackIncidentAssignment,
          if_neg (by push_neg; exact ⟨hinc, by omega⟩)]
      obtain ⟨h1, h2, h3⟩ := knapBack_spec incidents hpos incidents.length
        timeLimit.toNat
      rw [List.take_length] at h1
      have hW : ((timeLimit.toNat : Nat) : Int) = timeLimit :=
        Int.toNat_of_nonneg hT.le
      rw [hbranch]
      refine ⟨h1, by rw [← hW] at *; exact h2, ?_⟩
      intro s hs hsd
      rw [h3]
      refine dpK_le incidents hpos incidents.length timeLimit.toNat s ?_ ?_
      · rwa [List.take_length]
      · omega

/-- Witness for `knapsack_correct`: budget `2` on the two sample incidents
(durations `1` and `2`, priorities `4` and `2`). -/
theorem knapsack_correct_witness :
    (knapsackIncidentAssignment [sampleInc1, sampleInc2] 2).Sublist
      [sampleInc1, sampleInc2] ∧
    sumDur (knapsackIncidentAssignment [sampleInc1, sampleInc2] 2) ≤ 2 ∧
    sumVal [sampleInc2] ≤
      sumVal (knapsackIncidentAssignment [sampleInc1, sampleInc2] 2) := by
  have h := (knapsack_correct [sampleInc1, sampleInc2] 2 (by decide)).2
    (by decide)
  exact ⟨h.1, h.2.1,
    h.2.2 [sampleInc2] ((List.Sublist.refl [sampleInc2]).cons sampleInc1)
      (by decide)⟩

/-! ## Theorems: Dijkstra tie-breaking (claim C7)

The specification asserts a pure first-in-first-out tie-break: among queue
entries of equal distance the entry pushed earliest is extracted first, with
no secondary comparison key.  The variant below follows those words: its pop
compares distances only, and since pushes append to the queue, the leftmost
minimum — which `popMin` keeps on ties — is the earliest-pushed one.  The
code, however, pushes `(distance, vertex)` tuples into `heapq`, whose tuple
comparison breaks distance ties by the vertex-name component. -/

/-- The spec's wording of queue priority: distance only, earliest push first
on ties. -/
def fifoLe (a b : Int × String) : Prop := a.1 ≤ b.1

instance : DecidableRel fifoLe := fun a b => by
  unfold fifoLe; infer_instance

/-- `dstep` under the spec's tie-break policy. -/
def dstepSpecTie (g : EmergencyGraph) (st : DState) : DState :=
  match popMin fifoLe st.queue with
  | none => st
  | some ((d, u), q') =>
    if u ∈ st.visited then { st with queue := q' }
    else
      let st1 : DState := { st with queue := q', visited := st.visited ++ [u] }
      if dget st1.dist u < (d : WithTop Int) then st1
      else relaxNbrs u d (getNeighbors g u) st1

/-- `dloop` under the spec's tie-break policy. -/
def dloopSpecTie (g : EmergencyGraph) : Nat → DState → DState
  | 0, st => st
  | fuel + 1, st =>
    if st.queue = [] then st else dloopSpecTie g fuel (dstepSpecTie g st)

/-- `dijkstra` as the specification describes it: identical except for the
first-discovered-wins tie-break. -/
def dijkstraSpecTie (g : EmergencyGraph) (start : String) : DistMap × PredMap :=
  let dist0 : DistMap := g.vertices.map fun v => (v, ⊤)
  let pred0 : PredMap := g.vertices.map fun v => (v, none)
  let dist1 := aset dist0 start 0
  let st := dloopSpecTie g (dfuel g) ⟨dist1, pred0, [(0, start)], []⟩
  (st.dist, st.pred)

/-- Four vertices with a distance tie: `Z` and `A` both sit at distance 1
from `S` and one step from `T`; `Z` is discovered first. -/
def tieGraph : EmergencyGraph :=
  addEdge (addEdge (addEdge (addEdge emptyGraph "S" "Z" 1) "S" "A" 1)
    "Z" "T" 1) "A" "T" 1

/-- **C7, counterexample.**  On `tieGraph`, `Z` is pushed before `A` at the
same distance 1, yet the code extracts `A` first (tuple comparison:
`"A" < "Z"`) and records it as `T`'s predecessor, while the
first-discovered-wins policy the specification states would record `Z`: the
predecessor tree does not depend only on discovery order. -/
theorem dijkstra_tie_not_insertion_order_cx :
    alookup (dijkstra tieGraph "S").2 "T" = some (some "A") ∧
    alookup (dijkstraSpecTie tieGraph "S").2 "T" = some (some "Z") := by
  constructor
  · decide
  · decide

/-- **C7, amended.**  In `dijkstra`, ties in distance are broken by the
vertex-name component of the `(distance, vertex)` heap tuples: whenever the
queue holds two entries of equal distance, the extracted minimum is never
the one with the larger vertex name. -/
theorem dijkstra_tie_break_by_name (q : List (Int × String)) (d : Int)
    (u v : String) (m : Int × String) (r : List (Int × String))
    (hu : (d, u) ∈ q) (hv : (d, v) ∈ q) (hlt : u < v)
    (hpop : popMin pqLe q = some (m, r)) : m ≠ (d, v) := by
  intro hm
  subst hm
  have hle := popMin_le pqLe pqLe_total pqLe_trans q (d, v) r hpop (d, u) hu
  rcases hle with h | ⟨_, h⟩
  · exact lt_irrefl d h
  · exact absurd hlt (not_lt.mpr h)

/-- Witness: in the queue `[(1, "Z"), (1, "A")]` the popped minimum is not
`(1, "Z")`. -/
theorem dijkstra_tie_break_by_name_witness :
    ((1 : Int), "A") ≠ ((1 : Int), "Z") :=
  dijkstra_tie_break_by_name [(1, "Z"), (1, "A")] 1 "A" "Z" (1, "A")
    [(1, "Z")] (by decide) (by decide)
    (String.lt_iff_toList_lt.mpr (by decide)) (by decide)

/-! ## Theorems: lookups on absent vertices (claim C8) -/

theorem alookup_mem {κ β : Type} [DecidableEq κ] (d : List (κ × β)) (k : κ)
    (v : β) (h : alookup d k = some v) : (k, v) ∈ d := by
  induction d with
  | nil => simp [alookup] at h
  | cons p rest ih =>
    obtain ⟨k', v'⟩ := p
    rw [alookup] at h
    by_cases hk : k' = k
    · rw [if_pos hk] at h
      obtain rfl := Option.some.inj h
      subst hk
      exact List.mem_cons_self _ _
    · rw [if_neg hk] at h
      exact List.mem_cons_of_mem _ (ih h)

/-- The sample city is a well-formed graph. -/
theorem createSampleCity_wf : WellFormed createSampleCity := by
  refine ⟨by decide, by decide, ?_, ?_⟩
  · intro v
    have h : akeys createSampleCity.edges = createSampleCity.vertices := by
      decide
    rw [h]
  · intro u nbrs h
    have hm := alookup_mem _ _ _ h
    have he : createSampleCity.edges =
        [("HQ", [("A", 5), ("B", 10)]),
         ("A", [("HQ", 5), ("B", 3), ("C", 8)]),
         ("B", [("HQ", 10), ("A", 3), ("C", 6), ("D", 7)]),
         ("C", [("A", 8), ("B", 6), ("D", 4)]),
         ("D", [("B", 7), ("C", 4)])] := by decide
    rw [he] at hm
    simp only [List.mem_cons, List.not_mem_nil, or_false] at hm
    rcases hm with h1 | h1 | h1 | h1 | h1 <;>
      (rw [Prod.mk.injEq] at h1; obtain ⟨rfl, rfl⟩ := h1; exact ⟨by decide, by decide⟩)

/-- Keys the relaxation loop may add all come from the scanned neighbor
list. -/
theorem relaxNbrs_keys (u : String) (d : Int) :
    ∀ (nbrs : List (String × Int)) (st : DState) (k : String),
      k ∈ akeys (relaxNbrs u d nbrs st).dist →
      k ∈ akeys st.dist ∨ ∃ p ∈ nbrs, p.1 = k := by
  intro nbrs
  induction nbrs with
  | nil => intro st k hk; exact Or.inl hk
  | cons p rest ih =>
    obtain ⟨x, w⟩ := p
    intro st k hk
    simp only [relaxNbrs] at hk
    rcases ih _ k hk with hk' | ⟨q, hq, rfl⟩
    · by_cases hc : ((d + w : Int) : WithTop Int) < dget st.dist x
      · rw [if_pos hc] at hk'
        rcases (mem_akeys_aset st.dist x k _).mp hk' with h | rfl
        · exact Or.inl h
        · exact Or.inr ⟨(k, w), List.mem_cons_self _ _, rfl⟩
      · rw [if_neg hc] at hk'
        exact Or.inl hk'
    · exact Or.inr ⟨q, List.mem_cons_of_mem _ hq, rfl⟩

/-- One loop iteration only ever adds distance keys that are vertices of the
graph. -/
theorem dstep_keys (g : EmergencyGraph) (hwf : WellFormed g) (st : DState)
    (k : String) (hk : k ∈ akeys (dstep g st).dist) :
    k ∈ akeys st.dist ∨ k ∈ g.vertices := by
  cases hq : popMin pqLe st.queue with
  | none => simp only [dstep, hq] at hk; exact Or.inl hk
  | some p =>
    obtain ⟨⟨d, u⟩, q'⟩ := p
    simp only [dstep, hq] at hk
    by_cases hv : u ∈ st.visited
    · rw [if_pos hv] at hk; exact Or.inl hk
    · rw [if_neg hv] at hk
      by_cases hd : dget st.dist u < (d : WithTop Int)
      · rw [if_pos hd] at hk; exact Or.inl hk
      · rw [if_neg hd] at hk
        rcases relaxNbrs_keys u d (getNeighbors g u) _ k hk with h | ⟨q, hqm, rfl⟩
        · exact Or.inl h
        · right
          cases hn : alookup g.edges u with
          | none => simp only [getNeighbors, hn] at hqm; cases hqm
          | some nbrs =>
            simp only [getNeighbors, hn] at hqm
            exact (hwf.nbrs_closed u nbrs hn).1 q hqm

theorem dloop_keys (g : EmergencyGraph) (hwf : WellFormed g) :
    ∀ (n : Nat) (st : DState) (k : String),
      k ∈ akeys (dloop g n st).dist → k ∈ akeys st.dist ∨ k ∈ g.vertices := by
  intro n
  induction n with
  | zero => intro st k hk; exact Or.inl hk
  | succ n ih =>
    intro st k hk
    rw [dloop] at hk
    by_cases hq : st.queue = []
    · rw [if_pos hq] at hk; exact Or.inl hk
    · rw [if_neg hq] at hk
      rcases ih _ k hk with h | h
      · exact dstep_keys g hwf st k h
      · exact Or.inr h

/-- The keys of the final distance dict are vertices of the graph or the
start vertex. -/
theorem dijkstra_dist_keys (g : EmergencyGraph) (s : String)
    (hwf : WellFormed g) (k : String) (hk : k ∈ akeys (dijkstra g s).1) :
    k ∈ g.vertices ∨ k = s := by
  have hk' : k ∈ akeys (dloop g (dfuel g)
      ⟨aset (g.vertices.map fun v => (v, (⊤ : WithTop Int))) s 0,
       g.vertices.map fun v => (v, none), [(0, s)], []⟩).dist := hk
  rcases dloop_keys g hwf _ _ k hk' with h | h
  · rcases (mem_akeys_aset _ s k 0).mp h with h2 | rfl
    · left
      simpa [akeys] using h2
    · exact Or.inr rfl
  · exact Or.inl h

theorem getNeighbors_absent (g : EmergencyGraph) (hwf : WellFormed g)
    (v : String) (hv : v ∉ g.vertices) : getNeighbors g v = [] := by
  have h : alookup g.edges v = none :=
    alookup_eq_none_of_not_mem _ _ fun h => hv ((hwf.keys_eq v).mp h)
  simp only [getNeighbors, h]

/-- An end vertex absent from the graph makes `distances[end_vertex]` raise
`KeyError` (modelled by `none`). -/
theorem getShortestPath_absent_end (g : EmergencyGraph) (s e : String)
    (hwf : WellFormed g) (he : e ∉ g.vertices) (hne : e ≠ s) :
    getShortestPath g s e = none := by
  have hnone : alookup (dijkstra g s).1 e = none := by
    apply alookup_eq_none_of_not_mem
    intro hk
    rcases dijkstra_dist_keys g s hwf e hk with h | h
    · exact he h
    · exact hne h
  simp only [getShortestPath, hnone]

theorem dloop_queue_nil (g : EmergencyGraph) (n : Nat) (st : DState)
    (h : st.queue = []) : dloop g n st = st := by
  cases n with
  | zero => rfl
  | succ n => rw [dloop, if_pos h]

theorem alookup_map_top (vs : List String) (e : String) (he : e ∈ vs) :
    alookup (vs.map fun v => (v, (⊤ : WithTop Int))) e = some ⊤ := by
  induction vs with
  | nil => cases he
  | cons a t ih =>
    by_cases ha : a = e
    · subst ha; simp [alookup]
    · simp only [List.map_cons, alookup, ha, if_false]
      exact ih (by rcases List.mem_cons.mp he with h | h; exacts [absurd h.symm ha, h])

/-- A start vertex absent from the graph: its queue entry is popped, its
(empty) neighbor dict is scanned, and the loop ends with every proper
vertex still at infinity. -/
theorem getShortestPath_absent_start (g : EmergencyGraph) (s e : String)
    (hwf : WellFormed g) (hs : s ∉ g.vertices) (he : e ∈ g.vertices) :
    getShortestPath g s e = some ([], ⊤) := by
  have hne : e ≠ s := fun h => hs (h ▸ he)
  have hnbr : getNeighbors g s = [] := getNeighbors_absent g hwf s hs
  have hfuel : dfuel g = totalDeg g + 1 := by rw [dfuel]; omega
  have hrun : dijkstraRun g s =
      ⟨aset (g.vertices.map fun v => (v, (⊤ : WithTop Int))) s 0,
       g.vertices.map fun v => (v, none), [], [s]⟩ := by
    show dloop g (dfuel g)
        ⟨aset (g.vertices.map fun v => (v, (⊤ : WithTop Int))) s 0,
         g.vertices.map fun v => (v, none), [(0, s)], []⟩ = _
    rw [hfuel, dloop, if_neg (by simp)]
    have hq0 : popMin pqLe
        (DState.queue ⟨aset (g.vertices.map fun v => (v, (⊤ : WithTop Int))) s 0,
          g.vertices.map fun v => (v, none), [(0, s)], []⟩) =
        some ((0, s), []) := rfl
    have hstep : dstep g
        ⟨aset (g.vertices.map fun v => (v, (⊤ : WithTop Int))) s 0,
         g.vertices.map fun v => (v, none), [(0, s)], []⟩ =
        ⟨aset (g.vertices.map fun v => (v, (⊤ : WithTop Int))) s 0,
         g.vertices.map fun v => (v, none), [], [s]⟩ := by
      simp only [dstep, hq0]
      rw [if_neg (List.not_mem_nil s)]
      rw [if_neg (by rw [dget, alookupD_aset_self]; simp)]
      rw [hnbr]
      rfl
    rw [hstep]
    exact dloop_queue_nil g _ _ rfl
  have hd : alookup (dijkstra g s).1 e = some ⊤ := by
    show alookup (dijkstraRun g s).dist e = some ⊤
    rw [hrun]
    show alookup (aset (g.vertices.map fun v => (v, (⊤ : WithTop Int))) s 0) e
        = some ⊤
    rw [alookup_aset_ne _ _ _ _ fun h => hne h.symm]
    exact alookup_map_top g.vertices e he
  simp only [getShortestPath, hd]
  rw [if_pos trivial]

/-- **C8, counterexample.**  On the sample city, `get_shortest_path` with
the absent end vertex `"X"` does not return an empty path with infinite
cost: `distances["X"]` raises `KeyError` (modelled by `none`). -/
theorem get_shortest_path_absent_end_raises_cx :
    getShortestPath createSampleCity "HQ" "X" = none := by
  decide

/-- **C8, amended.**  On a well-formed graph, `get_neighbors` of an absent
vertex degrades to an empty dict; `get_shortest_path` with an absent end
vertex raises `KeyError` (`none`) rather than returning `([], ∞)`; and with
an absent start vertex (the end being present) it does return the empty
path with infinite cost. -/
theorem lookup_missing_vertex_policy (g : EmergencyGraph) (s e v : String)
    (hwf : WellFormed g) :
    (v ∉ g.vertices → getNeighbors g v = []) ∧
    (e ∉ g.vertices → e ≠ s → getShortestPath g s e = none) ∧
    (s ∉ g.vertices → e ∈ g.vertices → getShortestPath g s e = some ([], ⊤)) :=
  ⟨fun hv => getNeighbors_absent g hwf v hv,
   fun he hne => getShortestPath_absent_end g s e hwf he hne,
   fun hs he => getShortestPath_absent_start g s e hwf hs he⟩

/-- Witness for `lookup_missing_vertex_policy` on the sample city. -/
theorem lookup_missing_vertex_policy_witness :
    ("X" ∉ createSampleCity.vertices → getNeighbors createSampleCity "X" = []) ∧
    ("X" ∉ createSampleCity.vertices → "X" ≠ "HQ" →
      getShortestPath createSampleCity "HQ" "X" = none) ∧
    ("HQ" ∉ createSampleCity.vertices → "X" ∈ createSampleCity.vertices →
      getShortestPath createSampleCity "HQ" "X" = some ([], ⊤)) :=
  lookup_missing_vertex_policy createSampleCity "HQ" "X" "X" createSampleCity_wf

/-! ## Theorems: Dijkstra distance correctness (claim C1)

`PathTo g s v c` is the cost-`c` walks from `s` to `v`; over non-negative
weights the least walk cost is the least path cost, so the claim's "minimum
total weight over all paths" is formalised as `IsLeast {c | PathTo g s v c}`. -/

inductive PathTo (g : EmergencyGraph) (s : String) : String → Int → Prop
  | base : PathTo g s s 0
  | step {u v : String} {c w : Int} :
      PathTo g s u c → (v, w) ∈ getNeighbors g u → PathTo g s v (c + w)

theorem pqLe_fst (a b : Int × String) (h : pqLe a b) : a.1 ≤ b.1 := by
  rcases h with h | ⟨h, _⟩
  · exact le_of_lt h
  · exact le_of_eq h

theorem dget_aset (dist : DistMap) (x y : String) (v : WithTop Int) :
    dget (aset dist x v) y = if x = y then v else dget dist y := by
  by_cases h : x = y
  · subst h
    rw [if_pos rfl, dget, alookupD_aset_self]
  · rw [if_neg h, dget, dget, alookupD, alookup_aset_ne _ _ _ _ h, alookupD]

theorem dget_init (vs : List String) (s v : String) :
    dget (aset (vs.map fun u => (u, (⊤ : WithTop Int))) s 0) v
      = if s = v then 0 else ⊤ := by
  by_cases h : s = v
  · subst h
    rw [if_pos rfl, dget, alookupD_aset_self]
  · rw [if_neg h, dget, alookupD, alookup_aset_ne _ _ _ _ h]
    induction vs with
    | nil => rfl
    | cons a t ih =>
      by_cases ha : a = v
      · subst ha
        simp [alookup]
      · simp only [List.map_cons, alookup, ha, if_false]
        exact ih

theorem nonneg_nbrs (g : EmergencyGraph) (hn : NonnegWeights g) (u : String) :
    ∀ p ∈ getNeighbors g u, 0 ≤ p.2 := by
  intro p hp
  cases h : alookup g.edges u with
  | none => simp only [getNeighbors, h] at hp; cases hp
  | some nbrs =>
    simp only [getNeighbors, h] at hp
    exact hn u nbrs h p hp

theorem getNeighbors_eq_getD (g : EmergencyGraph) (u : String) :
    getNeighbors g u = (alookup g.edges u).getD [] := by
  cases h : alookup g.edges u <;> simp [getNeighbors, h]

theorem relaxNbrs_visited (u : String) (d : Int) :
    ∀ (nbrs : List (String × Int)) (st : DState),
      (relaxNbrs u d nbrs st).visited = st.visited := by
  intro nbrs
  induction nbrs with
  | nil => intro st; rfl
  | cons q rest ih =>
    obtain ⟨x, w⟩ := q
    intro st
    simp only [relaxNbrs]
    rw [ih]
    by_cases hc : ((d + w : Int) : WithTop Int) < dget st.dist x
    · rw [if_pos hc]
    · rw [if_neg hc]

theorem relaxNbrs_dist_mono (u : String) (d : Int) :
    ∀ (nbrs : List (String × Int)) (st : DState) (y : String),
      dget (relaxNbrs u d nbrs st).dist y ≤ dget st.dist y := by
  intro nbrs
  induction nbrs with
  | nil => intro st y; exact le_refl _
  | cons q rest ih =>
    obtain ⟨x, w⟩ := q
    intro st y
    simp only [relaxNbrs]
    by_cases hc : ((d + w : Int) : WithTop Int) < dget st.dist x
    · rw [if_pos hc]
      refine (ih _ y).trans ?_
      show dget (aset st.dist x _) y ≤ dget st.dist y
      rw [dget_aset]
      by_cases hxy : x = y
      · rw [if_pos hxy]
        subst hxy
        exact le_of_lt hc
      · rw [if_neg hxy]
    · rw [if_neg hc]
      exact ih _ y

theorem relaxNbrs_queue_len (u : String) (d : Int) :
    ∀ (nbrs : List (String × Int)) (st : DState),
      (relaxNbrs u d nbrs st).queue.length ≤ st.queue.length + nbrs.length := by
  intro nbrs
  induction nbrs with
  | nil => intro st; exact Nat.le_add_right _ _
  | cons q rest ih =>
    obtain ⟨x, w⟩ := q
    intro st
    simp only [relaxNbrs, List.length_cons]
    by_cases hc : ((d + w : Int) : WithTop Int) < dget st.dist x
    · rw [if_pos hc]
      refine (ih _).trans ?_
      simp only [List.length_append, List.length_singleton]
      omega
    · rw [if_neg hc]
      exact (ih _).trans (by omega)

/-- The loop invariant of `dijkstra`. -/
structure DInv (g : EmergencyGraph) (s : String) (st : DState) : Prop where
  sound : ∀ v (c : Int), dget st.dist v = (c : WithTop Int) → PathTo g s v c
  dists : dget st.dist s ≤ 0
  qpath : ∀ p ∈ st.queue, PathTo g s p.2 p.1
  qdom : ∀ p ∈ st.queue, dget st.dist p.2 ≤ (p.1 : WithTop Int)
  fresh : ∀ v (c : Int), dget st.dist v = (c : WithTop Int) →
    v ∈ st.visited ∨ ∃ p ∈ st.queue, p.2 = v ∧ dget st.dist v = (p.1 : WithTop Int)
  vismin : ∀ x ∈ st.visited, ∀ p ∈ st.queue, dget st.dist x ≤ (p.1 : WithTop Int)
  relaxed : ∀ x ∈ st.visited, ∀ p ∈ getNeighbors g x,
    dget st.dist p.1 ≤ dget st.dist x + (p.2 : WithTop Int)

/-- The invariant during the relaxation scan of a freshly visited `u` at
distance `d` (its own edges relaxed only up to the scan point). -/
structure RInv (g : EmergencyGraph) (s u : String) (d : Int) (st : DState) :
    Prop where
  sound : ∀ v (c : Int), dget st.dist v = (c : WithTop Int) → PathTo g s v c
  dists : dget st.dist s ≤ 0
  qpath : ∀ p ∈ st.queue, PathTo g s p.2 p.1
  qdom : ∀ p ∈ st.queue, dget st.dist p.2 ≤ (p.1 : WithTop Int)
  fresh : ∀ v (c : Int), dget st.dist v = (c : WithTop Int) →
    v ∈ st.visited ∨ ∃ p ∈ st.queue, p.2 = v ∧ dget st.dist v = (p.1 : WithTop Int)
  vismin : ∀ x ∈ st.visited, ∀ p ∈ st.queue, dget st.dist x ≤ (p.1 : WithTop Int)
  relaxedOld : ∀ x ∈ st.visited, x ≠ u → ∀ p ∈ getNeighbors g x,
    dget st.dist p.1 ≤ dget st.dist x + (p.2 : WithTop Int)
  hud : dget st.dist u = (d : WithTop Int)
  hvd : ∀ x ∈ st.visited, dget st.dist x ≤ (d : WithTop Int)

/-- One committed relaxation `distances[x] = d + w` preserves the scan
invariant. -/
theorem RInv_update (g : EmergencyGraph) (s u : String) (d : Int)
    (hpu : PathTo g s u d) (st : DState) (x : String) (w : Int)
    (hxmem : (x, w) ∈ getNeighbors g u) (hxw : 0 ≤ w)
    (hc : ((d + w : Int) : WithTop Int) < dget st.dist x)
    (hR : RInv g s u d st) :
    RInv g s u d
      { st with dist := aset st.dist x ((d + w : Int) : WithTop Int),
                pred := aset st.pred x (some u),
                queue := st.queue ++ [(d + w, x)] } := by
  have hxvis : x ∉ st.visited := by
    intro hx
    have h1 : dget st.dist x ≤ ((d : Int) : WithTop Int) := hR.hvd x hx
    have h2 : ((d : Int) : WithTop Int) ≤ ((d + w : Int) : WithTop Int) := by
      exact_mod_cast (by omega : d ≤ d + w)
    exact absurd hc (not_lt.mpr (h1.trans h2))
  have hxu : x ≠ u := by
    intro heq
    subst heq
    rw [hR.hud] at hc
    have : d + w < d := by exact_mod_cast hc
    omega
  have hda : ∀ y, dget (aset st.dist x ((d + w : Int) : WithTop Int)) y =
      if x = y then ((d + w : Int) : WithTop Int) else dget st.dist y :=
    fun y => dget_aset st.dist x y _
  have hmono : ∀ y, dget (aset st.dist x ((d + w : Int) : WithTop Int)) y ≤
      dget st.dist y := by
    intro y
    rw [hda y]
    by_cases hxy : x = y
    · rw [if_pos hxy]
      subst hxy
      exact le_of_lt hc
    · rw [if_neg hxy]
  have hvisd : ∀ y ∈ st.visited,
      dget (aset st.dist x ((d + w : Int) : WithTop Int)) y = dget st.dist y := by
    intro y hy
    rw [hda y, if_neg fun (h : x = y) => hxvis (h.symm ▸ hy)]
  refine ⟨?_, ?_, ?_, ?_, ?_, ?_, ?_, ?_, ?_⟩
  · intro v c hv
    have hv' : dget (aset st.dist x ((d + w : Int) : WithTop Int)) v =
        (c : WithTop Int) := hv
    rw [hda v] at hv'
    by_cases hxy : x = v
    · rw [if_pos hxy] at hv'
      have hcw : c = d + w := by exact_mod_cast hv'.symm
      subst hcw
      exact hxy ▸ PathTo.step hpu hxmem
    · rw [if_neg hxy] at hv'
      exact hR.sound v c hv'
  · exact (hmono s).trans hR.dists
  · intro p hp
    rcases List.mem_append.mp hp with hp | hp
    · exact hR.qpath p hp
    · rw [List.mem_singleton] at hp
      subst hp
      exact PathTo.step hpu hxmem
  · intro p hp
    rcases List.mem_append.mp hp with hp | hp
    · exact (hmono p.2).trans (hR.qdom p hp)
    · rw [List.mem_singleton] at hp
      subst hp
      show dget (aset st.dist x ((d + w : Int) : WithTop Int)) x ≤ _
      rw [hda x, if_pos rfl]
  · intro v c hv
    by_cases hxy : x = v
    · subst hxy
      refine Or.inr ⟨(d + w, x),
        List.mem_append_right _ (List.mem_singleton.mpr rfl), rfl, ?_⟩
      show dget (aset st.dist x ((d + w : Int) : WithTop Int)) x = _
      rw [hda x, if_pos rfl]
    · have hv' : dget (aset st.dist x ((d + w : Int) : WithTop Int)) v =
          (c : WithTop Int) := hv
      rw [hda v, if_neg hxy] at hv'
      rcases hR.fresh v c hv' with h | ⟨p, hp, hpe, hfr⟩
      · exact Or.inl h
      · refine Or.inr ⟨p, List.mem_append_left _ hp, hpe, ?_⟩
        show dget (aset st.dist x ((d + w : Int) : WithTop Int)) v = _
        rw [hda v, if_neg hxy]
        exact hfr
  · intro y hy p hp
    show dget (aset st.dist x ((d + w : Int) : WithTop Int)) y ≤ _
    rw [hvisd y hy]
    rcases List.mem_append.mp hp with hp | hp
    · exact hR.vismin y hy p hp
    · rw [List.mem_singleton] at hp
      subst hp
      exact (hR.hvd y hy).trans (by exact_mod_cast (by omega : d ≤ d + w))
  · intro y hy hyu p hp
    show dget (aset st.dist x ((d + w : Int) : WithTop Int)) p.1 ≤
        dget (aset st.dist x ((d + w : Int) : WithTop Int)) y + _
    rw [hvisd y hy]
    exact (hmono p.1).trans (hR.relaxedOld y hy hyu p hp)
  · show dget (aset st.dist x ((d + w : Int) : WithTop Int)) u = _
    rw [hda u, if_neg hxu]
    exact hR.hud
  · intro y hy
    show dget (aset st.dist x ((d + w : Int) : WithTop Int)) y ≤ _
    rw [hvisd y hy]
    exact hR.hvd y hy

/-- Scanning a neighbor list preserves the invariant, and afterwards every
scanned target sits at distance at most `d +` its edge weight. -/
theorem relax_RInv (g : EmergencyGraph) (s u : String) (d : Int)
    (hpu : PathTo g s u d) :
    ∀ (nbrs : List (String × Int)) (st : DState),
      (∀ p ∈ nbrs, p ∈ getNeighbors g u ∧ 0 ≤ p.2) →
      RInv g s u d st →
      RInv g s u d (relaxNbrs u d nbrs st) ∧
        ∀ p ∈ nbrs, dget (relaxNbrs u d nbrs st).dist p.1 ≤
          ((d + p.2 : Int) : WithTop Int) := by
  intro nbrs
  induction nbrs with
  | nil =>
    intro st _ hR
    exact ⟨hR, fun p hp => absurd hp (List.not_mem_nil p)⟩
  | cons q rest ih =>
    obtain ⟨x, w⟩ := q
    intro st hn hR
    obtain ⟨hxmem, hxw⟩ := hn (x, w) (List.mem_cons_self _ _)
    have hn' : ∀ p ∈ rest, p ∈ getNeighbors g u ∧ 0 ≤ p.2 :=
      fun p hp => hn p (List.mem_cons_of_mem _ hp)
    by_cases hc : ((d + w : Int) : WithTop Int) < dget st.dist x
    · have heq : relaxNbrs u d ((x, w) :: rest) st = relaxNbrs u d rest
          { st with dist := aset st.dist x ((d + w : Int) : WithTop Int),
                    pred := aset st.pred x (some u),
                    queue := st.queue ++ [(d + w, x)] } := by
        simp only [relaxNbrs]
        rw [if_pos hc]
      rw [heq]
      obtain ⟨hR', hb⟩ := ih _ hn'
        (RInv_update g s u d hpu st x w hxmem hxw hc hR)
      refine ⟨hR', ?_⟩
      intro p hp
      rcases List.mem_cons.mp hp with rfl | hp
      · refine (relaxNbrs_dist_mono u d rest _ _).trans ?_
        show dget (aset st.dist x ((d + w : Int) : WithTop Int)) x ≤ _
        rw [dget_aset, if_pos rfl]
      · exact hb p hp
    · have heq : relaxNbrs u d ((x, w) :: rest) st = relaxNbrs u d rest st := by
        simp only [relaxNbrs]
        rw [if_neg hc]
      rw [heq]
      obtain ⟨hR', hb⟩ := ih st hn' hR
      refine ⟨hR', ?_⟩
      intro p hp
      rcases List.mem_cons.mp hp with rfl | hp
      · refine (relaxNbrs_dist_mono u d rest st _).trans ?_
        show dget st.dist x ≤ ((d + w : Int) : WithTop Int)
        exact not_lt.mp hc
      · exact hb p hp

/-- One iteration of the main loop preserves the invariant. -/
theorem dstep_DInv (g : EmergencyGraph) (s : String) (hn : NonnegWeights g)
    (st : DState) (hI : DInv g s st) : DInv g s (dstep g st) := by
  cases hq : popMin pqLe st.queue with
  | none =>
    simp only [dstep, hq]
    exact hI
  | some p =>
    obtain ⟨⟨d, u⟩, q'⟩ := p
    have hmem : (d, u) ∈ st.queue := popMin_mem pqLe st.queue _ _ hq
    have hperm := popMin_perm pqLe st.queue _ _ hq
    have hmin : ∀ p ∈ st.queue, d ≤ p.1 := fun p hp =>
      pqLe_fst _ _ (popMin_le pqLe pqLe_total pqLe_trans st.queue _ _ hq p hp)
    have hq' : ∀ p ∈ q', p ∈ st.queue := fun p hp =>
      hperm.mem_iff.mpr (List.mem_cons_of_mem _ hp)
    have hqmem : ∀ p ∈ st.queue, p = (d, u) ∨ p ∈ q' := fun p hp =>
      List.mem_cons.mp (hperm.mem_iff.mp hp)
    simp only [dstep, hq]
    by_cases hv : u ∈ st.visited
    · rw [if_pos hv]
      exact
        { sound := hI.sound
          dists := hI.dists
          qpath := fun p hp => hI.qpath p (hq' p hp)
          qdom := fun p hp => hI.qdom p (hq' p hp)
          fresh := fun v c hvc => by
            rcases hI.fresh v c hvc with h | ⟨p, hp, hpe, hfr⟩
            · exact Or.inl h
            · rcases hqmem p hp with rfl | hp'
              · exact Or.inl (hpe ▸ hv)
              · exact Or.inr ⟨p, hp', hpe, hfr⟩
          vismin := fun x hx p hp => hI.vismin x hx p (hq' p hp)
          relaxed := hI.relaxed }
    · rw [if_neg hv]
      have hdomu : dget st.dist u ≤ (d : WithTop Int) := hI.qdom (d, u) hmem
      by_cases hst : dget st.dist u < ((d : Int) : WithTop Int)
      · rw [if_pos hst]
        exfalso
        rcases hdu : dget st.dist u with _ | du
        · rw [hdu] at hst
          exact absurd hst not_top_lt
        · rw [hdu] at hst
          have hdu_lt : du < d := WithTop.coe_lt_coe.mp hst
          rcases hI.fresh u du hdu with h | ⟨p, hp, hpe, hfr⟩
          · exact hv h
          · rw [hdu] at hfr
            have h1 : du = p.1 := WithTop.coe_eq_coe.mp hfr
            have h2 := hmin p hp
            omega
      · rw [if_neg hst]
        have hud : dget st.dist u = ((d : Int) : WithTop Int) :=
          le_antisymm hdomu (not_lt.mp hst)
        have hpu : PathTo g s u d := hI.qpath (d, u) hmem
        have hR1 : RInv g s u d
            { st with queue := q', visited := st.visited ++ [u] } :=
          { sound := hI.sound
            dists := hI.dists
            qpath := fun p hp => hI.qpath p (hq' p hp)
            qdom := fun p hp => hI.qdom p (hq' p hp)
            fresh := fun v c hvc => by
              rcases hI.fresh v c hvc with h | ⟨p, hp, hpe, hfr⟩
              · exact Or.inl (List.mem_append_left _ h)
              · rcases hqmem p hp with rfl | hp'
                · exact Or.inl (List.mem_append_right _
                    (hpe ▸ List.mem_singleton.mpr rfl))
                · exact Or.inr ⟨p, hp', hpe, hfr⟩
            vismin := fun x hx p hp => by
              rcases List.mem_append.mp hx with hx | hx
              · exact hI.vismin x hx p (hq' p hp)
              · rw [List.mem_singleton] at hx
                subst hx
                rw [hud]
                exact_mod_cast hmin p (hq' p hp)
            relaxedOld := fun x hx hxu p hp => by
              rcases List.mem_append.mp hx with hx | hx
              · exact hI.relaxed x hx p hp
              · rw [List.mem_singleton] at hx
                exact absurd hx hxu
            hud := hud
            hvd := fun x hx => by
              rcases List.mem_append.mp hx with hx | hx
              · exact hI.vismin x hx (d, u) hmem
              · rw [List.mem_singleton] at hx
                subst hx
                exact le_of_eq hud }
        have hsub : ∀ p ∈ getNeighbors g u, p ∈ getNeighbors g u ∧ 0 ≤ p.2 :=
          fun p hp => ⟨hp, nonneg_nbrs g hn u p hp⟩
        obtain ⟨hR', hb⟩ := relax_RInv g s u d hpu (getNeighbors g u) _ hsub hR1
        have hvis2 : (relaxNbrs u d (getNeighbors g u)
            { st with queue := q', visited := st.visited ++ [u] }).visited =
            st.visited ++ [u] := relaxNbrs_visited u d _ _
        exact
          { sound := hR'.sound
            dists := hR'.dists
            qpath := hR'.qpath
            qdom := hR'.qdom
            fresh := hR'.fresh
            vismin := hR'.vismin
            relaxed := fun x hx p hp => by
              have hx2 : x ∈ st.visited ++ [u] := hvis2 ▸ hx
              rcases List.mem_append.mp hx2 with hx' | hx'
              · exact hR'.relaxedOld x hx (fun h => hv (h ▸ hx')) p hp
              · rw [List.mem_singleton] at hx'
                subst hx'
                rw [hR'.hud]
                refine (hb p hp).trans ?_
                rw [← WithTop.coe_add] }

theorem dloop_DInv (g : EmergencyGraph) (s : String) (hn : NonnegWeights g) :
    ∀ (n : Nat) (st : DState), DInv g s st → DInv g s (dloop g n st) := by
  intro n
  induction n with
  | zero => intro st hI; exact hI
  | succ n ih =>
    intro st hI
    rw [dloop]
    by_cases hq : st.queue = []
    · rw [if_pos hq]
      exact hI
    · rw [if_neg hq]
      exact ih _ (dstep_DInv g s hn st hI)

/-- The invariant holds on the state `dijkstra` enters its loop with. -/
theorem DInv_init (g : EmergencyGraph) (s : String) :
    DInv g s ⟨aset (g.vertices.map fun v => (v, (⊤ : WithTop Int))) s 0,
      g.vertices.map fun v => (v, none), [(0, s)], []⟩ := by
  have hdg : ∀ v, dget (aset (g.vertices.map fun u => (u, (⊤ : WithTop Int))) s 0) v
      = if s = v then 0 else ⊤ := dget_init g.vertices s
  refine ⟨?_, ?_, ?_, ?_, ?_, ?_, ?_⟩
  · intro v c hv
    have hv' := hv
    rw [hdg v] at hv'
    by_cases hsv : s = v
    · rw [if_pos hsv] at hv'
      have hc0 : c = 0 := by exact_mod_cast hv'.symm
      subst hc0
      exact hsv ▸ PathTo.base
    · rw [if_neg hsv] at hv'
      exact absurd hv'.symm WithTop.coe_ne_top
  · show dget _ s ≤ 0
    rw [hdg s, if_pos rfl]
  · intro p hp
    rw [List.mem_singleton] at hp
    subst hp
    exact PathTo.base
  · intro p hp
    rw [List.mem_singleton] at hp
    subst hp
    show dget _ s ≤ ((0 : Int) : WithTop Int)
    rw [hdg s, if_pos rfl]
    exact le_of_eq rfl
  · intro v c hv
    have hv' := hv
    rw [hdg v] at hv'
    by_cases hsv : s = v
    · subst hsv
      refine Or.inr ⟨(0, s), List.mem_singleton.mpr rfl, rfl, ?_⟩
      show dget _ s = ((0 : Int) : WithTop Int)
      rw [hdg s, if_pos rfl]
      rfl
    · rw [if_neg hsv] at hv'
      exact absurd hv'.symm WithTop.coe_ne_top
  · intro x hx
    cases hx
  · intro x hx
    cases hx

/-- Summed out-degree of the not-yet-visited adjacency keys: together with
the queue length, the decreasing measure of the main loop. -/
def unvisitedDeg (g : EmergencyGraph) (vis : List String) : Nat :=
  (((akeys g.edges).filter fun k => decide (k ∉ vis)).map
    fun k => (getNeighbors g k).length).sum

theorem filter_sum_mono (f : String → Nat) (vis : List String) (u : String) :
    ∀ l : List String,
      ((l.filter fun k => decide (k ∉ vis ++ [u])).map f).sum ≤
      ((l.filter fun k => decide (k ∉ vis)).map f).sum := by
  intro l
  induction l with
  | nil => exact le_refl _
  | cons a t ih =>
    simp only [List.filter_cons]
    by_cases hau : a ∈ vis ++ [u]
    · rw [if_neg (by simp [hau])]
      by_cases hav : a ∈ vis
      · rw [if_neg (by simp [hav])]
        exact ih
      · rw [if_pos (by simp [hav])]
        simp only [List.map_cons, List.sum_cons]
        omega
    · have hav : a ∉ vis := fun h => hau (List.mem_append_left _ h)
      rw [if_pos (by simp [hau]), if_pos (by simp [hav])]
      simp only [List.map_cons, List.sum_cons]
      omega

theorem filter_sum_drop (f : String → Nat) (vis : List String) (u : String)
    (hu : u ∉ vis) :
    ∀ l : List String, u ∈ l →
      ((l.filter fun k => decide (k ∉ vis ++ [u])).map f).sum + f u ≤
      ((l.filter fun k => decide (k ∉ vis)).map f).sum := by
  intro l
  induction l with
  | nil => intro h; cases h
  | cons a t ih =>
    intro hmem
    simp only [List.filter_cons]
    by_cases hau : a = u
    · subst hau
      rw [if_neg (by simp), if_pos (by simp [hu])]
      simp only [List.map_cons, List.sum_cons]
      have := filter_sum_mono f vis a t
      omega
    · have hmem' : u ∈ t := by
        rcases List.mem_cons.mp hmem with h | h
        · exact absurd h.symm hau
        · exact h
      by_cases hav : a ∈ vis
      · rw [if_neg (by simp [hav]), if_neg (by simp [hav])]
        exact ih hmem'
      · rw [if_pos (by simp [List.mem_append, List.mem_singleton, hav, hau]),
          if_pos (by simp [hav])]
        simp only [List.map_cons, List.sum_cons]
        have := ih hmem'
        omega

theorem unvisitedDeg_mono (g : EmergencyGraph) (vis : List String)
    (u : String) : unvisitedDeg g (vis ++ [u]) ≤ unvisitedDeg g vis :=
  filter_sum_mono _ vis u _

theorem unvisitedDeg_drop (g : EmergencyGraph) (vis : List String)
    (u : String) (hu : u ∉ vis) (hk : u ∈ akeys g.edges) :
    unvisitedDeg g (vis ++ [u]) + (getNeighbors g u).length ≤
      unvisitedDeg g vis :=
  filter_sum_drop _ vis u hu _ hk

theorem foldl_add_lengths (es : List (String × List (String × Int))) :
    ∀ a : Nat, es.foldl (fun a p => a + p.2.length) a =
      a + (es.map fun p => p.2.length).sum := by
  induction es with
  | nil => intro a; simp
  | cons p rest ih =>
    intro a
    simp only [List.foldl_cons, List.map_cons, List.sum_cons]
    rw [ih]
    omega

theorem sum_deg_keys (es : List (String × List (String × Int)))
    (hnd : (akeys es).Nodup) :
    ((akeys es).map fun k => ((alookup es k).getD []).length).sum =
      (es.map fun p => p.2.length).sum := by
  induction es with
  | nil => rfl
  | cons p rest ih =>
    obtain ⟨k, v⟩ := p
    simp only [akeys, List.map_cons] at hnd
    have hk : k ∉ List.map Prod.fst rest := (List.nodup_cons.mp hnd).1
    have hnd' : (List.map Prod.fst rest).Nodup := (List.nodup_cons.mp hnd).2
    simp only [akeys, List.map_cons, List.sum_cons]
    have h1 : alookup ((k, v) :: rest) k = some v := by
      rw [alookup, if_pos rfl]
    rw [h1]
    simp only [Option.getD_some]
    have h2 : ∀ k' ∈ List.map Prod.fst rest,
        ((alookup ((k, v) :: rest) k').getD []).length =
        ((alookup rest k').getD []).length := by
      intro k' hk'
      rw [alookup, if_neg fun (h : k = k') => hk (h.symm ▸ hk')]
    rw [List.map_congr_left h2]
    have ih' := ih hnd'
    simp only [akeys] at ih'
    rw [ih']

theorem unvisitedDeg_nil (g : EmergencyGraph)
    (hnd : (akeys g.edges).Nodup) : unvisitedDeg g [] = totalDeg g := by
  rw [totalDeg, foldl_add_lengths, Nat.zero_add, unvisitedDeg]
  have hf : ((akeys g.edges).filter fun k => decide (k ∉ ([] : List String)))
      = akeys g.edges := List.filter_eq_self.mpr fun a _ => by simp
  rw [hf]
  have hg : ∀ k ∈ akeys g.edges,
      (getNeighbors g k).length = ((alookup g.edges k).getD []).length := by
    intro k _
    rw [getNeighbors_eq_getD]
  rw [List.map_congr_left hg]
  exact sum_deg_keys g.edges hnd

/-- Each iteration on a nonempty queue strictly shrinks the measure. -/
theorem dstep_measure (g : EmergencyGraph) (st : DState)
    (hq : st.queue ≠ []) :
    (dstep g st).queue.length + unvisitedDeg g (dstep g st).visited + 1 ≤
      st.queue.length + unvisitedDeg g st.visited := by
  cases hpop : popMin pqLe st.queue with
  | none => exact absurd ((popMin_eq_none_iff pqLe st.queue).mp hpop) hq
  | some p =>
    obtain ⟨⟨d, u⟩, q'⟩ := p
    have hlen : st.queue.length = q'.length + 1 :=
      popMin_length pqLe st.queue _ _ hpop
    simp only [dstep, hpop]
    by_cases hv : u ∈ st.visited
    · rw [if_pos hv]
      show q'.length + unvisitedDeg g st.visited + 1 ≤ _
      omega
    · rw [if_neg hv]
      by_cases hst : dget st.dist u < (d : WithTop Int)
      · rw [if_pos hst]
        show q'.length + unvisitedDeg g (st.visited ++ [u]) + 1 ≤ _
        have := unvisitedDeg_mono g st.visited u
        omega
      · rw [if_neg hst]
        have hql : (relaxNbrs u d (getNeighbors g u)
            { st with queue := q', visited := st.visited ++ [u] }).queue.length ≤
            q'.length + (getNeighbors g u).length :=
          relaxNbrs_queue_len u d (getNeighbors g u) _
        have hvis : (relaxNbrs u d (getNeighbors g u)
            { st with queue := q', visited := st.visited ++ [u] }).visited =
            st.visited ++ [u] := relaxNbrs_visited u d _ _
        rw [hvis]
        by_cases hk : u ∈ akeys g.edges
        · have hdrop := unvisitedDeg_drop g st.visited u hv hk
          omega
        · have hnb : getNeighbors g u = [] := by
            rw [getNeighbors_eq_getD, alookup_eq_none_of_not_mem _ _ hk]
            rfl
          have hmono := unvisitedDeg_mono g st.visited u
          rw [hnb] at hql ⊢
          simp only [List.length_nil] at hql
          omega

theorem dloop_empties (g : EmergencyGraph) :
    ∀ (n : Nat) (st : DState),
      st.queue.length + unvisitedDeg g st.visited ≤ n →
      (dloop g n st).queue = [] := by
  intro n
  induction n with
  | zero =>
    intro st h
    have h0 : st.queue.length = 0 := by omega
    exact List.length_eq_zero.mp h0
  | succ n ih =>
    intro st h
    rw [dloop]
    by_cases hq : st.queue = []
    · rw [if_pos hq]
      exact hq
    · rw [if_neg hq]
      refine ih _ ?_
      have := dstep_measure g st hq
      omega

/-- The supplied fuel `dfuel` outlasts the loop: the final queue is empty. -/
theorem dijkstraRun_queue_nil (g : EmergencyGraph) (s : String)
    (hnd : (akeys g.edges).Nodup) : (dijkstraRun g s).queue = [] := by
  show (dloop g (dfuel g)
      ⟨aset (g.vertices.map fun v => (v, (⊤ : WithTop Int))) s 0,
       g.vertices.map fun v => (v, none), [(0, s)], []⟩).queue = []
  refine dloop_empties g (dfuel g) _ ?_
  show 1 + unvisitedDeg g [] ≤ dfuel g
  rw [unvisitedDeg_nil g hnd, dfuel]

/-- When the loop has drained the queue, every walk cost upper-bounds the
reported distance. -/
theorem final_lb (g : EmergencyGraph) (s : String) (stF : DState)
    (hq : stF.queue = []) (hI : DInv g s stF) :
    ∀ (v : String) (c : Int), PathTo g s v c →
      dget stF.dist v ≤ (c : WithTop Int) := by
  intro v c hp
  induction hp with
  | base =>
    have h := hI.dists
    simpa using h
  | step hpu hedge ih =>
    rename_i u v' c' w
    rcases hdu : dget stF.dist u with _ | du
    · rw [hdu] at ih
      exact absurd (top_le_iff.mp ih) WithTop.coe_ne_top
    · have hvisu : u ∈ stF.visited := by
        rcases hI.fresh u du hdu with h | ⟨p, hp2, _, _⟩
        · exact h
        · rw [hq] at hp2
          cases hp2
      have hrel := hI.relaxed u hvisu (v', w) hedge
      rw [hdu] at hrel
      have hduc : du ≤ c' := by
        rw [hdu] at ih
        exact WithTop.coe_le_coe.mp ih
      calc dget stF.dist v' ≤ (du : WithTop Int) + (w : WithTop Int) := hrel
        _ ≤ (c' : WithTop Int) + (w : WithTop Int) :=
            add_le_add_right (WithTop.coe_le_coe.mpr hduc) _
        _ = ((c' + w : Int) : WithTop Int) := (WithTop.coe_add _ _).symm

theorem dijkstraRun_DInv (g : EmergencyGraph) (s : String)
    (hn : NonnegWeights g) : DInv g s (dijkstraRun g s) := by
  show DInv g s (dloop g (dfuel g)
    ⟨aset (g.vertices.map fun v => (v, (⊤ : WithTop Int))) s 0,
     g.vertices.map fun v => (v, none), [(0, s)], []⟩)
  exact dloop_DInv g s hn _ _ (DInv_init g s)

/-- All sample-city weights are non-negative. -/
theorem createSampleCity_nonneg : NonnegWeights createSampleCity := by
  intro u nbrs h
  have hm := alookup_mem _ _ _ h
  have he : createSampleCity.edges =
      [("HQ", [("A", 5), ("B", 10)]),
       ("A", [("HQ", 5), ("B", 3), ("C", 8)]),
       ("B", [("HQ", 10), ("A", 3), ("C", 6), ("D", 7)]),
       ("C", [("A", 8), ("B", 6), ("D", 4)]),
       ("D", [("B", 7), ("C", 4)])] := by decide
  rw [he] at hm
  simp only [List.mem_cons, List.not_mem_nil, or_false] at hm
  rcases hm with h1 | h1 | h1 | h1 | h1 <;>
    (rw [Prod.mk.injEq] at h1; obtain ⟨rfl, rfl⟩ := h1; decide)

/-- **C1.**  On any well-formed graph with non-negative weights and a start
vertex in the graph, `dijkstra` reports for every vertex `⊤` exactly when
no walk from the start reaches it, and otherwise the least total weight
over all walks from the start; concretely, `get_shortest_path` on the
sample city from `HQ` to `D` returns the path `HQ-A-B-D` at cost 15. -/
theorem dijkstra_correct (g : EmergencyGraph) (s : String)
    (hwf : WellFormed g) (hn : NonnegWeights g) (hs : s ∈ g.vertices) :
    (∀ v : String,
      (dget (dijkstra g s).1 v = ⊤ ∧ ¬ ∃ c : Int, PathTo g s v c) ∨
      ∃ d : Int, dget (dijkstra g s).1 v = (d : WithTop Int) ∧
        IsLeast {c : Int | PathTo g s v c} d) ∧
    getShortestPath createSampleCity "HQ" "D" =
      some (["HQ", "A", "B", "D"], ((15 : Int) : WithTop Int)) := by
  have hI : DInv g s (dijkstraRun g s) := dijkstraRun_DInv g s hn
  have hqnil := dijkstraRun_queue_nil g s hwf.nodup_keys
  have hlb := final_lb g s (dijkstraRun g s) hqnil hI
  constructor
  · intro v
    rcases hdv : dget (dijkstraRun g s).dist v with _ | dv
    · left
      refine ⟨hdv, ?_⟩
      rintro ⟨c, hc⟩
      have h := hlb v c hc
      rw [hdv] at h
      exact WithTop.coe_ne_top (top_le_iff.mp h)
    · right
      refine ⟨dv, hdv, hI.sound v dv hdv, ?_⟩
      intro c hc
      have h := hlb v c hc
      rw [hdv] at h
      exact WithTop.coe_le_coe.mp h
  · decide

/-- Witness: `dijkstra_correct` instantiated on the sample city from `HQ`. -/
theorem dijkstra_correct_witness :
    (∀ v : String,
      (dget (dijkstra createSampleCity "HQ").1 v = ⊤ ∧
        ¬ ∃ c : Int, PathTo createSampleCity "HQ" v c) ∨
      ∃ d : Int, dget (dijkstra createSampleCity "HQ").1 v = (d : WithTop Int) ∧
        IsLeast {c : Int | PathTo createSampleCity "HQ" v c} d) ∧
    getShortestPath createSampleCity "HQ" "D" =
      some (["HQ", "A", "B", "D"], ((15 : Int) : WithTop Int)) :=
  dijkstra_correct createSampleCity "HQ" createSampleCity_wf
    createSampleCity_nonneg (by decide)

/-! ## MST algorithms (claim C2): the undirected edge model

`kruskals_algorithm` collects each undirected edge once, as `(u, v, w)`
with `u < v`; `allEdges` is exactly that collection pass, and doubles as
the canonical edge list the spanning-tree statements quantify over. -/

/-- CPython string comparison, decided through the character list (the
iterator-based instance does not reduce). -/
def ltDec (a b : String) : Decidable (a < b) :=
  decidable_of_iff (a.toList < b.toList) String.lt_iff_toList_lt.symm

/-- The undirected edges of the graph, in `kruskals_algorithm`'s collection
order, deduplicated by `vertex < neighbor`. -/
def allEdges (g : EmergencyGraph) : List (String × String × Int) :=
  (g.vertices.map fun v =>
    (getNeighbors g v).filterMap fun p =>
      @ite _ (v < p.1) (ltDec v p.1) (some (v, p.1, p.2)) none).join

/-- `y` and `z` are the two endpoints of some edge of `es`. -/
def EdgeBetween (es : List (String × String × Int)) (y z : String) : Prop :=
  ∃ w, (y, z, w) ∈ es ∨ (z, y, w) ∈ es

/-- Connectivity generated by the edges of `es`. -/
inductive Linked (es : List (String × String × Int)) : String → String → Prop
  | refl (x : String) : Linked es x x
  | step {x y z : String} : Linked es x y → EdgeBetween es y z → Linked es x z

/-- Total weight of an edge list. -/
def sumW (es : List (String × String × Int)) : Int :=
  (es.map fun e => e.2.2).sum

theorem EdgeBetween_symm {es : List (String × String × Int)} {y z : String}
    (h : EdgeBetween es y z) : EdgeBetween es z y := by
  obtain ⟨w, h | h⟩ := h
  · exact ⟨w, Or.inr h⟩
  · exact ⟨w, Or.inl h⟩

theorem EdgeBetween_mono {es es' : List (String × String × Int)}
    (hsub : ∀ e ∈ es, e ∈ es') {y z : String} (h : EdgeBetween es y z) :
    EdgeBetween es' y z := by
  obtain ⟨w, h | h⟩ := h
  · exact ⟨w, Or.inl (hsub _ h)⟩
  · exact ⟨w, Or.inr (hsub _ h)⟩

theorem Linked_single {es : List (String × String × Int)} {y z : String}
    (h : EdgeBetween es y z) : Linked es y z :=
  (Linked.refl y).step h

theorem Linked_trans {es : List (String × String × Int)} {x y z : String}
    (h1 : Linked es x y) (h2 : Linked es y z) : Linked es x z := by
  induction h2 with
  | refl => exact h1
  | step _ he ih => exact ih.step he

theorem Linked_symm {es : List (String × String × Int)} {x y : String}
    (h : Linked es x y) : Linked es y x := by
  induction h with
  | refl => exact Linked.refl _
  | step _ he ih => exact Linked_trans (Linked_single (EdgeBetween_symm he)) ih

theorem Linked_mono {es es' : List (String × String × Int)}
    (hsub : ∀ e ∈ es, e ∈ es') {x y : String} (h : Linked es x y) :
    Linked es' x y := by
  induction h with
  | refl => exact Linked.refl _
  | step _ he ih => exact ih.step (EdgeBetween_mono hsub he)

theorem Linked_nil {x y : String} (h : Linked [] x y) : x = y := by
  induction h with
  | refl => rfl
  | step _ he _ =>
    obtain ⟨w, hw | hw⟩ := he <;> cases hw

theorem sumW_append (l r : List (String × String × Int)) :
    sumW (l ++ r) = sumW l + sumW r := by
  simp [sumW]

theorem sumW_erase (es : List (String × String × Int))
    (f : String × String × Int) (hf : f ∈ es) :
    sumW (es.erase f) = sumW es - f.2.2 := by
  induction es with
  | nil => cases hf
  | cons a t ih =>
    by_cases ha : a = f
    · subst ha
      rw [List.erase_cons_head]
      simp only [sumW, List.map_cons, List.sum_cons]
      omega
    · rw [List.erase_cons_tail (by simp [ha])]
      have hf' : f ∈ t := by
        rcases List.mem_cons.mp hf with h | h
        · exact absurd h.symm ha
        · exact h
      simp only [sumW, List.map_cons, List.sum_cons] at ih ⊢
      rw [ih hf']
      omega

/-- Removing one edge splits any linkage into at most two pieces hanging
off that edge's endpoints. -/
theorem linked_erase {es : List (String × String × Int)}
    (f : String × String × Int) {x y : String} (h : Linked es x y) :
    Linked (es.erase f) x y ∨
      (Linked (es.erase f) x f.1 ∧ Linked (es.erase f) f.2.1 y) ∨
      (Linked (es.erase f) x f.2.1 ∧ Linked (es.erase f) f.1 y) := by
  induction h with
  | refl => exact Or.inl (Linked.refl _)
  | step h1 he ih =>
    rename_i y' z'
    obtain ⟨w, hw | hw⟩ := he
    · by_cases htf : (y', z', w) = f
      · obtain ⟨rfl, rfl, rfl⟩ : y' = f.1 ∧ z' = f.2.1 ∧ w = f.2.2 := by
          rw [← htf]
          exact ⟨rfl, rfl, rfl⟩
        rcases ih with ih | ⟨ih1, ih2⟩ | ⟨ih1, ih2⟩
        · exact Or.inr (Or.inl ⟨ih, Linked.refl _⟩)
        · exact Or.inr (Or.inl ⟨ih1, Linked.refl _⟩)
        · exact Or.inl ih1
      · have hmem : (y', z', w) ∈ es.erase f := (List.mem_erase_of_ne htf).mpr hw
        have hstep : EdgeBetween (es.erase f) y' z' := ⟨w, Or.inl hmem⟩
        rcases ih with ih | ⟨ih1, ih2⟩ | ⟨ih1, ih2⟩
        · exact Or.inl (ih.step hstep)
        · exact Or.inr (Or.inl ⟨ih1, ih2.step hstep⟩)
        · exact Or.inr (Or.inr ⟨ih1, ih2.step hstep⟩)
    · by_cases htf : (z', y', w) = f
      · obtain ⟨rfl, rfl, rfl⟩ : z' = f.1 ∧ y' = f.2.1 ∧ w = f.2.2 := by
          rw [← htf]
          exact ⟨rfl, rfl, rfl⟩
        rcases ih with ih | ⟨ih1, ih2⟩ | ⟨ih1, ih2⟩
        · exact Or.inr (Or.inr ⟨ih, Linked.refl _⟩)
        · exact Or.inl ih1
        · exact Or.inr (Or.inr ⟨ih1, Linked.refl _⟩)
      · have hmem : (z', y', w) ∈ es.erase f := (List.mem_erase_of_ne htf).mpr hw
        have hstep : EdgeBetween (es.erase f) y' z' := ⟨w, Or.inr hmem⟩
        rcases ih with ih | ⟨ih1, ih2⟩ | ⟨ih1, ih2⟩
        · exact Or.inl (ih.step hstep)
        · exact Or.inr (Or.inl ⟨ih1, ih2.step hstep⟩)
        · exact Or.inr (Or.inr ⟨ih1, ih2.step hstep⟩)

/-- A linkage leaving a cut must use an edge crossing the cut. -/
theorem linked_cross {es : List (String × String × Int)} (C : String → Prop)
    {u v : String} (h : Linked es u v) (hu : C u) (hv : ¬ C v) :
    ∃ f ∈ es, (C f.1 ∧ ¬ C f.2.1) ∨ (C f.2.1 ∧ ¬ C f.1) := by
  induction h with
  | refl => exact absurd hu hv
  | step h1 he ih =>
    rename_i y' z'
    by_cases hy : C y'
    · obtain ⟨w, hw | hw⟩ := he
      · exact ⟨(y', z', w), hw, Or.inl ⟨hy, hv⟩⟩
      · exact ⟨(z', y', w), hw, Or.inr ⟨hy, hv⟩⟩
    · exact ih hy

theorem subset_erase_append {α : Type} [DecidableEq α] (A B : List α)
    (e : α) (h : ∀ x ∈ A, x ∈ B) : ∀ x ∈ A ++ [e], x ∈ B ++ [e] := by
  intro x hx
  rcases List.mem_append.mp hx with hx | hx
  · exact List.mem_append_left _ (h x hx)
  · exact List.mem_append_right _ hx

/-- In a linked edge set separated by a cut there is a crossing edge `f`
whose removal is repaired by the new edge `enew`: `f`'s endpoints stay
linked in `T.erase f ++ [enew]`. -/
theorem exchange_edge (C : String → Prop) (u v : String) (hCu : C u)
    (hCv : ¬ C v) (enew : String × String × Int)
    (henew : EdgeBetween [enew] u v) :
    ∀ (n : Nat) (T : List (String × String × Int)), T.length ≤ n →
      Linked T u v →
      ∃ f ∈ T, ((C f.1 ∧ ¬ C f.2.1) ∨ (C f.2.1 ∧ ¬ C f.1)) ∧
        Linked (T.erase f ++ [enew]) f.1 f.2.1 := by
  intro n
  induction n with
  | zero =>
    intro T hlen hl
    have hT : T = [] := List.length_eq_zero.mp (Nat.le_zero.mp hlen)
    subst hT
    exact absurd (Linked_nil hl) (fun h => hCv (h ▸ hCu))
  | succ n ih =>
    intro T hlen hl
    obtain ⟨f, hfT, hcross⟩ := linked_cross C hl hCu hCv
    have hsub1 : ∀ x ∈ T.erase f, x ∈ T.erase f ++ [enew] :=
      fun x hx => List.mem_append_left _ hx
    have huv : Linked (T.erase f ++ [enew]) u v :=
      Linked_single (EdgeBetween_mono
        (fun e he => List.mem_append_right _ (List.mem_singleton.mp he ▸
          List.mem_singleton.mpr rfl)) henew)
    rcases linked_erase f hl with hc | ⟨hc1, hc2⟩ | ⟨hc1, hc2⟩
    · have hlen' : (T.erase f).length ≤ n := by
        have := List.length_erase_of_mem hfT
        omega
      obtain ⟨f', hf'mem, hcross', hlink'⟩ := ih (T.erase f) hlen' hc
      refine ⟨f', List.mem_of_mem_erase hf'mem, hcross', ?_⟩
      refine Linked_mono (subset_erase_append _ _ _ ?_) hlink'
      intro x hx
      rw [List.erase_comm] at hx
      exact List.mem_of_mem_erase hx
    · refine ⟨f, hfT, hcross, ?_⟩
      have h1 : Linked (T.erase f ++ [enew]) f.1 u :=
        Linked_symm (Linked_mono hsub1 hc1)
      have h2 : Linked (T.erase f ++ [enew]) v f.2.1 :=
        Linked_symm (Linked_mono hsub1 hc2)
      exact Linked_trans (Linked_trans h1 huv) h2
    · refine ⟨f, hfT, hcross, ?_⟩
      have h1 : Linked (T.erase f ++ [enew]) u f.2.1 :=
        Linked_mono hsub1 hc1
      have h2 : Linked (T.erase f ++ [enew]) f.1 v :=
        Linked_mono hsub1 hc2
      exact Linked_trans h2 (Linked_trans (Linked_symm huv) h1)

/-- Rerouting: if `f`'s endpoints remain linked after the swap, every
linkage of `T` survives the swap. -/
theorem linked_swap {T : List (String × String × Int)}
    {f enew : String × String × Int}
    (hf : Linked (T.erase f ++ [enew]) f.1 f.2.1) :
    ∀ {x y : String}, Linked T x y → Linked (T.erase f ++ [enew]) x y := by
  intro x y h
  induction h with
  | refl => exact Linked.refl _
  | step h1 he ih =>
    rename_i y' z'
    obtain ⟨w, hw | hw⟩ := he
    · by_cases htf : (y', z', w) = f
      · obtain ⟨rfl, rfl, rfl⟩ : y' = f.1 ∧ z' = f.2.1 ∧ w = f.2.2 := by
          rw [← htf]
          exact ⟨rfl, rfl, rfl⟩
        exact Linked_trans ih hf
      · have hmem : (y', z', w) ∈ T.erase f := (List.mem_erase_of_ne htf).mpr hw
        exact ih.step ⟨w, Or.inl (List.mem_append_left _ hmem)⟩
    · by_cases htf : (z', y', w) = f
      · obtain ⟨rfl, rfl, rfl⟩ : z' = f.1 ∧ y' = f.2.1 ∧ w = f.2.2 := by
          rw [← htf]
          exact ⟨rfl, rfl, rfl⟩
        exact Linked_trans ih (Linked_symm hf)
      · have hmem : (z', y', w) ∈ T.erase f := (List.mem_erase_of_ne htf).mpr hw
        exact ih.step ⟨w, Or.inr (List.mem_append_left _ hmem)⟩

/-! ### The two MST algorithms, embedded -/

/-- One step of the stable insertion giving Python's stable
`all_edges.sort(key=lambda x: x[2])`. -/
def insertW (x : String × String × Int) :
    List (String × String × Int) → List (String × String × Int)
  | [] => [x]
  | y :: rest => if y.2.2 < x.2.2 then y :: insertW x rest else x :: y :: rest

/-- Stable sort of the edge list by weight. -/
def sortW (l : List (String × String × Int)) : List (String × String × Int) :=
  l.foldr insertW []

/-- `find_set` with path compression; the fuel covers the parent chain and
`none` models a `KeyError` or non-termination, both ruled out by the
union-find invariant. -/
def findSet : Nat → List (String × String) → String →
    Option (List (String × String) × String)
  | 0, _, _ => none
  | fuel + 1, parent, v =>
    match alookup parent v with
    | none => none
    | some p =>
      if p = v then some (parent, v)
      else
        match findSet fuel parent p with
        | none => none
        | some (parent', r) => some (aset parent' v r, r)

/-- `union_sets` (union by rank), returning the updated `parent`/`rank`. -/
def unionSets (fuel : Nat) (parent : List (String × String))
    (rank : List (String × Int)) (u v : String) :
    Option (List (String × String) × List (String × Int)) :=
  match findSet fuel parent u with
  | none => none
  | some (p1, ru) =>
    match findSet fuel p1 v with
    | none => none
    | some (p2, rv) =>
      if ru ≠ rv then
        match alookup rank ru, alookup rank rv with
        | some au, some av =>
          if au < av then some (aset p2 ru rv, rank)
          else if av < au then some (aset p2 rv ru, rank)
          else some (aset p2 rv ru, aset rank ru (au + 1))
        | _, _ => none
      else some (p2, rank)

/-- The edge-processing loop of `kruskals_algorithm`. -/
def kruskalLoop (fuel : Nat) :
    List (String × String × Int) → List (String × String) →
    List (String × Int) → List (String × String × Int) → Int →
    Option (List (String × String × Int) × Int ×
      List (String × String) × List (String × Int))
  | [], parent, rank, mst, total => some (mst, total, parent, rank)
  | (src, dst, w) :: rest, parent, rank, mst, total =>
    match findSet fuel parent src with
    | none => none
    | some (p1, rs) =>
      match findSet fuel p1 dst with
      | none => none
      | some (p2, rd) =>
        if rs ≠ rd then
          match unionSets fuel p2 rank src dst with
          | none => none
          | some (p3, rank') =>
            kruskalLoop fuel rest p3 rank' (mst ++ [(src, dst, w)]) (total + w)
        else kruskalLoop fuel rest p2 rank mst total

/-- `kruskals_algorithm`: edge collection, stable sort by weight, union-find
driven selection. -/
def kruskalsAlgorithm (g : EmergencyGraph) :
    Option (List (String × String × Int) × Int) :=
  match kruskalLoop (g.vertices.length + 1) (sortW (allEdges g))
      (g.vertices.map fun v => (v, v)) (g.vertices.map fun v => (v, 0)) [] 0 with
  | none => none
  | some (mst, total, _, _) => some (mst, total)

/-- CPython comparison of the `(weight, source, destination)` heap tuples
of `prims_algorithm`. -/
def pq3Le (a b : Int × String × String) : Prop :=
  a.1 < b.1 ∨ (a.1 = b.1 ∧
    (a.2.1 < b.2.1 ∨ (a.2.1 = b.2.1 ∧ a.2.2 ≤ b.2.2)))

instance : DecidableRel pq3Le := fun a b =>
  have h1 : Decidable (a.2.1 < b.2.1) := ltDec a.2.1 b.2.1
  have h2 : Decidable (a.2.2 ≤ b.2.2) :=
    decidable_of_iff (a.2.2.toList ≤ b.2.2.toList) String.le_iff_toList_le.symm
  decidable_of_iff (a.1 < b.1 ∨ (a.1 = b.1 ∧
    (a.2.1 < b.2.1 ∨ (a.2.1 = b.2.1 ∧ a.2.2 ≤ b.2.2)))) (by rw [pq3Le])

/-- The loop state of `prims_algorithm`. -/
structure PState where
  queue : List (Int × String × String)
  visited : List String
  mst : List (String × String × Int)
  total : Int

/-- One iteration of the `while edges_queue and ...` loop of
`prims_algorithm` (the loop condition lives in `primLoop`). -/
def primStep (g : EmergencyGraph) (st : PState) : PState :=
  match popMin pq3Le st.queue with
  | none => st
  | some ((w, src, dst), q') =>
    if dst ∈ st.visited then { st with queue := q' }
    else
      { queue := q' ++ ((getNeighbors g dst).filterMap fun p =>
          if p.1 ∈ st.visited ++ [dst] then none else some (p.2, dst, p.1)),
        visited := st.visited ++ [dst],
        mst := st.mst ++ [(src, dst, w)],
        total := st.total + w }

/-- The fueled main loop of `prims_algorithm`. -/
def primLoop (g : EmergencyGraph) : Nat → PState → PState
  | 0, st => st
  | fuel + 1, st =>
    if st.queue = [] ∨ g.vertices.length ≤ st.visited.length then st
    else primLoop g fuel (primStep g st)

/-- `prims_algorithm`. -/
def primsAlgorithm (g : EmergencyGraph) :
    List (String × String × Int) × Int :=
  match g.vertices with
  | [] => ([], 0)
  | start :: _ =>
    let st := primLoop g (1 + totalDeg g)
      ⟨(getNeighbors g start).map fun p => (p.2, start, p.1), [start], [], 0⟩
    (st.mst, st.total)

/-! ### Spanning trees over the canonical edge list -/

/-- Canonical orientation of an undirected edge record. -/
def canon (e : String × String × Int) : String × String × Int :=
  @ite _ (e.1 < e.2.1) (ltDec e.1 e.2.1) e (e.2.1, e.1, e.2.2)

/-- A spanning tree: distinct canonical graph edges linking every pair of
vertices, one fewer than the vertex count. -/
def IsSpanningTree (g : EmergencyGraph)
    (T : List (String × String × Int)) : Prop :=
  T.Nodup ∧ (∀ e ∈ T, e ∈ allEdges g) ∧
    (∀ x ∈ g.vertices, ∀ y ∈ g.vertices, Linked T x y) ∧
    T.length = g.vertices.length - 1

/-- Connectivity of the whole graph. -/
def ConnectedG (g : EmergencyGraph) : Prop :=
  ∀ x ∈ g.vertices, ∀ y ∈ g.vertices, Linked (allEdges g) x y

/-- Symmetric adjacency storage, as `add_edge` maintains it. -/
def EdgeSym (g : EmergencyGraph) : Prop :=
  ∀ u v w, (v, w) ∈ getNeighbors g u → (u, w) ∈ getNeighbors g v

/-- The parent map as a total function (keys are always present under the
union-find invariant). -/
def parentD (parent : List (String × String)) (x : String) : String :=
  alookupD parent x x

/-- A union-find root. -/
def IsRoot (parent : List (String × String)) (x : String) : Prop :=
  parentD parent x = x

instance (parent : List (String × String)) (x : String) :
    Decidable (IsRoot parent x) := by
  unfold IsRoot
  infer_instance

/-- `r` is the root of `x`'s parent chain. -/
def RootedAt (parent : List (String × String)) (x r : String) : Prop :=
  ∃ k : Nat, (parentD parent)^[k] x = r ∧ IsRoot parent r

/-- Number of union-find roots among the vertices. -/
def rootCount (V : List String) (parent : List (String × String)) : Nat :=
  (V.filter fun v => decide (IsRoot parent v)).length

/-! ### Sorting and edge-list facts -/

theorem insertW_perm (x : String × String × Int) :
    ∀ l : List (String × String × Int), (insertW x l).Perm (x :: l) := by
  intro l
  induction l with
  | nil => exact List.Perm.refl _
  | cons y rest ih =>
    rw [insertW]
    by_cases h : y.2.2 < x.2.2
    · rw [if_pos h]
      exact (ih.cons y).trans (List.Perm.swap x y rest)
    · rw [if_neg h]

theorem sortW_perm (l : List (String × String × Int)) :
    (sortW l).Perm l := by
  induction l with
  | nil => exact List.Perm.refl _
  | cons x rest ih =>
    show (insertW x (sortW rest)).Perm _
    exact (insertW_perm x (sortW rest)).trans (ih.cons x)

theorem insertW_sorted (x : String × String × Int)
    (l : List (String × String × Int))
    (hl : l.Pairwise fun a b => a.2.2 ≤ b.2.2) :
    (insertW x l).Pairwise fun a b => a.2.2 ≤ b.2.2 := by
  induction l with
  | nil => exact List.pairwise_singleton _ _
  | cons y rest ih =>
    rw [insertW]
    obtain ⟨hy, hrest⟩ := List.pairwise_cons.mp hl
    by_cases h : y.2.2 < x.2.2
    · rw [if_pos h]
      refine List.pairwise_cons.mpr ⟨?_, ih hrest⟩
      intro b hb
      rcases List.mem_cons.mp ((insertW_perm x rest).mem_iff.mp hb) with hb | hb
      · rw [hb]
        exact le_of_lt h
      · exact hy b hb
    · rw [if_neg h]
      refine List.pairwise_cons.mpr ⟨?_, hl⟩
      intro b hb
      rcases List.mem_cons.mp hb with hb | hb
      · rw [hb]
        exact not_lt.mp h
      · exact (not_lt.mp h).trans (hy b hb)

theorem sortW_sorted (l : List (String × String × Int)) :
    (sortW l).Pairwise fun a b => a.2.2 ≤ b.2.2 := by
  induction l with
  | nil => exact List.Pairwise.nil
  | cons x rest ih => exact insertW_sorted x (sortW rest) ih

/-- Membership in the canonical edge list. -/
theorem mem_allEdges (g : EmergencyGraph) (a b : String) (w : Int) :
    (a, b, w) ∈ allEdges g ↔
      a ∈ g.vertices ∧ (b, w) ∈ getNeighbors g a ∧ a < b := by
  constructor
  · intro h
    rw [allEdges, List.mem_join] at h
    obtain ⟨l, hl, hmem⟩ := h
    rw [List.mem_map] at hl
    obtain ⟨v, hv, rfl⟩ := hl
    rw [List.mem_filterMap] at hmem
    obtain ⟨p, hp, hpe⟩ := hmem
    by_cases hlt : v < p.1
    · rw [if_pos hlt] at hpe
      obtain ⟨rfl, rfl, rfl⟩ : v = a ∧ p.1 = b ∧ p.2 = w := by
        have h1 := Option.some.inj hpe
        exact ⟨congrArg Prod.fst h1,
          congrArg Prod.fst (congrArg Prod.snd h1),
          congrArg Prod.snd (congrArg Prod.snd h1)⟩
      exact ⟨hv, by simpa using hp, hlt⟩
    · rw [if_neg hlt] at hpe
      cases hpe
  · rintro ⟨ha, hb, hab⟩
    rw [allEdges, List.mem_join]
    refine ⟨(getNeighbors g a).filterMap fun p =>
      @ite _ (a < p.1) (ltDec a p.1) (some (a, p.1, p.2)) none,
      List.mem_map.mpr ⟨a, ha, rfl⟩, ?_⟩
    rw [List.mem_filterMap]
    exact ⟨(b, w), hb, by rw [if_pos hab]⟩

/-- Splitting a linkage over one appended edge. -/
theorem linked_append_single (F : List (String × String × Int))
    (e : String × String × Int) {x y : String} :
    Linked (F ++ [e]) x y ↔
      Linked F x y ∨ (Linked F x e.1 ∧ Linked F e.2.1 y) ∨
        (Linked F x e.2.1 ∧ Linked F e.1 y) := by
  constructor
  · intro h
    induction h with
    | refl => exact Or.inl (Linked.refl _)
    | step h1 he ih =>
      rename_i y' z'
      have hsplit : EdgeBetween F y' z' ∨
          (y' = e.1 ∧ z' = e.2.1) ∨ (y' = e.2.1 ∧ z' = e.1) := by
        obtain ⟨w, hw | hw⟩ := he
        · rcases List.mem_append.mp hw with hw | hw
          · exact Or.inl ⟨w, Or.inl hw⟩
          · rw [List.mem_singleton] at hw
            refine Or.inr (Or.inl ?_)
            rw [← hw]
            exact ⟨rfl, rfl⟩
        · rcases List.mem_append.mp hw with hw | hw
          · exact Or.inl ⟨w, Or.inr hw⟩
          · rw [List.mem_singleton] at hw
            refine Or.inr (Or.inr ?_)
            rw [← hw]
            exact ⟨rfl, rfl⟩
      rcases hsplit with hF | ⟨rfl, rfl⟩ | ⟨rfl, rfl⟩
      · rcases ih with ih | ⟨ih1, ih2⟩ | ⟨ih1, ih2⟩
        · exact Or.inl (ih.step hF)
        · exact Or.inr (Or.inl ⟨ih1, ih2.step hF⟩)
        · exact Or.inr (Or.inr ⟨ih1, ih2.step hF⟩)
      · rcases ih with ih | ⟨ih1, ih2⟩ | ⟨ih1, ih2⟩
        · exact Or.inr (Or.inl ⟨ih, Linked.refl _⟩)
        · exact Or.inr (Or.inl ⟨ih1, Linked.refl _⟩)
        · exact Or.inl ih1
      · rcases ih with ih | ⟨ih1, ih2⟩ | ⟨ih1, ih2⟩
        · exact Or.inr (Or.inr ⟨ih, Linked.refl _⟩)
        · exact Or.inl ih1
        · exact Or.inr (Or.inr ⟨ih1, Linked.refl _⟩)
  · have hsub : ∀ q ∈ F, q ∈ F ++ [e] := fun q hq => List.mem_append_left _ hq
    have hee : Linked (F ++ [e]) e.1 e.2.1 :=
      Linked_single ⟨e.2.2, Or.inl (List.mem_append_right _ (by simp))⟩
    rintro (h | ⟨h1, h2⟩ | ⟨h1, h2⟩)
    · exact Linked_mono hsub h
    · exact Linked_trans (Linked_trans (Linked_mono hsub h1) hee)
        (Linked_mono hsub h2)
    · exact Linked_trans (Linked_trans (Linked_mono hsub h1) (Linked_symm hee))
        (Linked_mono hsub h2)

/-! ### Union-find: parent-chain semantics -/

theorem iterate_root {parent : List (String × String)} {r : String}
    (h : IsRoot parent r) : ∀ k, (parentD parent)^[k] r = r := by
  intro k
  induction k with
  | zero => rfl
  | succ k ih =>
    rw [Function.iterate_succ_apply, h]
    exact ih

theorem RootedAt_unique {parent : List (String × String)} {x r r' : String}
    (h1 : RootedAt parent x r) (h2 : RootedAt parent x r') : r = r' := by
  obtain ⟨k, hk, hr⟩ := h1
  obtain ⟨k', hk', hr'⟩ := h2
  rcases le_total k k' with h | h
  · have hc : (parentD parent)^[k'] x = r := by
      have heq : k' = (k' - k) + k := by omega
      rw [heq, Function.iterate_add_apply, hk, iterate_root hr]
    exact hc.symm.trans hk'
  · have hc : (parentD parent)^[k] x = r' := by
      have heq : k = (k - k') + k' := by omega
      rw [heq, Function.iterate_add_apply, hk', iterate_root hr']
    exact (hc.symm.trans hk).symm

theorem RootedAt_step {parent : List (String × String)} {x r : String}
    (h : RootedAt parent (parentD parent x) r) : RootedAt parent x r := by
  obtain ⟨k, hk, hr⟩ := h
  exact ⟨k + 1, by rw [Function.iterate_succ_apply]; exact hk, hr⟩

theorem RootedAt_root {parent : List (String × String)} {r : String}
    (h : IsRoot parent r) : RootedAt parent r r :=
  ⟨0, rfl, h⟩

theorem parentD_aset (P : List (String × String)) (v r y : String) :
    parentD (aset P v r) y = if v = y then r else parentD P y := by
  by_cases h : v = y
  · subst h
    rw [if_pos rfl, parentD, alookupD_aset_self]
  · rw [if_neg h, parentD, parentD, alookupD_aset_ne _ _ _ _ _ h]

/-- Path compression (re-pointing one non-root vertex at its own root)
changes neither the roots nor the root assignment. -/
theorem rooted_shortcut (A B : List (String × String)) (v r : String)
    (hagree : ∀ y, y ≠ v → parentD A y = parentD B y)
    (hAv : parentD A v = r)
    (hBv : RootedAt B v r) (hvnr : ¬ IsRoot B v) :
    (∀ y, IsRoot A y ↔ IsRoot B y) ∧
      ∀ x q, RootedAt A x q ↔ RootedAt B x q := by
  have hrB : IsRoot B r := by
    obtain ⟨_, _, h⟩ := hBv
    exact h
  have hrv : r ≠ v := fun h => hvnr (h ▸ hrB)
  have hroots : ∀ y, IsRoot A y ↔ IsRoot B y := by
    intro y
    by_cases hy : y = v
    · subst hy
      constructor
      · intro h
        exact absurd (hAv.symm.trans h) hrv
      · intro h
        exact absurd h hvnr
    · unfold IsRoot
      rw [hagree y hy]
  have hrA : IsRoot A r := (hroots r).mpr hrB
  have htoB : ∀ k x q, (parentD A)^[k] x = q → IsRoot A q → RootedAt B x q := by
    intro k
    induction k with
    | zero =>
      intro x q hk hq
      rw [Function.iterate_zero_apply] at hk
      subst hk
      exact RootedAt_root ((hroots x).mp hq)
    | succ k ih =>
      intro x q hk hq
      rw [Function.iterate_succ_apply] at hk
      by_cases hx : x = v
      · rw [hx, hAv] at hk
        have hqr : q = r := by rw [← hk, iterate_root hrA]
        rw [hx, hqr]
        exact hBv
      · rw [hagree x hx] at hk
        exact RootedAt_step (ih _ q hk hq)
  have htoA : ∀ k x q, (parentD B)^[k] x = q → IsRoot B q → RootedAt A x q := by
    intro k
    induction k with
    | zero =>
      intro x q hk hq
      rw [Function.iterate_zero_apply] at hk
      subst hk
      exact RootedAt_root ((hroots x).mpr hq)
    | succ k ih =>
      intro x q hk hq
      rw [Function.iterate_succ_apply] at hk
      by_cases hx : x = v
      · rw [hx] at hk
        have hBq : RootedAt B v q := RootedAt_step ⟨k, hk, hq⟩
        have hqr : q = r := RootedAt_unique hBq hBv
        rw [hx, hqr]
        exact ⟨1, by rw [Function.iterate_one]; exact hAv, hrA⟩
      · obtain ⟨m, hm, hr'⟩ := ih _ q hk hq
        exact ⟨m + 1,
          by rw [Function.iterate_succ_apply, hagree x hx]; exact hm, hr'⟩
  refine ⟨hroots, fun x q => ⟨?_, ?_⟩⟩
  · rintro ⟨k, hk, hq⟩
    exact htoB k x q hk hq
  · rintro ⟨k, hk, hq⟩
    exact htoA k x q hk hq

/-- Union: re-pointing root `X` at root `Y` merges exactly the two classes
and removes exactly the root `X`. -/
theorem rooted_union (P : List (String × String)) (X Y : String)
    (hXroot : IsRoot P X) (hYroot : IsRoot P Y) (hXY : X ≠ Y) :
    (∀ y, IsRoot (aset P X Y) y ↔ IsRoot P y ∧ y ≠ X) ∧
      ∀ x q, RootedAt (aset P X Y) x q ↔
        ((RootedAt P x q ∧ q ≠ X) ∨ (RootedAt P x X ∧ q = Y)) := by
  have hpd : ∀ y, parentD (aset P X Y) y = if X = y then Y else parentD P y :=
    fun y => parentD_aset P X Y y
  have hroots : ∀ y, IsRoot (aset P X Y) y ↔ IsRoot P y ∧ y ≠ X := by
    intro y
    by_cases hy : y = X
    · subst hy
      constructor
      · intro h
        rw [IsRoot, hpd, if_pos rfl] at h
        exact absurd h.symm hXY
      · rintro ⟨_, h⟩
        exact absurd rfl h
    · rw [IsRoot, IsRoot, hpd, if_neg fun h => hy h.symm]
      exact ⟨fun h => ⟨h, hy⟩, fun h => h.1⟩
  have hYr : IsRoot (aset P X Y) Y :=
    (hroots Y).mpr ⟨hYroot, fun h => hXY h.symm⟩
  have hfwd : ∀ k x q, (parentD (aset P X Y))^[k] x = q →
      IsRoot (aset P X Y) q →
      (RootedAt P x q ∧ q ≠ X) ∨ (RootedAt P x X ∧ q = Y) := by
    intro k
    induction k with
    | zero =>
      intro x q hk hq
      rw [Function.iterate_zero_apply] at hk
      subst hk
      obtain ⟨hqP, hqX⟩ := (hroots x).mp hq
      exact Or.inl ⟨RootedAt_root hqP, hqX⟩
    | succ k ih =>
      intro x q hk hq
      rw [Function.iterate_succ_apply, hpd] at hk
      by_cases hx : X = x
      · rw [if_pos hx] at hk
        rcases ih Y q hk hq with ⟨h1, h2⟩ | ⟨h1, _⟩
        · have hqY : q = Y := RootedAt_unique h1 (RootedAt_root hYroot)
          refine Or.inr ⟨?_, hqY⟩
          rw [← hx]
          exact RootedAt_root hXroot
        · have hXeY : X = Y := RootedAt_unique h1 (RootedAt_root hYroot)
          exact absurd hXeY hXY
      · rw [if_neg hx] at hk
        rcases ih _ q hk hq with ⟨h1, h2⟩ | ⟨h1, h2⟩
        · exact Or.inl ⟨RootedAt_step h1, h2⟩
        · exact Or.inr ⟨RootedAt_step h1, h2⟩
  have hbwd1 : ∀ k x q, (parentD P)^[k] x = q → IsRoot P q → q ≠ X →
      RootedAt (aset P X Y) x q := by
    intro k
    induction k with
    | zero =>
      intro x q hk hq hqX
      rw [Function.iterate_zero_apply] at hk
      subst hk
      exact RootedAt_root ((hroots x).mpr ⟨hq, hqX⟩)
    | succ k ih =>
      intro x q hk hq hqX
      rw [Function.iterate_succ_apply] at hk
      by_cases hx : x = X
      · rw [hx, hXroot] at hk
        have hqX' : q = X := by rw [← hk, iterate_root hXroot]
        exact absurd hqX' hqX
      · obtain ⟨m, hm, hr⟩ := ih _ q hk hq hqX
        exact ⟨m + 1,
          by rw [Function.iterate_succ_apply, hpd, if_neg fun h => hx h.symm]
             exact hm, hr⟩
  have hbwd2 : ∀ k x, (parentD P)^[k] x = X → RootedAt (aset P X Y) x Y := by
    intro k
    induction k with
    | zero =>
      intro x hk
      rw [Function.iterate_zero_apply] at hk
      subst hk
      exact ⟨1, by rw [Function.iterate_one, hpd, if_pos rfl], hYr⟩
    | succ k ih =>
      intro x hk
      by_cases hx : x = X
      · rw [hx]
        exact ⟨1, by rw [Function.iterate_one, hpd, if_pos rfl], hYr⟩
      · rw [Function.iterate_succ_apply] at hk
        obtain ⟨m, hm, hr⟩ := ih _ hk
        exact ⟨m + 1,
          by rw [Function.iterate_succ_apply, hpd, if_neg fun h => hx h.symm]
             exact hm, hr⟩
  refine ⟨hroots, fun x q => ⟨?_, ?_⟩⟩
  · rintro ⟨k, hk, hq⟩
    exact hfwd k x q hk hq
  · rintro (⟨⟨k, hk, hq⟩, hqX⟩ | ⟨⟨k, hk, _⟩, rfl⟩)
    · exact hbwd1 k x q hk hq hqX
    · exact hbwd2 k x hk

theorem parentD_mem (V : List String) (parent : List (String × String))
    (hkeys : akeys parent = V)
    (hclosed : ∀ x p, alookup parent x = some p → p ∈ V)
    (x : String) (hx : x ∈ V) : parentD parent x ∈ V := by
  have hxk : x ∈ akeys parent := by rw [hkeys]; exact hx
  obtain ⟨p, hp⟩ := Option.isSome_iff_exists.mp
    ((alookup_isSome_mem_keys parent x).mpr hxk)
  rw [parentD, alookupD, hp]
  exact hclosed x p hp

theorem iterate_mem (V : List String) (parent : List (String × String))
    (hkeys : akeys parent = V)
    (hclosed : ∀ x p, alookup parent x = some p → p ∈ V) :
    ∀ (k : Nat) (x : String), x ∈ V → (parentD parent)^[k] x ∈ V := by
  intro k
  induction k with
  | zero => intro x hx; exact hx
  | succ k ih =>
    intro x hx
    rw [Function.iterate_succ_apply]
    exact ih _ (parentD_mem V parent hkeys hclosed x hx)

theorem alookup_of_mem_keys (parent : List (String × String)) (v : String)
    (hv : v ∈ akeys parent) :
    alookup parent v = some (parentD parent v) := by
  obtain ⟨p, hp⟩ := Option.isSome_iff_exists.mp
    ((alookup_isSome_mem_keys parent v).mpr hv)
  rw [hp, parentD, alookupD, hp]
  rfl

/-- `find_set` terminates within the fuel, returns the chain's root, and
changes neither roots nor the root assignment (it only compresses). -/
theorem findSet_spec (V : List String) :
    ∀ (k fuel : Nat) (parent : List (String × String)) (v r : String),
      akeys parent = V →
      (∀ x p, alookup parent x = some p → p ∈ V) →
      v ∈ V →
      (parentD parent)^[k] v = r → IsRoot parent r → k < fuel →
      ∃ parent', findSet fuel parent v = some (parent', r) ∧
        akeys parent' = V ∧
        (∀ x p, alookup parent' x = some p → p ∈ V) ∧
        (∀ y, IsRoot parent' y ↔ IsRoot parent y) ∧
        (∀ x q, RootedAt parent' x q ↔ RootedAt parent x q) := by
  intro k
  induction k with
  | zero =>
    intro fuel parent v r hkeys hclosed hv hk hroot hfuel
    rw [Function.iterate_zero_apply] at hk
    subst hk
    obtain ⟨fuel', rfl⟩ : ∃ f', fuel = f' + 1 := ⟨fuel - 1, by omega⟩
    have hlv : alookup parent v = some (parentD parent v) :=
      alookup_of_mem_keys parent v (by rw [hkeys]; exact hv)
    rw [hroot] at hlv
    refine ⟨parent, ?_, hkeys, hclosed, fun y => Iff.rfl, fun x q => Iff.rfl⟩
    simp only [findSet, hlv]
    rw [if_true]
  | succ k ih =>
    intro fuel parent v r hkeys hclosed hv hk hroot hfuel
    rw [Function.iterate_succ_apply] at hk
    obtain ⟨fuel', rfl⟩ : ∃ f', fuel = f' + 1 := ⟨fuel - 1, by omega⟩
    have hvk : v ∈ akeys parent := by rw [hkeys]; exact hv
    have hlv : alookup parent v = some (parentD parent v) :=
      alookup_of_mem_keys parent v hvk
    by_cases hpv : parentD parent v = v
    · have hr : r = v := by rw [← hk, hpv, iterate_root hpv]
      subst hr
      rw [hpv] at hlv
      refine ⟨parent, ?_, hkeys, hclosed, fun y => Iff.rfl, fun x q => Iff.rfl⟩
      simp only [findSet, hlv]
      rw [if_true]
    · have hp : parentD parent v ∈ V := parentD_mem V parent hkeys hclosed v hv
      have hkf : k < fuel' := by omega
      obtain ⟨parent'', hfind, hkeys'', hclosed'', hroots'', hrooted''⟩ :=
        ih fuel' parent (parentD parent v) r hkeys hclosed hp hk hroot hkf
      have hRv : RootedAt parent v r :=
        ⟨k + 1, by rw [Function.iterate_succ_apply]; exact hk, hroot⟩
      have hRv'' : RootedAt parent'' v r := (hrooted'' v r).mpr hRv
      have hvnr'' : ¬ IsRoot parent'' v := by
        rw [hroots'' v]
        exact hpv
      have hagree : ∀ y, y ≠ v →
          parentD (aset parent'' v r) y = parentD parent'' y := by
        intro y hy
        rw [parentD_aset, if_neg fun h => hy h.symm]
      have hAv : parentD (aset parent'' v r) v = r := by
        rw [parentD_aset, if_pos rfl]
      obtain ⟨hroots_A, hrooted_A⟩ :=
        rooted_shortcut (aset parent'' v r) parent'' v r hagree hAv hRv'' hvnr''
      refine ⟨aset parent'' v r, ?_, ?_, ?_, ?_, ?_⟩
      · simp only [findSet, hlv]
        rw [if_neg hpv, hfind]
      · rw [akeys_aset, if_pos (by rw [hkeys'']; exact hv)]
        exact hkeys''
      · intro x p hxp
        by_cases hxv : v = x
        · rw [← hxv, alookup_aset_self] at hxp
          obtain rfl := Option.some.inj hxp
          have hmem := iterate_mem V parent hkeys hclosed k (parentD parent v) hp
          rw [hk] at hmem
          exact hmem
        · rw [alookup_aset_ne _ _ _ _ hxv] at hxp
          exact hclosed'' x p hxp
      · intro y
        rw [hroots_A y, hroots'' y]
      · intro x q
        rw [hrooted_A x q, hrooted'' x q]

/-- Parent chains are short: they visit distinct vertices. -/
theorem rooted_short (V : List String) (parent : List (String × String))
    (hkeys : akeys parent = V)
    (hclosed : ∀ x p, alookup parent x = some p → p ∈ V)
    (hnd : V.Nodup) (x r : String) (hx : x ∈ V)
    (hr : RootedAt parent x r) :
    ∃ k, k < V.length + 1 ∧ (parentD parent)^[k] x = r := by
  obtain ⟨k0, hk0, hroot⟩ := hr
  have hex : ∃ n, IsRoot parent ((parentD parent)^[n] x) :=
    ⟨k0, by rw [hk0]; exact hroot⟩
  have hkroot : IsRoot parent ((parentD parent)^[Nat.find hex] x) :=
    Nat.find_spec hex
  have hmin : ∀ m, m < Nat.find hex →
      ¬ IsRoot parent ((parentD parent)^[m] x) :=
    fun m hm => Nat.find_min hex hm
  have hkr : (parentD parent)^[Nat.find hex] x = r :=
    RootedAt_unique ⟨Nat.find hex, rfl, hkroot⟩ ⟨k0, hk0, hroot⟩
  refine ⟨Nat.find hex, ?_, hkr⟩
  have haux : ∀ i j, i < j → j ≤ Nat.find hex →
      (parentD parent)^[i] x ≠ (parentD parent)^[j] x := by
    intro i j hij hjk heq
    have hcol : (parentD parent)^[Nat.find hex] x =
        (parentD parent)^[Nat.find hex - j + i] x := by
      have h1 : Nat.find hex = (Nat.find hex - j) + j := by omega
      conv_lhs => rw [h1]
      rw [Function.iterate_add_apply, ← heq, ← Function.iterate_add_apply]
    have hlt : Nat.find hex - j + i < Nat.find hex := by omega
    exact hmin _ hlt (by rw [← hcol]; exact hkroot)
  have hnodupL : ((List.range (Nat.find hex + 1)).map
      fun t => (parentD parent)^[t] x).Nodup := by
    refine List.Nodup.map_on ?_ (List.nodup_range _)
    intro i hi j hj hf
    rw [List.mem_range] at hi hj
    rcases lt_trichotomy i j with h | h | h
    · exact absurd hf (haux i j h (by omega))
    · exact h
    · exact absurd hf.symm (haux j i h (by omega))
  have hsubL : ∀ y ∈ (List.range (Nat.find hex + 1)).map
      fun t => (parentD parent)^[t] x, y ∈ V := by
    intro y hy
    rw [List.mem_map] at hy
    obtain ⟨t, _, rfl⟩ := hy
    exact iterate_mem V parent hkeys hclosed t x hx
  have hlen := List.Subperm.length_le (hnodupL.subperm hsubL)
  rw [List.length_map, List.length_range] at hlen
  omega

/-- `union_sets` succeeds, keeps the union-find well-formed, and either
leaves the classes alone (equal roots) or merges exactly the two classes,
removing exactly one root. -/
theorem unionSets_spec (V : List String)
    (parent : List (String × String)) (rank : List (String × Int))
    (u v ru rv : String) (hnd : V.Nodup)
    (hkeys : akeys parent = V)
    (hclosed : ∀ x p, alookup parent x = some p → p ∈ V)
    (hrkeys : akeys rank = V)
    (hu : u ∈ V) (hv : v ∈ V)
    (hru : RootedAt parent u ru) (hrv : RootedAt parent v rv) :
    ∃ parent' rank',
      unionSets (V.length + 1) parent rank u v = some (parent', rank') ∧
      akeys parent' = V ∧
      (∀ x p, alookup parent' x = some p → p ∈ V) ∧
      akeys rank' = V ∧
      (ru = rv →
        (∀ y, IsRoot parent' y ↔ IsRoot parent y) ∧
        ∀ x q, RootedAt parent' x q ↔ RootedAt parent x q) ∧
      (ru ≠ rv →
        ∃ X Y : String, (X = ru ∧ Y = rv ∨ X = rv ∧ Y = ru) ∧
          (∀ y, IsRoot parent' y ↔ IsRoot parent y ∧ y ≠ X) ∧
          ∀ x q, RootedAt parent' x q ↔
            ((RootedAt parent x q ∧ q ≠ X) ∨
              (RootedAt parent x X ∧ q = Y))) := by
  obtain ⟨ku, hku, hkuv⟩ := rooted_short V parent hkeys hclosed hnd u ru hu hru
  have hruroot : IsRoot parent ru := by
    obtain ⟨_, _, h⟩ := hru
    exact h
  have hrvroot : IsRoot parent rv := by
    obtain ⟨_, _, h⟩ := hrv
    exact h
  have hruV : ru ∈ V := by
    have := iterate_mem V parent hkeys hclosed ku u hu
    rwa [hkuv] at this
  obtain ⟨p1, hfind1, hkeys1, hclosed1, hroots1, hrooted1⟩ :=
    findSet_spec V ku (V.length + 1) parent u ru hkeys hclosed hu hkuv
      hruroot hku
  have hrv1 : RootedAt p1 v rv := (hrooted1 v rv).mpr hrv
  obtain ⟨kv, hkv, hkvv⟩ := rooted_short V p1 hkeys1 hclosed1 hnd v rv hv hrv1
  have hrvroot1 : IsRoot p1 rv := (hroots1 rv).mpr hrvroot
  have hrvV : rv ∈ V := by
    have := iterate_mem V p1 hkeys1 hclosed1 kv v hv
    rwa [hkvv] at this
  obtain ⟨p2, hfind2, hkeys2, hclosed2, hroots2, hrooted2⟩ :=
    findSet_spec V kv (V.length + 1) p1 v rv hkeys1 hclosed1 hv hkvv
      hrvroot1 hkv
  have hroots20 : ∀ y, IsRoot p2 y ↔ IsRoot parent y := by
    intro y
    rw [hroots2 y, hroots1 y]
  have hrooted20 : ∀ x q, RootedAt p2 x q ↔ RootedAt parent x q := by
    intro x q
    rw [hrooted2 x q, hrooted1 x q]
  by_cases hne : ru = rv
  · refine ⟨p2, rank, ?_, hkeys2, hclosed2, hrkeys,
      fun _ => ⟨hroots20, hrooted20⟩, fun h => absurd hne h⟩
    simp only [unionSets, hfind1, hfind2]
    rw [if_neg (by simp [hne])]
  · obtain ⟨au, hau⟩ := Option.isSome_iff_exists.mp
      ((alookup_isSome_mem_keys rank ru).mpr (by rw [hrkeys]; exact hruV))
    obtain ⟨av, hav⟩ := Option.isSome_iff_exists.mp
      ((alookup_isSome_mem_keys rank rv).mpr (by rw [hrkeys]; exact hrvV))
    have hrur2 : IsRoot p2 ru := (hroots20 ru).mpr hruroot
    have hrvr2 : IsRoot p2 rv := (hroots20 rv).mpr hrvroot
    by_cases h1 : au < av
    · obtain ⟨hrootsU, hrootedU⟩ := rooted_union p2 ru rv hrur2 hrvr2 hne
      refine ⟨aset p2 ru rv, rank, ?_, ?_, ?_, hrkeys,
        fun h => absurd h hne, fun _ => ⟨ru, rv, Or.inl ⟨rfl, rfl⟩, ?_, ?_⟩⟩
      · simp only [unionSets, hfind1, hfind2, hau, hav]
        rw [if_pos hne, if_pos h1]
      · rw [akeys_aset, if_pos (by rw [hkeys2]; exact hruV)]
        exact hkeys2
      · intro x p hxp
        by_cases hxv : ru = x
        · rw [← hxv, alookup_aset_self] at hxp
          obtain rfl := Option.some.inj hxp
          exact hrvV
        · rw [alookup_aset_ne _ _ _ _ hxv] at hxp
          exact hclosed2 x p hxp
      · intro y
        rw [hrootsU y, hroots20 y]
      · intro x q
        rw [hrootedU x q]
        constructor
        · rintro (⟨h, hq⟩ | ⟨h, hq⟩)
          · exact Or.inl ⟨(hrooted20 x q).mp h, hq⟩
          · exact Or.inr ⟨(hrooted20 x ru).mp h, hq⟩
        · rintro (⟨h, hq⟩ | ⟨h, hq⟩)
          · exact Or.inl ⟨(hrooted20 x q).mpr h, hq⟩
          · exact Or.inr ⟨(hrooted20 x ru).mpr h, hq⟩
    · have hne' : rv ≠ ru := fun h => hne h.symm
      obtain ⟨hrootsU, hrootedU⟩ := rooted_union p2 rv ru hrvr2 hrur2 hne'
      have hkeysPA : akeys (aset p2 rv ru) = V := by
        rw [akeys_aset, if_pos (by rw [hkeys2]; exact hrvV)]
        exact hkeys2
      have hclosedPA : ∀ x p, alookup (aset p2 rv ru) x = some p → p ∈ V := by
        intro x p hxp
        by_cases hxv : rv = x
        · rw [← hxv, alookup_aset_self] at hxp
          obtain rfl := Option.some.inj hxp
          exact hruV
        · rw [alookup_aset_ne _ _ _ _ hxv] at hxp
          exact hclosed2 x p hxp
      have hrootsPA : ∀ y, IsRoot (aset p2 rv ru) y ↔
          IsRoot parent y ∧ y ≠ rv := by
        intro y
        rw [hrootsU y, hroots20 y]
      have hrootedPA : ∀ x q, RootedAt (aset p2 rv ru) x q ↔
          ((RootedAt parent x q ∧ q ≠ rv) ∨
            (RootedAt parent x rv ∧ q = ru)) := by
        intro x q
        rw [hrootedU x q]
        constructor
        · rintro (⟨h, hq⟩ | ⟨h, hq⟩)
          · exact Or.inl ⟨(hrooted20 x q).mp h, hq⟩
          · exact Or.inr ⟨(hrooted20 x rv).mp h, hq⟩
        · rintro (⟨h, hq⟩ | ⟨h, hq⟩)
          · exact Or.inl ⟨(hrooted20 x q).mpr h, hq⟩
          · exact Or.inr ⟨(hrooted20 x rv).mpr h, hq⟩
      by_cases h2 : av < au
      · refine ⟨aset p2 rv ru, rank, ?_, hkeysPA, hclosedPA, hrkeys,
          fun h => absurd h hne,
          fun _ => ⟨rv, ru, Or.inr ⟨rfl, rfl⟩, hrootsPA, hrootedPA⟩⟩
        simp only [unionSets, hfind1, hfind2, hau, hav]
        rw [if_pos hne, if_neg h1, if_pos h2]
      · refine ⟨aset p2 rv ru, aset rank ru (au + 1), ?_, hkeysPA, hclosedPA,
          ?_, fun h => absurd h hne,
          fun _ => ⟨rv, ru, Or.inr ⟨rfl, rfl⟩, hrootsPA, hrootedPA⟩⟩
        · simp only [unionSets, hfind1, hfind2, hau, hav]
          rw [if_pos hne, if_neg h1, if_neg h2]
        · rw [akeys_aset, if_pos (by rw [hrkeys]; exact hruV)]
          exact hrkeys

/-! ### Kruskal: loop invariant machinery -/

theorem rootCount_congr (V : List String)
    (A B : List (String × String))
    (h : ∀ y, IsRoot A y ↔ IsRoot B y) :
    rootCount V A = rootCount V B := by
  rw [rootCount, rootCount, List.filter_congr]
  intro y _
  simp [h y]

theorem rootCount_drop (V : List String) (parent : List (String × String))
    (X : String) (hnd : V.Nodup) (hX : X ∈ V) (hXr : IsRoot parent X) :
    (V.filter fun v => decide (IsRoot parent v ∧ v ≠ X)).length + 1 =
      rootCount V parent := by
  rw [rootCount]
  induction V with
  | nil => cases hX
  | cons a t ih =>
    rw [List.nodup_cons] at hnd
    simp only [List.filter_cons]
    by_cases ha : a = X
    · subst ha
      rw [if_neg (by simp [hXr]), if_pos (by simp [hXr])]
      have hat : ∀ y ∈ t, (decide (IsRoot parent y ∧ y ≠ a)) =
          (decide (IsRoot parent y)) := by
        intro y hy
        have : y ≠ a := fun h => hnd.1 (h ▸ hy)
        simp [this]
      rw [List.filter_congr hat]
      simp
    · have hXt : X ∈ t := by
        rcases List.mem_cons.mp hX with h | h
        · exact absurd h.symm ha
        · exact h
      by_cases hra : IsRoot parent a
      · rw [if_pos (by simp [hra, ha]), if_pos (by simp [hra])]
        simp only [List.length_cons]
        have := ih hnd.2 hXt
        omega
      · rw [if_neg (by simp [hra]), if_neg (by simp [hra])]
        exact ih hnd.2 hXt

theorem linked_lift (F es : List (String × String × Int))
    (hcov : ∀ e ∈ es, Linked F e.1 e.2.1) {x y : String}
    (h : Linked es x y) : Linked F x y := by
  induction h with
  | refl => exact Linked.refl _
  | step h1 he ih =>
    rename_i y' z'
    obtain ⟨w, hw | hw⟩ := he
    · exact Linked_trans ih (hcov (y', z', w) hw)
    · exact Linked_trans ih (Linked_symm (hcov (z', y', w) hw))

theorem nodup_all_eq_singleton {l : List String} {a : String}
    (hnd : l.Nodup) (hmem : a ∈ l) (hall : ∀ y ∈ l, y = a) :
    l.length = 1 := by
  cases l with
  | nil => cases hmem
  | cons x t =>
    cases t with
    | nil => rfl
    | cons y t' =>
      exfalso
      rw [List.nodup_cons] at hnd
      have hx : x = a := hall x (List.mem_cons_self _ _)
      have hy : y = a := hall y (List.mem_cons_of_mem _ (List.mem_cons_self _ _))
      exact hnd.1 (by rw [hx, ← hy]; exact List.mem_cons_self _ _)

theorem alookup_map_self (V : List String) (x : String) (hx : x ∈ V) :
    alookup (V.map fun v => (v, v)) x = some x := by
  induction V with
  | nil => cases hx
  | cons a t ih =>
    by_cases ha : a = x
    · subst ha
      simp [alookup]
    · simp only [List.map_cons, alookup, ha, if_false]
      refine ih ?_
      rcases List.mem_cons.mp hx with h | h
      · exact absurd h.symm ha
      · exact h

theorem akeys_map_pair {β : Type} (V : List String) (f : String → β) :
    akeys (V.map fun v => (v, f v)) = V := by
  rw [akeys, List.map_map]
  have h : (Prod.fst ∘ fun v => (v, f v)) = fun v : String => v := rfl
  rw [h, List.map_id']

theorem sumW_perm {l r : List (String × String × Int)} (h : l.Perm r) :
    sumW l = sumW r := by
  rw [sumW, sumW]
  exact (h.map fun e => e.2.2).sum_eq

/-- The greedy exchange: a cheapest cut-crossing edge can be swapped into
any spanning tree containing the partial forest. -/
theorem promising_step (g : EmergencyGraph)
    (F T'' : List (String × String × Int)) (src dst : String) (w : Int)
    (hsrcV : src ∈ g.vertices) (hdstV : dst ∈ g.vertices)
    (henew : (src, dst, w) ∈ allEdges g)
    (hnotl : ¬ Linked F src dst)
    (hwmin : ∀ f ∈ allEdges g, ¬ Linked F f.1 f.2.1 → w ≤ f.2.2)
    (hT : IsSpanningTree g T'') (hsub : ∀ e ∈ F, e ∈ T'') :
    ∃ T₃, IsSpanningTree g T₃ ∧ (∀ e ∈ F ++ [(src, dst, w)], e ∈ T₃) ∧
      sumW T₃ ≤ sumW T'' := by
  obtain ⟨hnd, hTsub, hspan, hlen⟩ := hT
  by_cases he : (src, dst, w) ∈ T''
  · refine ⟨T'', ⟨hnd, hTsub, hspan, hlen⟩, ?_, le_refl _⟩
    intro e hme
    rcases List.mem_append.mp hme with h | h
    · exact hsub e h
    · rw [List.mem_singleton] at h
      exact h ▸ he
  · set C : String → Prop := fun x => Linked F x src with hC
    have hCu : C src := Linked.refl _
    have hCv : ¬ C dst := fun h => hnotl (Linked_symm h)
    have hlink : Linked T'' src dst := hspan src hsrcV dst hdstV
    obtain ⟨f, hfT, hcross, hre⟩ := exchange_edge C src dst hCu hCv
      (src, dst, w) ⟨w, Or.inl (List.mem_singleton.mpr rfl)⟩
      T''.length T'' (le_refl _) hlink
    have hfF : f ∉ F := by
      intro hfF
      have hlf : Linked F f.1 f.2.1 := Linked_single ⟨f.2.2, Or.inl hfF⟩
      rcases hcross with ⟨h1, h2⟩ | ⟨h1, h2⟩
      · exact h2 (Linked_trans (Linked_symm hlf) h1)
      · exact h2 (Linked_trans hlf h1)
    have hfnl : ¬ Linked F f.1 f.2.1 := by
      intro hlf
      rcases hcross with ⟨h1, h2⟩ | ⟨h1, h2⟩
      · exact h2 (Linked_trans (Linked_symm hlf) h1)
      · exact h2 (Linked_trans hlf h1)
    have hwf : w ≤ f.2.2 := hwmin f (hTsub f hfT) hfnl
    refine ⟨T''.erase f ++ [(src, dst, w)], ⟨?_, ?_, ?_, ?_⟩, ?_, ?_⟩
    · rw [List.nodup_append]
      refine ⟨hnd.erase f, List.nodup_singleton _, ?_⟩
      intro a ha hb
      rw [List.mem_singleton] at hb
      subst hb
      exact he (List.mem_of_mem_erase ha)
    · intro e hme
      rcases List.mem_append.mp hme with h | h
      · exact hTsub e (List.mem_of_mem_erase h)
      · rw [List.mem_singleton] at h
        exact h ▸ henew
    · intro x hx y hy
      exact linked_swap hre (hspan x hx y hy)
    · rw [List.length_append, List.length_erase_of_mem hfT,
        List.length_singleton]
      have : 1 ≤ T''.length := List.length_pos.mpr (by
        intro h
        rw [h] at hfT
        cases hfT)
      omega
    · intro e hme
      rcases List.mem_append.mp hme with h | h
      · refine List.mem_append_left _
          ((List.mem_erase_of_ne ?_).mpr (hsub e h))
        intro hh
        rw [hh] at h
        exact hfF h
      · exact List.mem_append_right _ h
    · rw [sumW_append, sumW_erase T'' f hfT]
      have hsw : sumW [(src, dst, w)] = w := by simp [sumW]
      rw [hsw]
      omega

/-- The loop invariant of `kruskals_algorithm`. -/
structure KInv (g : EmergencyGraph) (rem F : List (String × String × Int))
    (parent : List (String × String)) (rank : List (String × Int)) :
    Prop where
  keysP : akeys parent = g.vertices
  closedP : ∀ x p, alookup parent x = some p → p ∈ g.vertices
  keysR : akeys rank = g.vertices
  reach : ∀ x ∈ g.vertices, ∃ r, RootedAt parent x r
  sync : ∀ x ∈ g.vertices, ∀ y ∈ g.vertices,
    (∃ r, RootedAt parent x r ∧ RootedAt parent y r) ↔ Linked F x y
  prom : ∀ T, IsSpanningTree g T → ∃ T', IsSpanningTree g T' ∧
    (∀ e ∈ F, e ∈ T') ∧ sumW T' ≤ sumW T
  covered : ∀ e ∈ allEdges g, e ∈ rem ∨ Linked F e.1 e.2.1
  sortedRem : rem.Pairwise fun a b => a.2.2 ≤ b.2.2
  remSub : ∀ e ∈ rem, e ∈ allEdges g
  Fsub : ∀ e ∈ F, e ∈ allEdges g
  Fnodup : F.Nodup
  count : rootCount g.vertices parent + F.length = g.vertices.length

/-- The Kruskal loop succeeds and carries its invariant to the end. -/
theorem kruskalLoop_spec (g : EmergencyGraph) (hwf : WellFormed g) :
    ∀ (rem : List (String × String × Int)) (parent : List (String × String))
      (rank : List (String × Int)) (F : List (String × String × Int))
      (total : Int), KInv g rem F parent rank → total = sumW F →
      ∃ F' total' parent' rank',
        kruskalLoop (g.vertices.length + 1) rem parent rank F total =
          some (F', total', parent', rank') ∧
        KInv g [] F' parent' rank' ∧ total' = sumW F' := by
  intro rem
  induction rem with
  | nil =>
    intro parent rank F total hI htot
    exact ⟨F, total, parent, rank, rfl, hI, htot⟩
  | cons e rest ih =>
    obtain ⟨src, dst, w⟩ := e
    intro parent rank F total hI htot
    have hedge : (src, dst, w) ∈ allEdges g :=
      hI.remSub _ (List.mem_cons_self _ _)
    have hsrcV : src ∈ g.vertices := ((mem_allEdges g src dst w).mp hedge).1
    have hnb : (dst, w) ∈ getNeighbors g src :=
      ((mem_allEdges g src dst w).mp hedge).2.1
    have hdstV : dst ∈ g.vertices := by
      cases hn : alookup g.edges src with
      | none => simp only [getNeighbors, hn] at hnb; cases hnb
      | some nbrs =>
        simp only [getNeighbors, hn] at hnb
        exact (hwf.nbrs_closed src nbrs hn).1 _ hnb
    obtain ⟨rs, hrs⟩ := hI.reach src hsrcV
    obtain ⟨rd, hrd⟩ := hI.reach dst hdstV
    have hrsroot : IsRoot parent rs := by obtain ⟨_, _, h⟩ := hrs; exact h
    have hrdroot : IsRoot parent rd := by obtain ⟨_, _, h⟩ := hrd; exact h
    obtain ⟨ks, hks, hksv⟩ := rooted_short _ parent hI.keysP hI.closedP
      hwf.nodup_vertices src rs hsrcV hrs
    obtain ⟨p1, hfind1, hkeys1, hclosed1, hroots1, hrooted1⟩ :=
      findSet_spec _ ks _ parent src rs hI.keysP hI.closedP hsrcV hksv
        hrsroot hks
    have hrd1 : RootedAt p1 dst rd := (hrooted1 dst rd).mpr hrd
    obtain ⟨kd, hkd, hkdv⟩ := rooted_short _ p1 hkeys1 hclosed1
      hwf.nodup_vertices dst rd hdstV hrd1
    have hrdroot1 : IsRoot p1 rd := (hroots1 rd).mpr hrdroot
    obtain ⟨p2, hfind2, hkeys2, hclosed2, hroots2, hrooted2⟩ :=
      findSet_spec _ kd _ p1 dst rd hkeys1 hclosed1 hdstV hkdv hrdroot1 hkd
    have hroots20 : ∀ y, IsRoot p2 y ↔ IsRoot parent y := by
      intro y
      rw [hroots2 y, hroots1 y]
    have hrooted20 : ∀ x q, RootedAt p2 x q ↔ RootedAt parent x q := by
      intro x q
      rw [hrooted2 x q, hrooted1 x q]
    by_cases hsame : rs = rd
    · -- duplicate-root edge: rejected, classes unchanged
      have hlinked : Linked F src dst :=
        (hI.sync src hsrcV dst hdstV).mp ⟨rs, hrs, hsame ▸ hrd⟩
      have hI' : KInv g rest F p2 rank :=
        { keysP := hkeys2
          closedP := hclosed2
          keysR := hI.keysR
          reach := fun x hx => by
            obtain ⟨r, hr⟩ := hI.reach x hx
            exact ⟨r, (hrooted20 x r).mpr hr⟩
          sync := fun x hx y hy => by
            rw [← hI.sync x hx y hy]
            constructor
            · rintro ⟨r, h1, h2⟩
              exact ⟨r, (hrooted20 x r).mp h1, (hrooted20 y r).mp h2⟩
            · rintro ⟨r, h1, h2⟩
              exact ⟨r, (hrooted20 x r).mpr h1, (hrooted20 y r).mpr h2⟩
          prom := hI.prom
          covered := fun e' he' => by
            rcases hI.covered e' he' with hin | hlink
            · rcases List.mem_cons.mp hin with heq | hin
              · right
                rw [heq]
                exact hlinked
              · exact Or.inl hin
            · exact Or.inr hlink
          sortedRem := (List.pairwise_cons.mp hI.sortedRem).2
          remSub := fun e' he' => hI.remSub e' (List.mem_cons_of_mem _ he')
          Fsub := hI.Fsub
          Fnodup := hI.Fnodup
          count := by
            rw [rootCount_congr _ p2 parent hroots20]
            exact hI.count }
      obtain ⟨F', total', parent', rank', hloop, hIf, htot'⟩ :=
        ih p2 rank F total hI' htot
      refine ⟨F', total', parent', rank', ?_, hIf, htot'⟩
      simp only [kruskalLoop, hfind1, hfind2]
      rw [if_neg (by simp [hsame]), hloop]
    · -- new edge accepted
      have hnotl : ¬ Linked F src dst := by
        intro hl
        obtain ⟨r, h1, h2⟩ := (hI.sync src hsrcV dst hdstV).mpr hl
        exact hsame ((RootedAt_unique hrs h1).trans (RootedAt_unique h2 hrd))
      have hrs2 : RootedAt p2 src rs := (hrooted20 src rs).mpr hrs
      have hrd2 : RootedAt p2 dst rd := (hrooted20 dst rd).mpr hrd
      obtain ⟨p3, rank', hun, hkeys3, hclosed3, hrkeys3, _, hunion⟩ :=
        unionSets_spec _ p2 rank src dst rs rd hwf.nodup_vertices hkeys2
          hclosed2 hI.keysR hsrcV hdstV hrs2 hrd2
      obtain ⟨X, Y, hXY, hroots3, hrooted3⟩ := hunion hsame
      have hroots3' : ∀ y, IsRoot p3 y ↔ IsRoot parent y ∧ y ≠ X := by
        intro y
        rw [hroots3 y, hroots20 y]
      have hrooted3' : ∀ x q, RootedAt p3 x q ↔
          ((RootedAt parent x q ∧ q ≠ X) ∨
            (RootedAt parent x X ∧ q = Y)) := by
        intro x q
        rw [hrooted3 x q]
        constructor
        · rintro (⟨h, hq⟩ | ⟨h, hq⟩)
          · exact Or.inl ⟨(hrooted20 x q).mp h, hq⟩
          · exact Or.inr ⟨(hrooted20 x X).mp h, hq⟩
        · rintro (⟨h, hq⟩ | ⟨h, hq⟩)
          · exact Or.inl ⟨(hrooted20 x q).mpr h, hq⟩
          · exact Or.inr ⟨(hrooted20 x X).mpr h, hq⟩
      have hYX : Y ≠ X := by
        rcases hXY with ⟨hx, hy⟩ | ⟨hx, hy⟩
        · rw [hx, hy]; exact fun h => hsame h.symm
        · rw [hx, hy]; exact hsame
      have hrsV : rs ∈ g.vertices := by
        have := iterate_mem _ parent hI.keysP hI.closedP ks src hsrcV
        rwa [hksv] at this
      have hrdV : rd ∈ g.vertices := by
        obtain ⟨kd0, _, hkd0⟩ := rooted_short _ parent hI.keysP hI.closedP
          hwf.nodup_vertices dst rd hdstV hrd
        have := iterate_mem _ parent hI.keysP hI.closedP kd0 dst hdstV
        rwa [hkd0] at this
      have hXV : X ∈ g.vertices := by
        rcases hXY with ⟨hx, _⟩ | ⟨hx, _⟩
        · rw [hx]; exact hrsV
        · rw [hx]; exact hrdV
      have hXroot : IsRoot parent X := by
        rcases hXY with ⟨hx, _⟩ | ⟨hx, _⟩
        · rw [hx]; exact hrsroot
        · rw [hx]; exact hrdroot
      -- the new forest
      have hF'nodup : (F ++ [(src, dst, w)]).Nodup := by
        rw [List.nodup_append]
        refine ⟨hI.Fnodup, List.nodup_singleton _, ?_⟩
        intro a ha hb
        rw [List.mem_singleton] at hb
        subst hb
        exact hnotl (Linked_single ⟨w, Or.inl ha⟩)
      have hwmin : ∀ f ∈ allEdges g, ¬ Linked F f.1 f.2.1 → w ≤ f.2.2 := by
        intro f hf hfnl
        rcases hI.covered f hf with hin | hlink
        · rcases List.mem_cons.mp hin with heq | hin
          · rw [heq]
          · exact (List.pairwise_cons.mp hI.sortedRem).1 f hin
        · exact absurd hlink hfnl
      have hprom' : ∀ T, IsSpanningTree g T →
          ∃ T', IsSpanningTree g T' ∧
            (∀ e' ∈ F ++ [(src, dst, w)], e' ∈ T') ∧ sumW T' ≤ sumW T := by
        intro T hT
        obtain ⟨T'', hT'', hsub'', hcost''⟩ := hI.prom T hT
        obtain ⟨T₃, hT₃, hsub₃, hcost₃⟩ := promising_step g F T'' src dst w
          hsrcV hdstV hedge hnotl hwmin hT'' hsub''
        exact ⟨T₃, hT₃, hsub₃, hcost₃.trans hcost''⟩
      have hsync' : ∀ x ∈ g.vertices, ∀ y ∈ g.vertices,
          (∃ r, RootedAt p3 x r ∧ RootedAt p3 y r) ↔
            Linked (F ++ [(src, dst, w)]) x y := by
        intro x hx y hy
        constructor
        · rintro ⟨r, h1, h2⟩
          rw [hrooted3' x r] at h1
          rw [hrooted3' y r] at h2
          have hbr : ∀ a, a ∈ g.vertices → RootedAt parent a Y →
              Linked F a src ∨ Linked F a dst := by
            intro a haV haY
            rcases hXY with ⟨_, hyy⟩ | ⟨_, hyy⟩
            · right
              rw [hyy] at haY
              exact (hI.sync a haV dst hdstV).mp ⟨rd, haY, hrd⟩
            · left
              rw [hyy] at haY
              exact (hI.sync a haV src hsrcV).mp ⟨rs, haY, hrs⟩
          have hbx : ∀ a, a ∈ g.vertices → RootedAt parent a X →
              Linked F a src ∨ Linked F a dst := by
            intro a haV haX
            rcases hXY with ⟨hxx, _⟩ | ⟨hxx, _⟩
            · left
              rw [hxx] at haX
              exact (hI.sync a haV src hsrcV).mp ⟨rs, haX, hrs⟩
            · right
              rw [hxx] at haX
              exact (hI.sync a haV dst hdstV).mp ⟨rd, haX, hrd⟩
          have hbridge : ∀ a b, a ∈ g.vertices → b ∈ g.vertices →
              (Linked F a src ∨ Linked F a dst) →
              (Linked F b src ∨ Linked F b dst) →
              Linked (F ++ [(src, dst, w)]) a b := by
            intro a b _ _ hA hB
            have hmono : ∀ {c d : String}, Linked F c d →
                Linked (F ++ [(src, dst, w)]) c d :=
              fun h => Linked_mono (fun q hq => List.mem_append_left _ hq) h
            have hsd : Linked (F ++ [(src, dst, w)]) src dst :=
              Linked_single ⟨w, Or.inl (List.mem_append_right _
                (List.mem_singleton.mpr rfl))⟩
            rcases hA with hA | hA <;> rcases hB with hB | hB
            · exact Linked_trans (hmono hA) (Linked_symm (hmono hB))
            · exact Linked_trans (Linked_trans (hmono hA) hsd)
                (Linked_symm (hmono hB))
            · exact Linked_trans (Linked_trans (hmono hA) (Linked_symm hsd))
                (Linked_symm (hmono hB))
            · exact Linked_trans (hmono hA) (Linked_symm (hmono hB))
          rcases h1 with ⟨h1, hr1⟩ | ⟨h1, hr1⟩
          · rcases h2 with ⟨h2, hr2⟩ | ⟨h2, hr2⟩
            · exact Linked_mono (fun q hq => List.mem_append_left _ hq)
                ((hI.sync x hx y hy).mp ⟨r, h1, h2⟩)
            · subst hr2
              exact hbridge x y hx hy (hbr x hx h1) (hbx y hy h2)
          · subst hr1
            rcases h2 with ⟨h2, hr2⟩ | ⟨h2, hr2⟩
            · exact hbridge x y hx hy (hbx x hx h1) (hbr y hy h2)
            · exact hbridge x y hx hy (hbx x hx h1) (hbx y hy h2)
        · intro hl
          rcases (linked_append_single F (src, dst, w)).mp hl with
            hl | ⟨h1, h2⟩ | ⟨h1, h2⟩
          · obtain ⟨r, h1, h2⟩ := (hI.sync x hx y hy).mpr hl
            by_cases hrX : r = X
            · subst hrX
              exact ⟨Y, (hrooted3' x Y).mpr (Or.inr ⟨h1, rfl⟩),
                (hrooted3' y Y).mpr (Or.inr ⟨h2, rfl⟩)⟩
            · exact ⟨r, (hrooted3' x r).mpr (Or.inl ⟨h1, hrX⟩),
                (hrooted3' y r).mpr (Or.inl ⟨h2, hrX⟩)⟩
          · -- x ~ src, dst ~ y
            obtain ⟨r1, hx1, hs1⟩ := (hI.sync x hx src hsrcV).mpr h1
            obtain ⟨r2, hd2, hy2⟩ :=
              (hI.sync dst hdstV y hy).mpr h2
            have hxr : RootedAt parent x rs :=
              (RootedAt_unique hs1 hrs) ▸ hx1
            have hyr : RootedAt parent y rd :=
              (RootedAt_unique hd2 hrd) ▸ hy2
            refine ⟨Y, ?_, ?_⟩
            · rcases hXY with ⟨hxx, hyy⟩ | ⟨hxx, hyy⟩
              · exact (hrooted3' x Y).mpr (Or.inr ⟨hxx ▸ hxr, rfl⟩)
              · exact (hrooted3' x Y).mpr (Or.inl ⟨hyy ▸ hxr, hYX⟩)
            · rcases hXY with ⟨hxx, hyy⟩ | ⟨hxx, hyy⟩
              · exact (hrooted3' y Y).mpr (Or.inl ⟨hyy ▸ hyr, hYX⟩)
              · exact (hrooted3' y Y).mpr (Or.inr ⟨hxx ▸ hyr, rfl⟩)
          · -- x ~ dst, src ~ y
            obtain ⟨r1, hx1, hd1⟩ := (hI.sync x hx dst hdstV).mpr h1
            obtain ⟨r2, hs2, hy2⟩ :=
              (hI.sync src hsrcV y hy).mpr h2
            have hxr : RootedAt parent x rd :=
              (RootedAt_unique hd1 hrd) ▸ hx1
            have hyr : RootedAt parent y rs :=
              (RootedAt_unique hs2 hrs) ▸ hy2
            refine ⟨Y, ?_, ?_⟩
            · rcases hXY with ⟨hxx, hyy⟩ | ⟨hxx, hyy⟩
              · exact (hrooted3' x Y).mpr (Or.inl ⟨hyy ▸ hxr, hYX⟩)
              · exact (hrooted3' x Y).mpr (Or.inr ⟨hxx ▸ hxr, rfl⟩)
            · rcases hXY with ⟨hxx, hyy⟩ | ⟨hxx, hyy⟩
              · exact (hrooted3' y Y).mpr (Or.inr ⟨hxx ▸ hyr, rfl⟩)
              · exact (hrooted3' y Y).mpr (Or.inl ⟨hyy ▸ hyr, hYX⟩)
      have hcount' : rootCount g.vertices p3 +
          (F ++ [(src, dst, w)]).length = g.vertices.length := by
        have hc1 : rootCount g.vertices p3 =
            (g.vertices.filter fun v =>
              decide (IsRoot parent v ∧ v ≠ X)).length := by
          rw [rootCount, List.filter_congr]
          intro y _
          simp [hroots3' y]
        have hc2 := rootCount_drop g.vertices parent X hwf.nodup_vertices
          hXV hXroot
        have hc3 := hI.count
        rw [List.length_append, List.length_singleton]
        omega
      have hI' : KInv g rest (F ++ [(src, dst, w)]) p3 rank' :=
        { keysP := hkeys3
          closedP := hclosed3
          keysR := hrkeys3
          reach := fun x hx => by
            obtain ⟨r, hr⟩ := hI.reach x hx
            by_cases hrX : r = X
            · exact ⟨Y, (hrooted3' x Y).mpr (Or.inr ⟨hrX ▸ hr, rfl⟩)⟩
            · exact ⟨r, (hrooted3' x r).mpr (Or.inl ⟨hr, hrX⟩)⟩
          sync := hsync'
          prom := hprom'
          covered := fun e' he' => by
            rcases hI.covered e' he' with hin | hlink
            · rcases List.mem_cons.mp hin with heq | hin
              · right
                rw [heq]
                exact Linked_single ⟨w, Or.inl (List.mem_append_right _
                  (List.mem_singleton.mpr rfl))⟩
              · exact Or.inl hin
            · exact Or.inr (Linked_mono
                (fun q hq => List.mem_append_left _ hq) hlink)
          sortedRem := (List.pairwise_cons.mp hI.sortedRem).2
          remSub := fun e' he' => hI.remSub e' (List.mem_cons_of_mem _ he')
          Fsub := fun e' he' => by
            rcases List.mem_append.mp he' with h | h
            · exact hI.Fsub e' h
            · rw [List.mem_singleton] at h
              exact h ▸ hedge
          Fnodup := hF'nodup
          count := hcount' }
      have htot' : total + w = sumW (F ++ [(src, dst, w)]) := by
        rw [sumW_append, htot]
        simp [sumW]
      obtain ⟨F', total', parent', rank'', hloop, hIf, htotf⟩ :=
        ih p3 rank' (F ++ [(src, dst, w)]) (total + w) hI' htot'
      refine ⟨F', total', parent', rank'', ?_, hIf, htotf⟩
      simp only [kruskalLoop, hfind1, hfind2]
      rw [if_pos hsame, hun]
      exact hloop

theorem parentD_init (V : List String) (y : String) :
    parentD (V.map fun v => (v, v)) y = y := by
  by_cases hy : y ∈ V
  · rw [parentD, alookupD, alookup_map_self V y hy]
    rfl
  · rw [parentD, alookupD, alookup_eq_none_of_not_mem]
    · rfl
    · rw [akeys_map_pair]
      exact hy

theorem RootedAt_init (V : List String) (x r : String) :
    RootedAt (V.map fun v => (v, v)) x r ↔ x = r := by
  constructor
  · rintro ⟨k, hk, _⟩
    have hiter : ∀ n : Nat, (parentD (V.map fun v => (v, v)))^[n] x = x := by
      intro n
      induction n with
      | zero => rfl
      | succ n ih => rw [Function.iterate_succ_apply', ih, parentD_init]
    rw [← hk, hiter k]
  · rintro rfl
    exact ⟨0, rfl, parentD_init V x⟩

/-- The Kruskal invariant holds at loop entry. -/
theorem KInv_init (g : EmergencyGraph) (hwf : WellFormed g) :
    KInv g (sortW (allEdges g)) [] (g.vertices.map fun v => (v, v))
      (g.vertices.map fun v => (v, 0)) := by
  refine
    { keysP := akeys_map_pair g.vertices _
      keysR := akeys_map_pair g.vertices _
      closedP := ?_
      reach := ?_
      sync := ?_
      prom := ?_
      covered := ?_
      sortedRem := sortW_sorted _
      remSub := ?_
      Fsub := by intro e he; cases he
      Fnodup := List.nodup_nil
      count := ?_ }
  · intro x p h
    have hmem := alookup_mem _ x p h
    obtain ⟨v, hv, hvp⟩ := List.mem_map.mp hmem
    cases hvp
    exact hv
  · intro x _
    exact ⟨x, (RootedAt_init g.vertices x x).mpr rfl⟩
  · intro x _ y _
    constructor
    · rintro ⟨r, h1, h2⟩
      rw [(RootedAt_init g.vertices x r).mp h1,
        (RootedAt_init g.vertices y r).mp h2]
      exact Linked.refl _
    · intro h
      rw [Linked_nil h]
      exact ⟨y, (RootedAt_init g.vertices y y).mpr rfl,
        (RootedAt_init g.vertices y y).mpr rfl⟩
  · intro T hT
    refine ⟨T, hT, ?_, le_refl _⟩
    intro e he
    cases he
  · intro e he
    exact Or.inl ((sortW_perm (allEdges g)).mem_iff.mpr he)
  · intro e he
    exact (sortW_perm (allEdges g)).mem_iff.mp he
  · have hall : ∀ v ∈ g.vertices,
        decide (IsRoot (g.vertices.map fun v => (v, v)) v) = true := by
      intro v _
      exact decide_eq_true (parentD_init g.vertices v)
    rw [rootCount, List.filter_eq_self.mpr hall]
    simp

/-- Kruskal returns a spanning tree of minimum total weight. -/
theorem kruskal_correct (g : EmergencyGraph) (hwf : WellFormed g)
    (hconn : ConnectedG g) :
    ∃ F c, kruskalsAlgorithm g = some (F, c) ∧ IsSpanningTree g F ∧
      sumW F = c ∧
      IsLeast {x : Int | ∃ T, IsSpanningTree g T ∧ sumW T = x} c := by
  obtain ⟨F', total', parent', rank', hloop, hIf, htot⟩ :=
    kruskalLoop_spec g hwf (sortW (allEdges g))
      (g.vertices.map fun v => (v, v)) (g.vertices.map fun v => (v, 0))
      [] 0 (KInv_init g hwf) (by simp [sumW])
  have hcov : ∀ e ∈ allEdges g, Linked F' e.1 e.2.1 := by
    intro e he
    rcases hIf.covered e he with h | h
    · cases h
    · exact h
  have hconnF : ∀ x ∈ g.vertices, ∀ y ∈ g.vertices, Linked F' x y :=
    fun x hx y hy => linked_lift F' (allEdges g) hcov (hconn x hx y hy)
  have hrc : g.vertices = [] ∧ rootCount g.vertices parent' = 0 ∨
      g.vertices ≠ [] ∧ rootCount g.vertices parent' = 1 := by
    cases hV : g.vertices with
    | nil => exact Or.inl ⟨rfl, rfl⟩
    | cons v0 rest =>
      refine Or.inr ⟨by simp, ?_⟩
      have hv0V : v0 ∈ g.vertices := by rw [hV]; exact List.mem_cons_self _ _
      obtain ⟨r0, hr0⟩ := hIf.reach v0 hv0V
      have hr0V : r0 ∈ g.vertices := by
        obtain ⟨k, hk, _⟩ := hr0
        have := iterate_mem _ parent' hIf.keysP hIf.closedP k v0 hv0V
        rwa [hk] at this
      have hr0root : IsRoot parent' r0 := by
        obtain ⟨_, _, h⟩ := hr0
        exact h
      rw [← hV, rootCount]
      refine nodup_all_eq_singleton (hwf.nodup_vertices.filter _)
        (List.mem_filter.mpr ⟨hr0V, decide_eq_true hr0root⟩) ?_
      intro y hy
      have hyV := (List.mem_filter.mp hy).1
      have hyroot : IsRoot parent' y :=
        of_decide_eq_true (List.mem_filter.mp hy).2
      obtain ⟨r, hyr, hv0r⟩ := (hIf.sync y hyV v0 hv0V).mpr
        (hconnF y hyV v0 hv0V)
      have h1 : y = r := RootedAt_unique ⟨0, rfl, hyroot⟩ hyr
      have h2 : r = r0 := RootedAt_unique hv0r hr0
      rw [h1, h2]
  have hlen : F'.length = g.vertices.length - 1 := by
    have hc := hIf.count
    rcases hrc with ⟨hnil, h0⟩ | ⟨_, h1⟩
    · rw [hnil] at hc ⊢
      simp only [List.length_nil] at hc ⊢
      omega
    · omega
  have hspan : IsSpanningTree g F' := ⟨hIf.Fnodup, hIf.Fsub, hconnF, hlen⟩
  refine ⟨F', total', ?_, hspan, htot.symm, ⟨F', hspan, htot.symm⟩, ?_⟩
  · simp only [kruskalsAlgorithm, hloop]
  · rintro c ⟨T, hT, rfl⟩
    obtain ⟨T', hT', hsub, hle⟩ := hIf.prom T hT
    have hsp : List.Subperm F' T' := List.subperm_of_subset hIf.Fnodup hsub
    have hperm : F'.Perm T' := by
      apply hsp.perm_of_length_le
      rw [hT'.2.2.2, hlen]
    rw [htot, sumW_perm hperm]
    exact hle

/-! ### Prim's algorithm -/

theorem pq3Le_total : ∀ a b : Int × String × String, pq3Le a b ∨ pq3Le b a := by
  intro a b
  rcases lt_trichotomy a.1 b.1 with h1 | h1 | h1
  · exact Or.inl (Or.inl h1)
  · rcases lt_trichotomy a.2.1 b.2.1 with h2 | h2 | h2
    · exact Or.inl (Or.inr ⟨h1, Or.inl h2⟩)
    · rcases le_total a.2.2 b.2.2 with h3 | h3
      · exact Or.inl (Or.inr ⟨h1, Or.inr ⟨h2, h3⟩⟩)
      · exact Or.inr (Or.inr ⟨h1.symm, Or.inr ⟨h2.symm, h3⟩⟩)
    · exact Or.inr (Or.inr ⟨h1.symm, Or.inl h2⟩)
  · exact Or.inr (Or.inl h1)

theorem pq3Le_trans : ∀ a b c : Int × String × String,
    pq3Le a b → pq3Le b c → pq3Le a c := by
  intro a b c hab hbc
  rcases hab with h1 | ⟨h1, h2⟩
  · rcases hbc with h3 | ⟨h3, _⟩
    · exact Or.inl (h1.trans h3)
    · exact Or.inl (h3 ▸ h1)
  · rcases hbc with h3 | ⟨h3, h4⟩
    · exact Or.inl (h1 ▸ h3)
    · refine Or.inr ⟨h1.trans h3, ?_⟩
      rcases h2 with h2 | ⟨h2, h5⟩
      · rcases h4 with h4 | ⟨h4, _⟩
        · exact Or.inl (h2.trans h4)
        · exact Or.inl (h4 ▸ h2)
      · rcases h4 with h4 | ⟨h4, h6⟩
        · exact Or.inl (h2 ▸ h4)
        · exact Or.inr ⟨h2.trans h4, h5.trans h6⟩

theorem canon_w (e : String × String × Int) : (canon e).2.2 = e.2.2 := by
  rw [canon]
  split <;> rfl

theorem sumW_map_canon (l : List (String × String × Int)) :
    sumW (l.map canon) = sumW l := by
  rw [sumW, sumW, List.map_map]
  have h : ((fun e : String × String × Int => e.2.2) ∘ canon) =
      fun e : String × String × Int => e.2.2 := funext fun e => canon_w e
  rw [h]

theorem canon_between (a b : String) (w : Int) :
    EdgeBetween [canon (a, b, w)] a b := by
  rw [canon]
  split
  · exact ⟨w, Or.inl (List.mem_singleton.mpr rfl)⟩
  · exact ⟨w, Or.inr (List.mem_singleton.mpr rfl)⟩

theorem canon_ends (a b : String) (w : Int) :
    (canon (a, b, w)).1 = a ∧ (canon (a, b, w)).2.1 = b ∨
      (canon (a, b, w)).1 = b ∧ (canon (a, b, w)).2.1 = a := by
  rw [canon]
  split
  · exact Or.inl ⟨rfl, rfl⟩
  · exact Or.inr ⟨rfl, rfl⟩

theorem nbr_mem_vertices (g : EmergencyGraph) (hwf : WellFormed g)
    {u v : String} {w : Int} (h : (v, w) ∈ getNeighbors g u) :
    v ∈ g.vertices := by
  cases hn : alookup g.edges u with
  | none =>
    rw [getNeighbors_eq_getD, hn] at h
    cases h
  | some nbrs =>
    rw [getNeighbors_eq_getD, hn] at h
    simp only [Option.getD_some] at h
    exact (hwf.nbrs_closed u nbrs hn).1 _ h

theorem canon_mem_allEdges (g : EmergencyGraph) (hsym : EdgeSym g)
    {a b : String} {w : Int} (hab : a ≠ b) (haV : a ∈ g.vertices)
    (hbV : b ∈ g.vertices) (hnb : (b, w) ∈ getNeighbors g a) :
    canon (a, b, w) ∈ allEdges g := by
  rw [canon]
  by_cases h : a < b
  · rw [if_pos h]
    exact (mem_allEdges g a b w).mpr ⟨haV, hnb, h⟩
  · rw [if_neg h]
    have hba : b < a := (lt_or_gt_of_ne hab).resolve_left h
    exact (mem_allEdges g b a w).mpr ⟨hbV, hsym a b w hnb, hba⟩

/-- The greedy exchange step for an arbitrary cut: a lightest cut-crossing
edge can be forced into a minimum spanning tree containing the
within-cut forest `F`. -/
theorem promising_step_cut (g : EmergencyGraph)
    (F T'' : List (String × String × Int)) (C : String → Prop)
    (ea eb : String) (ew : Int)
    (heV1 : ea ∈ g.vertices) (heV2 : eb ∈ g.vertices)
    (hcrossE : (C ea ∧ ¬ C eb) ∨ (C eb ∧ ¬ C ea))
    (henew : (ea, eb, ew) ∈ allEdges g)
    (hFC : ∀ q ∈ F, C q.1 ∧ C q.2.1)
    (hwmin : ∀ f ∈ allEdges g,
      ((C f.1 ∧ ¬ C f.2.1) ∨ (C f.2.1 ∧ ¬ C f.1)) → ew ≤ f.2.2)
    (hT : IsSpanningTree g T'') (hsub : ∀ q ∈ F, q ∈ T'') :
    ∃ T₃, IsSpanningTree g T₃ ∧ (∀ q ∈ F ++ [(ea, eb, ew)], q ∈ T₃) ∧
      sumW T₃ ≤ sumW T'' := by
  obtain ⟨hnd, hTsub, hspan, hlen⟩ := hT
  by_cases he : (ea, eb, ew) ∈ T''
  · refine ⟨T'', ⟨hnd, hTsub, hspan, hlen⟩, ?_, le_refl _⟩
    intro q hq
    rcases List.mem_append.mp hq with h | h
    · exact hsub q h
    · rw [List.mem_singleton] at h
      exact h ▸ he
  · have hexch : ∃ f ∈ T'', ((C f.1 ∧ ¬ C f.2.1) ∨ (C f.2.1 ∧ ¬ C f.1)) ∧
        Linked (T''.erase f ++ [(ea, eb, ew)]) f.1 f.2.1 := by
      rcases hcrossE with ⟨h1, h2⟩ | ⟨h1, h2⟩
      · exact exchange_edge C ea eb h1 h2 (ea, eb, ew)
          ⟨ew, Or.inl (List.mem_singleton.mpr rfl)⟩ T''.length T''
          (le_refl _) (hspan ea heV1 eb heV2)
      · exact exchange_edge C eb ea h1 h2 (ea, eb, ew)
          ⟨ew, Or.inr (List.mem_singleton.mpr rfl)⟩ T''.length T''
          (le_refl _) (hspan eb heV2 ea heV1)
    obtain ⟨f, hfT, hcross, hre⟩ := hexch
    have hfF : f ∉ F := by
      intro hfF
      rcases hcross with ⟨_, h2⟩ | ⟨_, h2⟩
      · exact h2 (hFC f hfF).2
      · exact h2 (hFC f hfF).1
    have hwf : ew ≤ f.2.2 := hwmin f (hTsub f hfT) hcross
    refine ⟨T''.erase f ++ [(ea, eb, ew)], ⟨?_, ?_, ?_, ?_⟩, ?_, ?_⟩
    · rw [List.nodup_append]
      refine ⟨hnd.erase f, List.nodup_singleton _, ?_⟩
      intro q hq hb
      rw [List.mem_singleton] at hb
      subst hb
      exact he (List.mem_of_mem_erase hq)
    · intro q hq
      rcases List.mem_append.mp hq with h | h
      · exact hTsub q (List.mem_of_mem_erase h)
      · rw [List.mem_singleton] at h
        exact h ▸ henew
    · intro x hx y hy
      exact linked_swap hre (hspan x hx y hy)
    · rw [List.length_append, List.length_erase_of_mem hfT,
        List.length_singleton]
      have : 1 ≤ T''.length := List.length_pos.mpr (by
        intro h
        rw [h] at hfT
        cases hfT)
      omega
    · intro q hq
      rcases List.mem_append.mp hq with h | h
      · refine List.mem_append_left _
          ((List.mem_erase_of_ne ?_).mpr (hsub q h))
        intro hh
        rw [hh] at h
        exact hfF h
      · exact List.mem_append_right _ h
    · rw [sumW_append, sumW_erase T'' f hfT]
      have hsw : sumW [(ea, eb, ew)] = ew := by simp [sumW]
      rw [hsw]
      omega

/-- The loop invariant of `prims_algorithm`. -/
structure PInv (g : EmergencyGraph) (st : PState) : Prop where
  vsub : ∀ v ∈ st.visited, v ∈ g.vertices
  vnodup : st.visited.Nodup
  vlen : st.visited.length = st.mst.length + 1
  vconn : ∀ x ∈ st.visited, ∀ y ∈ st.visited, Linked (st.mst.map canon) x y
  msub : ∀ e ∈ st.mst.map canon, e ∈ allEdges g
  mnodup : (st.mst.map canon).Nodup
  mvis : ∀ e ∈ st.mst.map canon, e.1 ∈ st.visited ∧ e.2.1 ∈ st.visited
  qvalid : ∀ q ∈ st.queue, q.2.1 ∈ st.visited ∧
    (q.2.2, q.1) ∈ getNeighbors g q.2.1
  qcomp : ∀ a ∈ st.visited, ∀ b wt, b ∉ st.visited →
    (b, wt) ∈ getNeighbors g a → (wt, a, b) ∈ st.queue
  prom : ∀ T, IsSpanningTree g T → ∃ T', IsSpanningTree g T' ∧
    (∀ e ∈ st.mst.map canon, e ∈ T') ∧ sumW T' ≤ sumW T
  tot : st.total = sumW st.mst

/-- One Prim iteration preserves the invariant. -/
theorem primStep_PInv (g : EmergencyGraph) (hwf : WellFormed g)
    (hsym : EdgeSym g) (st : PState) (hI : PInv g st) :
    PInv g (primStep g st) := by
  cases hpop : popMin pq3Le st.queue with
  | none =>
    simp only [primStep, hpop]
    exact hI
  | some p =>
    obtain ⟨⟨w, src, dst⟩, q'⟩ := p
    have hperm := popMin_perm pq3Le st.queue _ _ hpop
    simp only [primStep, hpop]
    by_cases hvis : dst ∈ st.visited
    · rw [if_pos hvis]
      refine
        { vsub := hI.vsub
          vnodup := hI.vnodup
          vlen := hI.vlen
          vconn := hI.vconn
          msub := hI.msub
          mnodup := hI.mnodup
          mvis := hI.mvis
          qvalid := ?_
          qcomp := ?_
          prom := hI.prom
          tot := hI.tot }
      · intro q hq
        exact hI.qvalid q (hperm.mem_iff.mpr (List.mem_cons_of_mem _ hq))
      · intro a ha b wt hb hnb
        have hmem := hperm.mem_iff.mp (hI.qcomp a ha b wt hb hnb)
        rcases List.mem_cons.mp hmem with heq | hmem
        · exfalso
          have hbd : b = dst := congrArg (fun q => q.2.2) heq
          rw [hbd] at hb
          exact hb hvis
        · exact hmem
    · rw [if_neg hvis]
      have hm := popMin_mem pq3Le st.queue _ _ hpop
      have hqv := hI.qvalid _ hm
      have hsrcvis : src ∈ st.visited := hqv.1
      have hnb : (dst, w) ∈ getNeighbors g src := hqv.2
      have hsrcV : src ∈ g.vertices := hI.vsub src hsrcvis
      have hdstV : dst ∈ g.vertices := nbr_mem_vertices g hwf hnb
      have hne : src ≠ dst := fun h => hvis (h ▸ hsrcvis)
      have hcanonE : canon (src, dst, w) ∈ allEdges g :=
        canon_mem_allEdges g hsym hne hsrcV hdstV hnb
      have hce := canon_ends src dst w
      have hmapC : (st.mst ++ [(src, dst, w)]).map canon =
          st.mst.map canon ++ [canon (src, dst, w)] := by
        rw [List.map_append]
        rfl
      have hmono : ∀ {x y : String}, Linked (st.mst.map canon) x y →
          Linked (st.mst.map canon ++ [canon (src, dst, w)]) x y :=
        fun h => Linked_mono (fun q hq => List.mem_append_left _ hq) h
      have hnewlink :
          Linked (st.mst.map canon ++ [canon (src, dst, w)]) src dst :=
        Linked_single (EdgeBetween_mono
          (fun q hq => List.mem_append_right _ hq) (canon_between src dst w))
      have hxd : ∀ x ∈ st.visited,
          Linked (st.mst.map canon ++ [canon (src, dst, w)]) x dst :=
        fun x hx =>
          Linked_trans (hmono (hI.vconn x hx src hsrcvis)) hnewlink
      refine
        { vsub := ?_
          vnodup := ?_
          vlen := ?_
          vconn := ?_
          msub := ?_
          mnodup := ?_
          mvis := ?_
          qvalid := ?_
          qcomp := ?_
          prom := ?_
          tot := ?_ }
      · intro v hv
        rcases List.mem_append.mp hv with h | h
        · exact hI.vsub v h
        · rw [List.mem_singleton] at h
          exact h ▸ hdstV
      · rw [List.nodup_append]
        refine ⟨hI.vnodup, List.nodup_singleton _, ?_⟩
        intro a ha hb
        rw [List.mem_singleton] at hb
        subst hb
        exact hvis ha
      · simp only [List.length_append, List.length_singleton]
        rw [hI.vlen]
      · intro x hx y hy
        rw [hmapC]
        rcases List.mem_append.mp hx with h1 | h1 <;>
          rcases List.mem_append.mp hy with h2 | h2
        · exact hmono (hI.vconn x h1 y h2)
        · rw [List.mem_singleton] at h2
          subst h2
          exact hxd x h1
        · rw [List.mem_singleton] at h1
          subst h1
          exact Linked_symm (hxd y h2)
        · rw [List.mem_singleton] at h1 h2
          rw [h1, h2]
          exact Linked.refl _
      · intro e he
        rw [hmapC] at he
        rcases List.mem_append.mp he with h | h
        · exact hI.msub e h
        · rw [List.mem_singleton] at h
          exact h ▸ hcanonE
      · rw [hmapC, List.nodup_append]
        refine ⟨hI.mnodup, List.nodup_singleton _, ?_⟩
        intro e he hb
        rw [List.mem_singleton] at hb
        subst hb
        rcases hce with ⟨_, h2⟩ | ⟨h1, _⟩
        · exact hvis (h2 ▸ (hI.mvis _ he).2)
        · exact hvis (h1 ▸ (hI.mvis _ he).1)
      · intro e he
        rw [hmapC] at he
        rcases List.mem_append.mp he with h | h
        · exact ⟨List.mem_append_left _ (hI.mvis e h).1,
            List.mem_append_left _ (hI.mvis e h).2⟩
        · rw [List.mem_singleton] at h
          subst h
          rcases hce with ⟨h1, h2⟩ | ⟨h1, h2⟩
          · constructor
            · rw [h1]
              exact List.mem_append_left _ hsrcvis
            · rw [h2]
              exact List.mem_append_right _ (List.mem_singleton.mpr rfl)
          · constructor
            · rw [h1]
              exact List.mem_append_right _ (List.mem_singleton.mpr rfl)
            · rw [h2]
              exact List.mem_append_left _ hsrcvis
      · intro q hq
        rcases List.mem_append.mp hq with h | h
        · have hold := hI.qvalid q
            (hperm.mem_iff.mpr (List.mem_cons_of_mem _ h))
          exact ⟨List.mem_append_left _ hold.1, hold.2⟩
        · obtain ⟨p, hp, hsome⟩ := List.mem_filterMap.mp h
          by_cases hc : p.1 ∈ st.visited ++ [dst]
          · rw [if_pos hc] at hsome
            cases hsome
          · rw [if_neg hc] at hsome
            have hq2 : q = (p.2, dst, p.1) := (Option.some.inj hsome).symm
            rw [hq2]
            exact ⟨List.mem_append_right _ (List.mem_singleton.mpr rfl),
              hp⟩
      · intro a ha b wt hb hnbr
        have hbold : b ∉ st.visited := fun h => hb (List.mem_append_left _ h)
        rcases List.mem_append.mp ha with h | h
        · have hmem := hperm.mem_iff.mp (hI.qcomp a h b wt hbold hnbr)
          rcases List.mem_cons.mp hmem with heq | hmem
          · exfalso
            have hbd : b = dst := congrArg (fun q => q.2.2) heq
            rw [hbd] at hb
            exact hb (List.mem_append_right _ (List.mem_singleton.mpr rfl))
          · exact List.mem_append_left _ hmem
        · rw [List.mem_singleton] at h
          subst h
          refine List.mem_append_right _ (List.mem_filterMap.mpr
            ⟨(b, wt), hnbr, ?_⟩)
          rw [if_neg hb]
      · intro T hT
        obtain ⟨T', hT', hsubF, hle⟩ := hI.prom T hT
        have heV1 : (canon (src, dst, w)).1 ∈ g.vertices := by
          rcases hce with ⟨h1, _⟩ | ⟨h1, _⟩
          · rw [h1]; exact hsrcV
          · rw [h1]; exact hdstV
        have heV2 : (canon (src, dst, w)).2.1 ∈ g.vertices := by
          rcases hce with ⟨_, h2⟩ | ⟨_, h2⟩
          · rw [h2]; exact hdstV
          · rw [h2]; exact hsrcV
        have hcrossE : ((canon (src, dst, w)).1 ∈ st.visited ∧
              ¬ (canon (src, dst, w)).2.1 ∈ st.visited) ∨
            ((canon (src, dst, w)).2.1 ∈ st.visited ∧
              ¬ (canon (src, dst, w)).1 ∈ st.visited) := by
          rcases hce with ⟨h1, h2⟩ | ⟨h1, h2⟩
          · exact Or.inl ⟨by rw [h1]; exact hsrcvis, by rw [h2]; exact hvis⟩
          · exact Or.inr ⟨by rw [h2]; exact hsrcvis, by rw [h1]; exact hvis⟩
        have hwmin : ∀ f ∈ allEdges g,
            ((f.1 ∈ st.visited ∧ ¬ f.2.1 ∈ st.visited) ∨
              (f.2.1 ∈ st.visited ∧ ¬ f.1 ∈ st.visited)) →
            (canon (src, dst, w)).2.2 ≤ f.2.2 := by
          intro f hf hcross
          rw [canon_w]
          obtain ⟨a', b', w'⟩ := f
          have hf' := (mem_allEdges g a' b' w').mp hf
          have hqmem : (w', a', b') ∈ st.queue ∨ (w', b', a') ∈ st.queue := by
            rcases hcross with ⟨h1, h2⟩ | ⟨h1, h2⟩
            · exact Or.inl (hI.qcomp a' h1 b' w' h2 hf'.2.1)
            · exact Or.inr (hI.qcomp b' h1 a' w' h2 (hsym a' b' w' hf'.2.1))
          have hle' : ∀ x ∈ st.queue, pq3Le (w, src, dst) x :=
            popMin_le pq3Le pq3Le_total pq3Le_trans st.queue _ _ hpop
          rcases hqmem with hq | hq
          · rcases hle' _ hq with h | ⟨h, _⟩
            · exact le_of_lt h
            · exact le_of_eq h
          · rcases hle' _ hq with h | ⟨h, _⟩
            · exact le_of_lt h
            · exact le_of_eq h
        have hFC : ∀ q ∈ st.mst.map canon,
            q.1 ∈ st.visited ∧ q.2.1 ∈ st.visited := hI.mvis
        obtain ⟨T₃, hT₃, hsub₃, hle₃⟩ := promising_step_cut g
          (st.mst.map canon) T' (fun x => x ∈ st.visited)
          (canon (src, dst, w)).1 (canon (src, dst, w)).2.1
          (canon (src, dst, w)).2.2 heV1 heV2 hcrossE hcanonE hFC hwmin
          hT' hsubF
        refine ⟨T₃, hT₃, ?_, hle₃.trans hle⟩
        rw [hmapC]
        exact hsub₃
      · rw [sumW_append, hI.tot]
        simp [sumW]

/-- Each drained iteration strictly decreases queue length plus
unvisited degree. -/
theorem primStep_measure (g : EmergencyGraph) (st : PState)
    (m : Int × String × String) (q' : List (Int × String × String))
    (hpop : popMin pq3Le st.queue = some (m, q')) :
    (primStep g st).queue.length + unvisitedDeg g (primStep g st).visited <
      st.queue.length + unvisitedDeg g st.visited := by
  obtain ⟨w, src, dst⟩ := m
  have hql : st.queue.length = q'.length + 1 :=
    popMin_length pq3Le st.queue _ _ hpop
  simp only [primStep, hpop]
  by_cases hvis : dst ∈ st.visited
  · rw [if_pos hvis]
    dsimp only
    omega
  · rw [if_neg hvis]
    dsimp only
    simp only [List.length_append]
    by_cases hk : dst ∈ akeys g.edges
    · have hfm : ((getNeighbors g dst).filterMap fun p =>
          if p.1 ∈ st.visited ++ [dst] then none
          else some (p.2, dst, p.1)).length ≤ (getNeighbors g dst).length :=
        List.length_filterMap_le _ _
      have hdrop := unvisitedDeg_drop g st.visited dst hvis hk
      omega
    · have hnil : getNeighbors g dst = [] := by
        rw [getNeighbors_eq_getD, alookup_eq_none_of_not_mem _ _ hk]
        rfl
      rw [hnil]
      simp only [List.filterMap_nil, List.length_nil]
      have hmono := unvisitedDeg_mono g st.visited dst
      omega

/-- The Prim loop preserves the invariant. -/
theorem primLoop_PInv (g : EmergencyGraph) (hwf : WellFormed g)
    (hsym : EdgeSym g) :
    ∀ (fuel : Nat) (st : PState), PInv g st →
      PInv g (primLoop g fuel st) := by
  intro fuel
  induction fuel with
  | zero => intro st hI; exact hI
  | succ n ih =>
    intro st hI
    rw [primLoop]
    by_cases hc : st.queue = [] ∨ g.vertices.length ≤ st.visited.length
    · rw [if_pos hc]
      exact hI
    · rw [if_neg hc]
      exact ih _ (primStep_PInv g hwf hsym st hI)

/-- With enough fuel the Prim loop reaches its exit condition. -/
theorem primLoop_exit (g : EmergencyGraph) :
    ∀ (fuel : Nat) (st : PState),
      st.queue.length + unvisitedDeg g st.visited < fuel →
      (primLoop g fuel st).queue = [] ∨
        g.vertices.length ≤ (primLoop g fuel st).visited.length := by
  intro fuel
  induction fuel with
  | zero => intro st h; exact absurd h (Nat.not_lt_zero _)
  | succ n ih =>
    intro st h
    rw [primLoop]
    by_cases hc : st.queue = [] ∨ g.vertices.length ≤ st.visited.length
    · rw [if_pos hc]
      exact hc
    · rw [if_neg hc]
      apply ih
      cases hpop : popMin pq3Le st.queue with
      | none =>
        exact absurd ((popMin_eq_none_iff pq3Le st.queue).mp hpop)
          fun hq => hc (Or.inl hq)
      | some p =>
        obtain ⟨m, q'⟩ := p
        have := primStep_measure g st m q' hpop
        omega

/-- The Prim invariant holds at loop entry. -/
theorem PInv_init (g : EmergencyGraph) (start : String)
    (hstartV : start ∈ g.vertices) :
    PInv g ⟨(getNeighbors g start).map fun p => (p.2, start, p.1),
      [start], [], 0⟩ := by
  refine
    { vsub := ?_
      vnodup := List.nodup_singleton _
      vlen := rfl
      vconn := ?_
      msub := by intro e he; cases he
      mnodup := List.nodup_nil
      mvis := by intro e he; cases he
      qvalid := ?_
      qcomp := ?_
      prom := ?_
      tot := by simp [sumW] }
  · intro v hv
    rw [List.mem_singleton] at hv
    exact hv ▸ hstartV
  · intro x hx y hy
    rw [List.mem_singleton] at hx hy
    rw [hx, hy]
    exact Linked.refl _
  · intro q hq
    obtain ⟨p, hp, hpq⟩ := List.mem_map.mp hq
    obtain ⟨b, wt⟩ := p
    rw [← hpq]
    exact ⟨List.mem_singleton.mpr rfl, hp⟩
  · intro a ha b wt hb hnb
    rw [List.mem_singleton] at ha
    subst ha
    exact List.mem_map.mpr ⟨(b, wt), hnb, rfl⟩
  · intro T hT
    refine ⟨T, hT, ?_, le_refl _⟩
    intro e he
    cases he

/-- The Prim fuel bounds the initial measure. -/
theorem prim_init_measure (g : EmergencyGraph) (hwf : WellFormed g)
    (start : String) :
    ((getNeighbors g start).map fun p => (p.2, start, p.1)).length +
      unvisitedDeg g [start] < 1 + totalDeg g := by
  rw [List.length_map]
  have hnil := unvisitedDeg_nil g hwf.nodup_keys
  by_cases hk : start ∈ akeys g.edges
  · have h := unvisitedDeg_drop g [] start (List.not_mem_nil start) hk
    simp only [List.nil_append] at h
    omega
  · have hzero : getNeighbors g start = [] := by
      rw [getNeighbors_eq_getD, alookup_eq_none_of_not_mem _ _ hk]
      rfl
    rw [hzero]
    have hmono := unvisitedDeg_mono g [] start
    simp only [List.nil_append] at hmono
    simp only [List.length_nil]
    omega

/-- Prim returns a spanning tree of minimum total weight. -/
theorem prim_correct (g : EmergencyGraph) (hwf : WellFormed g)
    (hsym : EdgeSym g) (hconn : ConnectedG g) :
    ∃ pe c, primsAlgorithm g = (pe, c) ∧ sumW (pe.map canon) = c ∧
      IsSpanningTree g (pe.map canon) ∧
      IsLeast {x : Int | ∃ T, IsSpanningTree g T ∧ sumW T = x} c := by
  cases hV : g.vertices with
  | nil =>
    have hspan : IsSpanningTree g [] := by
      refine ⟨List.nodup_nil, ?_, ?_, ?_⟩
      · intro e he
        cases he
      · intro x hx
        rw [hV] at hx
        cases hx
      · rw [hV]
        rfl
    refine ⟨[], 0, ?_, by simp [sumW], hspan, ⟨[], hspan, by simp [sumW]⟩, ?_⟩
    · simp only [primsAlgorithm, hV]
    · rintro c ⟨T, hT, rfl⟩
      have hTnil : T = [] := by
        have := hT.2.2.2
        rw [hV] at this
        simpa using List.length_eq_zero.mp this
      rw [hTnil]
      simp [sumW]
  | cons start rest =>
    have hstartV : start ∈ g.vertices := by
      rw [hV]
      exact List.mem_cons_self _ _
    have hIf := primLoop_PInv g hwf hsym (1 + totalDeg g)
      ⟨(getNeighbors g start).map fun p => (p.2, start, p.1), [start], [], 0⟩
      (PInv_init g start hstartV)
    have hexit := primLoop_exit g (1 + totalDeg g)
      ⟨(getNeighbors g start).map fun p => (p.2, start, p.1), [start], [], 0⟩
      (prim_init_measure g hwf start)
    have halg : primsAlgorithm g =
        ((primLoop g (1 + totalDeg g)
          ⟨(getNeighbors g start).map fun p => (p.2, start, p.1),
            [start], [], 0⟩).mst,
         (primLoop g (1 + totalDeg g)
          ⟨(getNeighbors g start).map fun p => (p.2, start, p.1),
            [start], [], 0⟩).total) := by
      simp only [primsAlgorithm, hV]
    generalize hres : primLoop g (1 + totalDeg g)
      ⟨(getNeighbors g start).map fun p => (p.2, start, p.1),
        [start], [], 0⟩ = res at hIf hexit halg
    have hcover : g.vertices.length ≤ res.visited.length := by
      rcases hexit with hq | hv
      · by_contra hlt
        push_neg at hlt
        have hex : ∃ y ∈ g.vertices, y ∉ res.visited := by
          by_contra hno
          push_neg at hno
          have := (List.subperm_of_subset hwf.nodup_vertices hno).length_le
          omega
        obtain ⟨y, hyV, hyvis⟩ := hex
        have hpos : 0 < res.visited.length := by
          rw [hIf.vlen]
          omega
        obtain ⟨x0, hx0⟩ :=
          List.exists_mem_of_ne_nil _ (List.length_pos.mp hpos)
        obtain ⟨f, hfE, hcross⟩ := linked_cross (fun x => x ∈ res.visited)
          (hconn x0 (hIf.vsub x0 hx0) y hyV) hx0 hyvis
        obtain ⟨a', b', w'⟩ := f
        have hf' := (mem_allEdges g a' b' w').mp hfE
        rcases hcross with ⟨h1, h2⟩ | ⟨h1, h2⟩
        · have hqm := hIf.qcomp a' h1 b' w' h2 hf'.2.1
          rw [hq] at hqm
          cases hqm
        · have hqm := hIf.qcomp b' h1 a' w' h2 (hsym a' b' w' hf'.2.1)
          rw [hq] at hqm
          cases hqm
      · exact hv
    have hperm : res.visited.Perm g.vertices :=
      (List.subperm_of_subset hIf.vnodup hIf.vsub).perm_of_length_le hcover
    have hlenF : (res.mst.map canon).length = g.vertices.length - 1 := by
      rw [List.length_map]
      have h1 := hIf.vlen
      have h2 := hperm.length_eq
      omega
    have hspan : IsSpanningTree g (res.mst.map canon) :=
      ⟨hIf.mnodup, hIf.msub,
        fun x hx y hy => hIf.vconn x (hperm.mem_iff.mpr hx) y
          (hperm.mem_iff.mpr hy), hlenF⟩
    have hcost : sumW (res.mst.map canon) = res.total := by
      rw [sumW_map_canon]
      exact hIf.tot.symm
    refine ⟨res.mst, res.total, halg, hcost, hspan,
      ⟨res.mst.map canon, hspan, hcost⟩, ?_⟩
    rintro c ⟨T, hT, rfl⟩
    obtain ⟨T', hT', hsubF, hle⟩ := hIf.prom T hT
    have hsp : List.Subperm (res.mst.map canon) T' :=
      List.subperm_of_subset hIf.mnodup hsubF
    have hpm : (res.mst.map canon).Perm T' := by
      apply hsp.perm_of_length_le
      rw [hT'.2.2.2, hlenF]
    calc res.total = sumW (res.mst.map canon) := hcost.symm
      _ = sumW T' := sumW_perm hpm
      _ ≤ sumW T := hle

/-- The sample city's adjacency store is symmetric, as `add_edge`
maintains. -/
theorem createSampleCity_sym : EdgeSym createSampleCity := by
  intro u v w h
  cases hn : alookup createSampleCity.edges u with
  | none =>
    rw [getNeighbors_eq_getD, hn] at h
    cases h
  | some nbrs =>
    have hm := alookup_mem _ _ _ hn
    rw [getNeighbors_eq_getD, hn] at h
    simp only [Option.getD_some] at h
    have he : createSampleCity.edges =
        [("HQ", [("A", 5), ("B", 10)]),
         ("A", [("HQ", 5), ("B", 3), ("C", 8)]),
         ("B", [("HQ", 10), ("A", 3), ("C", 6), ("D", 7)]),
         ("C", [("A", 8), ("B", 6), ("D", 4)]),
         ("D", [("B", 7), ("C", 4)])] := by decide
    rw [he] at hm
    simp only [List.mem_cons, List.not_mem_nil, or_false] at hm
    rcases hm with h1 | h1 | h1 | h1 | h1
    · rw [Prod.mk.injEq] at h1
      obtain ⟨rfl, rfl⟩ := h1
      simp only [List.mem_cons, List.not_mem_nil, or_false,
        Prod.mk.injEq] at h
      rcases h with ⟨rfl, rfl⟩ | ⟨rfl, rfl⟩ <;> decide
    · rw [Prod.mk.injEq] at h1
      obtain ⟨rfl, rfl⟩ := h1
      simp only [List.mem_cons, List.not_mem_nil, or_false,
        Prod.mk.injEq] at h
      rcases h with ⟨rfl, rfl⟩ | ⟨rfl, rfl⟩ | ⟨rfl, rfl⟩ <;> decide
    · rw [Prod.mk.injEq] at h1
      obtain ⟨rfl, rfl⟩ := h1
      simp only [List.mem_cons, List.not_mem_nil, or_false,
        Prod.mk.injEq] at h
      rcases h with ⟨rfl, rfl⟩ | ⟨rfl, rfl⟩ | ⟨rfl, rfl⟩ | ⟨rfl, rfl⟩ <;>
        decide
    · rw [Prod.mk.injEq] at h1
      obtain ⟨rfl, rfl⟩ := h1
      simp only [List.mem_cons, List.not_mem_nil, or_false,
        Prod.mk.injEq] at h
      rcases h with ⟨rfl, rfl⟩ | ⟨rfl, rfl⟩ | ⟨rfl, rfl⟩ <;> decide
    · rw [Prod.mk.injEq] at h1
      obtain ⟨rfl, rfl⟩ := h1
      simp only [List.mem_cons, List.not_mem_nil, or_false,
        Prod.mk.injEq] at h
      rcases h with ⟨rfl, rfl⟩ | ⟨rfl, rfl⟩ <;> decide

/-- The sample city is connected. -/
theorem createSampleCity_conn : ConnectedG createSampleCity := by
  have hlinkA : ∀ x ∈ createSampleCity.vertices,
      Linked (allEdges createSampleCity) x "A" := by
    intro x hx
    have hv : createSampleCity.vertices = ["HQ", "A", "B", "C", "D"] := by
      decide
    rw [hv] at hx
    simp only [List.mem_cons, List.not_mem_nil, or_false] at hx
    rcases hx with rfl | rfl | rfl | rfl | rfl
    · exact Linked_single ⟨5, Or.inr (by decide)⟩
    · exact Linked.refl _
    · exact Linked_single ⟨3, Or.inr (by decide)⟩
    · exact Linked_single ⟨8, Or.inr (by decide)⟩
    · exact Linked_trans
        (Linked_single (⟨4, Or.inr (by decide)⟩ :
          EdgeBetween (allEdges createSampleCity) "D" "C"))
        (Linked_single (⟨8, Or.inr (by decide)⟩ :
          EdgeBetween (allEdges createSampleCity) "C" "A"))
  intro x hx y hy
  exact Linked_trans (hlinkA x hx) (Linked_symm (hlinkA y hy))

/-- C2: on every well-formed, symmetric, connected graph,
`kruskals_algorithm` and `prims_algorithm` both return the minimum
possible spanning-tree total weight — the same cost `c`, even though
their edge lists may differ. -/
theorem mst_algorithms_agree (g : EmergencyGraph) (hwf : WellFormed g)
    (hsym : EdgeSym g) (hconn : ConnectedG g) :
    ∃ ke pe c, kruskalsAlgorithm g = some (ke, c) ∧
      primsAlgorithm g = (pe, c) ∧
      IsSpanningTree g ke ∧ IsSpanningTree g (pe.map canon) ∧
      IsLeast {x : Int | ∃ T, IsSpanningTree g T ∧ sumW T = x} c := by
  obtain ⟨ke, ck, hkalg, hkspan, hkc, hkleast⟩ := kruskal_correct g hwf hconn
  obtain ⟨pe, cp, hpalg, hpc, hpspan, hpleast⟩ :=
    prim_correct g hwf hsym hconn
  have hcc : cp = ck := hpleast.unique hkleast
  refine ⟨ke, pe, ck, hkalg, ?_, hkspan, hpspan, hkleast⟩
  rw [← hcc]
  exact hpalg

/-- C2 witness: the hypotheses hold and the conclusion follows on the
sample city. -/
theorem mst_algorithms_agree_witness :
    WellFormed createSampleCity ∧ EdgeSym createSampleCity ∧
      ConnectedG createSampleCity ∧
      ∃ ke pe c, kruskalsAlgorithm createSampleCity = some (ke, c) ∧
        primsAlgorithm createSampleCity = (pe, c) ∧
        IsSpanningTree createSampleCity ke ∧
        IsSpanningTree createSampleCity (pe.map canon) ∧
        IsLeast {x : Int | ∃ T, IsSpanningTree createSampleCity T ∧
          sumW T = x} c :=
  ⟨createSampleCity_wf, createSampleCity_sym, createSampleCity_conn,
    mst_algorithms_agree createSampleCity createSampleCity_wf
      createSampleCity_sym createSampleCity_conn⟩

end ERM
